import Mathlib

/-!
# hOCR metadata decoding: a verification development

Shallow embedding of `pkg/hocr/hocr.go` and of the functions `saveline` and `main` of
`cmd/extracthocrlines/main.go`.

Modelling conventions.

* A Go `string` is a `List Char`.  The source only ever splits and trims on the
  ASCII characters `';'`, `' '` and `'\n'`, so working on code points instead of
  UTF-8 bytes does not change any result on well-formed text.
* A Go function can end in a run-time panic (an index out of range).  `Run α`
  records that: `Run.done a` is a normal return of `a`, `Run.crash p` is a panic.
* A Go `(T, error)` result is the pair `T × Option GoError`; `none` is `nil`.
* A Go `map[string]string` is an association list that holds each key at most
  once; `GoMap.store` is the assignment `r[k] = v`.  The order of the list is
  the order of first insertion and is not observable through `GoMap.lookup`.
-/

namespace GoHocr

/-- A Go string, as its sequence of characters. -/
abbrev GoString := List Char

/-- Run-time panics of the Go runtime that the embedded code can raise. -/
inductive GoPanic where
  /-- Panic `index out of range [index] with length len`. -/
  | indexOutOfRange (index len : Nat)
  /-- Panic `invalid memory address or nil pointer dereference`. -/
  | nilDereference
  deriving DecidableEq, Repr

/-- Outcome of running a Go function: a normal return, or a panic. -/
inductive Run (α : Type) where
  | done (a : α)
  | crash (p : GoPanic)
  deriving DecidableEq, Repr

/-- Sequencing of Go statements: a panic aborts everything after it. -/
def Run.bind {α β : Type} (x : Run α) (f : α → Run β) : Run β :=
  match x with
  | Run.done a => f a
  | Run.crash p => Run.crash p

/-- Slice indexing `xs[i]`, which panics when `i` is out of range. -/
def index {α : Type} (xs : List α) (i : Nat) : Run α :=
  match xs.get? i with
  | some a => Run.done a
  | none => Run.crash (GoPanic.indexOutOfRange i xs.length)

/-! ## The `strings` functions used by the source -/

/-- Go `strings.Split(s, sep)` for a one-character separator `sep`: the pieces
of `s` between the occurrences of `sep`; a string without `sep` (the empty
string too) gives the one-element slice holding `s`. -/
def Split : GoString → Char → List GoString
  | [], _ => [[]]
  | c :: cs, sep =>
    if c = sep then [] :: Split cs sep
    else
      match Split cs sep with
      | [] => [[c]]
      | p :: ps => (c :: p) :: ps

/-- Go `strings.TrimLeft(s, cutset)`. -/
def TrimLeft (s cutset : GoString) : GoString :=
  s.dropWhile (fun c => decide (c ∈ cutset))

/-- Go `strings.TrimRight(s, cutset)`. -/
def TrimRight (s cutset : GoString) : GoString :=
  (TrimLeft s.reverse cutset).reverse

/-- Go `strings.Trim(s, cutset)`: `s` without the leading and trailing
characters contained in `cutset`. -/
def Trim (s cutset : GoString) : GoString :=
  TrimRight (TrimLeft s cutset) cutset

/-- Go `strings.HasPrefix(s, p)`. -/
def HasPrefix : GoString → GoString → Bool
  | _, [] => true
  | [], _ :: _ => false
  | c :: cs, d :: ds => decide (c = d) && HasPrefix cs ds

/-- Go `strings.TrimPrefix(s, p)`: `s` without the leading `p` when `s` starts
with `p`, and `s` unchanged otherwise. -/
def TrimPrefix (s p : GoString) : GoString :=
  if HasPrefix s p then s.drop p.length else s

/-! ## Go maps from strings to strings -/

/-- A Go `map[string]string`. -/
abbrev GoMap := List (GoString × GoString)

/-- The assignment `r[k] = v`. -/
def GoMap.store : GoMap → GoString → GoString → GoMap
  | [], k, v => [(k, v)]
  | (k', v') :: r, k, v =>
    if k' = k then (k, v) :: r else (k', v') :: GoMap.store r k v

/-- The lookup `v, ok := r[k]`. -/
def GoMap.lookup : GoMap → GoString → Option GoString
  | [], _ => none
  | (k', v') :: r, k => if k' = k then some v' else GoMap.lookup r k

/-- The keys of a map. -/
def GoMap.keys (r : GoMap) : List GoString := r.map Prod.fst

/-! ## `SplitMeta` -/

/-- One iteration of the loop of `SplitMeta`, for the segment `s`:
```go
s = strings.Trim(s, " ")
kv := strings.Split(s, " ")
r[kv[0]] = strings.Trim(strings.TrimPrefix(s, kv[0]), " ")
``` -/
def SplitMetaStep (r : GoMap) (s : GoString) : Run GoMap :=
  let s := Trim s [' ']
  let kv := Split s ' '
  (index kv 0).bind fun kv0 =>
    Run.done (r.store kv0 (Trim (TrimPrefix s kv0) [' ']))

/-- The loop `for _, s := range a { ... }` of `SplitMeta`, from the map `r`. -/
def SplitMetaLoop : GoMap → List GoString → Run GoMap
  | r, [] => Run.done r
  | r, s :: a => (SplitMetaStep r s).bind fun r => SplitMetaLoop r a

/-- The function `SplitMeta` of `hocr.go`: splits a hOCR title string into a map
of key/value pairs. -/
def SplitMeta (meta : GoString) : Run GoMap :=
  let a := Split meta ';'
  let r : GoMap := []
  SplitMetaLoop r a

/-! ## The two regular expressions and `FindStringSubmatch`

Both patterns of the source are a sequence of literal texts and capture groups
of the form `([class]+)`.  Every capture group is either last in its pattern or
followed by a literal whose first character is outside the class, so the greedy
repetition has a single way to match at a given position: it takes the longest
run of class characters. -/

/-- One item of a pattern: a literal text, or a capture group `([class]+)`. -/
inductive Item where
  | lit (text : GoString)
  | group (cls : Char → Bool)

/-- The class `[0-9]`. -/
def isDigit (c : Char) : Bool := decide ('0' ≤ c) && decide (c ≤ '9')

/-- The class `[0-9.]`. -/
def isDigitOrDot (c : Char) : Bool := isDigit c || decide (c = '.')

/-- The pattern `bbox ([0-9]+) ([0-9]+) ([0-9]+) ([0-9]+)` of `BoxCoords`. -/
def bboxRe : List Item :=
  [Item.lit "bbox ".toList, Item.group isDigit, Item.lit " ".toList, Item.group isDigit,
   Item.lit " ".toList, Item.group isDigit, Item.lit " ".toList, Item.group isDigit]

/-- The pattern `x_wconf ([0-9.]+)` of `wordConf`. -/
def wconfRe : List Item :=
  [Item.lit "x_wconf ".toList, Item.group isDigitOrDot]

/-- Matches a pattern at the very start of `s`: the captured groups and the
text left after the match, or `none` when the pattern does not match there. -/
def matchHere : List Item → GoString → Option (List GoString × GoString)
  | [], s => some ([], s)
  | Item.lit text :: re, s =>
    if HasPrefix s text then matchHere re (s.drop text.length) else none
  | Item.group cls :: re, s =>
    let g := s.takeWhile cls
    if g = [] then none
    else
      match matchHere re (s.dropWhile cls) with
      | some (gs, rest) => some (g :: gs, rest)
      | none => none

/-- The submatches of a match that starts at the very start of `s`: the matched
text followed by the captured groups. -/
def submatchHere (re : List Item) (s : GoString) : Option (List GoString) :=
  match matchHere re s with
  | some (gs, rest) => some (s.take (s.length - rest.length) :: gs)
  | none => none

/-- Go `re.FindStringSubmatch(s)`: the submatches of the leftmost match of `re`
in `s`, and the nil slice (here `[]`) when `re` matches nowhere in `s`. -/
def FindStringSubmatch (re : List Item) : GoString → List GoString
  | [] => (submatchHere re []).getD []
  | c :: cs =>
    match submatchHere re (c :: cs) with
    | some m => m
    | none => FindStringSubmatch re cs

/-! ## The `strconv` functions used by the source -/

/-- The errors that the embedded functions can return. -/
inductive GoError where
  /-- The error `strconv.ErrSyntax`. -/
  | syntaxError
  /-- The error `strconv.ErrRange`. -/
  | rangeError
  /-- An error of `os.ReadFile`. -/
  | readError
  /-- An error of `xml.Unmarshal`. -/
  | xmlError
  /-- The error `errors.New("No words found")`. -/
  | noWordsFound
  deriving DecidableEq, Repr

/-- The value of a decimal digit character. -/
def digitVal (c : Char) : Nat := c.toNat - '0'.toNat

/-- The number written by a string of decimal digits (most significant first);
`0` for the empty string. -/
def digitsVal (ds : GoString) : Nat :=
  ds.foldl (fun n c => n * 10 + digitVal c) 0

/-- The size in bits of the Go type `int` (a 64-bit platform). -/
def intSize : Nat := 64

/-- The largest value of the Go type `int`. -/
def maxInt : Nat := 2 ^ (intSize - 1) - 1

/-- Go `strconv.Atoi(s)`: an optional sign followed by one or more decimal
digits.  Anything else is a syntax error with value `0`; a number outside the
range of `int` is a range error with the nearest value of `int`. -/
def Atoi (s : GoString) : Int × Option GoError :=
  let neg : Bool := s.head? = some '-'
  let ds : GoString := if s.head? = some '-' ∨ s.head? = some '+' then s.drop 1 else s
  if ds = [] ∨ ds.all isDigit = false then (0, some GoError.syntaxError)
  else if neg then
    if maxInt + 1 < digitsVal ds then (-((maxInt : Int) + 1), some GoError.rangeError)
    else (-(digitsVal ds : Int), none)
  else
    if maxInt < digitsVal ds then ((maxInt : Int), some GoError.rangeError)
    else ((digitsVal ds : Int), none)

/-- A Go `float64` that is not negative (the embedded code reads unsigned
decimals only, and adds and divides them): `finite mant exp` is the number
`mant * 2 ^ exp` in the IEEE 754 binary64 encoding, so `exp` ranges over
`-1074 .. 971`, a normal number has `2 ^ 52 ≤ mant < 2 ^ 53`, and a subnormal
number or zero has `mant < 2 ^ 52` and `exp = -1074`; `posInf` is `+Inf` and
`nan` is a NaN. -/
inductive Float64 where
  | finite (mant : Nat) (exp : Int)
  | posInf
  | nan
  deriving DecidableEq, Repr

/-- The rational number that a finite `float64` stands for. -/
def Float64.toRat : Float64 → Option ℚ
  | Float64.finite mant exp => some ((mant : ℚ) * 2 ^ exp)
  | Float64.posInf => none
  | Float64.nan => none

/-- The `float64` zero. -/
def Float64.zero : Float64 := Float64.finite 0 (-1074)

/-- Number of binary digits of `n`, with `fuel` steps allowed. -/
def bitLenAux : Nat → Nat → Nat
  | 0, _ => 0
  | fuel + 1, n => if n = 0 then 0 else bitLenAux fuel (n / 2) + 1

/-- Number of binary digits of `n`: the least `b` with `n < 2 ^ b`. -/
def bitLen (n : Nat) : Nat := bitLenAux n n

/-- The quotient `n / d` rounded to the nearest integer, a tie going to the
even one. -/
def divRoundHalfEven (n d : Nat) : Nat :=
  if 2 * (n % d) < d then n / d
  else if d < 2 * (n % d) then n / d + 1
  else if (n / d) % 2 = 0 then n / d else n / d + 1

/-- Numerator of the fraction `n / (d * 2 ^ x)` for an integer `x`. -/
def scaledNum (n : Nat) (x : Int) : Nat := n * 2 ^ (-x).toNat

/-- Denominator of the fraction `n / (d * 2 ^ x)` for an integer `x`. -/
def scaledDen (d : Nat) (x : Int) : Nat := d * 2 ^ x.toNat

/-- The `float64` nearest to the fraction `n / d` with `0 < d` (IEEE 754
binary64, round to nearest, ties to even); `+Inf` when the rounded value is out
of range. -/
def roundFloat64 (n d : Nat) : Float64 :=
  if n = 0 then Float64.zero
  else
    -- `2 ^ (k - 1) < n / d < 2 ^ (k + 1)`
    let k : Int := (bitLen n : Int) - (bitLen d : Int)
    -- `2 ^ e ≤ n / d < 2 ^ (e + 1)`
    let e : Int := if scaledDen d k ≤ scaledNum n k then k else k - 1
    -- exponent of the last place; subnormal numbers share the smallest one
    let x : Int := max e (-1022) - 52
    let mant := divRoundHalfEven (scaledNum n x) (scaledDen d x)
    -- rounding up may reach the next power of two
    let mant' := if mant = 2 ^ 53 then 2 ^ 52 else mant
    let x' : Int := if mant = 2 ^ 53 then x + 1 else x
    if 971 < x' then Float64.posInf else Float64.finite mant' x'

/-- Go `strconv.ParseFloat(s, 64)` on strings over the alphabet `[0-9.]`, the
only strings the source passes to it (they come from the capture group
`([0-9.]+)`): digits with at most one `.` and at least one digit denote a
decimal, which is rounded to the nearest `float64`; a value that rounds out of
range is a range error with `+Inf`; anything else is a syntax error with `0`. -/
def ParseFloat (s : GoString) : Float64 × Option GoError :=
  let ip := s.takeWhile isDigit
  let fp : GoString := match s.dropWhile isDigit with
    | [] => []
    | _ :: fr => fr
  let wellFormed : Bool := match s.dropWhile isDigit with
    | [] => !ip.isEmpty
    | c :: fr => decide (c = '.') && fr.all isDigit && !(ip.isEmpty && fr.isEmpty)
  if wellFormed then
    match roundFloat64 (digitsVal (ip ++ fp)) (10 ^ fp.length) with
    | Float64.finite mant exp => (Float64.finite mant exp, none)
    | f => (f, some GoError.rangeError)
  else (Float64.zero, some GoError.syntaxError)

/-! ## `wordConf` and `BoxCoords` -/

/-- The function `wordConf` of `hocr.go`: the confidence of a word from the
`x_wconf` value of its title.  `regexp.Compile` of the constant pattern
succeeds, so its error branch is not taken.
```go
conf := re.FindStringSubmatch(s)
return strconv.ParseFloat(conf[1], 64)
``` -/
def wordConf (s : GoString) : Run (Float64 × Option GoError) :=
  let conf := FindStringSubmatch wconfRe s
  (index conf 1).bind fun c => Run.done (ParseFloat c)

/-- The loop `for i := range coords { ... }` of `BoxCoords`, over the indices
that are left, with the array `coords` as filled so far. -/
def BoxCoordsLoop (coordstr : List GoString) :
    List Nat → List Int → Run (List Int × Option GoError)
  | [], coords => Run.done (coords, none)
  | i :: is, coords =>
    (index coordstr (i + 1)).bind fun cs =>
      match Atoi cs with
      | (_, some err) => Run.done (coords, some err)
      | (c, none) => BoxCoordsLoop coordstr is (coords.set i c)

/-- The function `BoxCoords` of `hocr.go`: parses bbox coordinate strings.  The
array `[4]int` is a list of four integers, all zero at the start. -/
def BoxCoords (s : GoString) : Run (List Int × Option GoError) :=
  let coords : List Int := [0, 0, 0, 0]
  let coordstr := FindStringSubmatch bboxRe s
  BoxCoordsLoop coordstr [0, 1, 2, 3] coords

/-! ## The document model and `GetWordConfs` -/

/-- The type `OcrChar` of `hocr.go`. -/
inductive OcrChar where
  | mk (Class Id Title : GoString) (Chars : List OcrChar) (Text : GoString)

/-- The type `OcrWord` of `hocr.go`. -/
structure OcrWord where
  Class : GoString
  Id : GoString
  Title : GoString
  Chars : List OcrChar
  Text : GoString

/-- The type `OcrLine` of `hocr.go`. -/
structure OcrLine where
  Class : GoString
  Id : GoString
  Title : GoString
  Words : List OcrWord
  Text : GoString

/-- The type `Page` of `hocr.go`. -/
structure Page where
  Lines : List OcrLine
  Title : GoString

/-- The type `Hocr` of `hocr.go`. -/
structure Hocr where
  Pages : List Page

/-- The innermost loop of `GetWordConfs`, `for _, w := range l.Words`, from the
slice `confs`.  An error in the second component means that the function
returned from inside the loop, with that slice and that error. -/
def GetWordConfsWords : List Float64 → List OcrWord → Run (List Float64 × Option GoError)
  | confs, [] => Run.done (confs, none)
  | confs, w :: ws =>
    (wordConf w.Title).bind fun r =>
      match r with
      | (_, some err) => Run.done (confs, some err)
      | (c, none) => GetWordConfsWords (confs ++ [c]) ws

/-- The loop `for _, l := range p.Lines` of `GetWordConfs`. -/
def GetWordConfsLines : List Float64 → List OcrLine → Run (List Float64 × Option GoError)
  | confs, [] => Run.done (confs, none)
  | confs, l :: ls =>
    (GetWordConfsWords confs l.Words).bind fun r =>
      match r with
      | (confs, some err) => Run.done (confs, some err)
      | (confs, none) => GetWordConfsLines confs ls

/-- The loop `for _, p := range h.Pages` of `GetWordConfs`. -/
def GetWordConfsPages : List Float64 → List Page → Run (List Float64 × Option GoError)
  | confs, [] => Run.done (confs, none)
  | confs, p :: ps =>
    (GetWordConfsLines confs p.Lines).bind fun r =>
      match r with
      | (confs, some err) => Run.done (confs, some err)
      | (confs, none) => GetWordConfsPages confs ps

/-- The function `GetWordConfs` of `hocr.go`.  Reading the file and parsing the
markup are the parameters `ReadFile` (for `os.ReadFile`) and `Parse` (for
`Parse`, a call of `xml.Unmarshal`). -/
def GetWordConfs {Bytes : Type} (ReadFile : GoString → Bytes × Option GoError)
    (Parse : Bytes → Hocr × Option GoError) (hocrfn : GoString) :
    Run (List Float64 × Option GoError) :=
  let confs : List Float64 := []
  match ReadFile hocrfn with
  | (_, some err) => Run.done (confs, some err)
  | (file, none) =>
    match Parse file with
    | (_, some err) => Run.done (confs, some err)
    | (h, none) => GetWordConfsPages confs h.Pages

/-! ## The metadata microsyntax, in the words of the specification -/

/-- The key of a trimmed segment: the part before its first space (the whole
segment when it has no space). -/
def metaKey (t : GoString) : GoString :=
  t.takeWhile (fun c => decide (c ≠ ' '))

/-- The value of a trimmed segment: what follows the key, with its surrounding
spaces removed. -/
def metaValue (t : GoString) : GoString :=
  Trim (t.drop (metaKey t).length) [' ']

/-- The trimmed segments of a metadata string: its pieces between the `;`,
each with its surrounding spaces removed. -/
def metaSegments (meta : GoString) : List GoString :=
  (Split meta ';').map (fun s => Trim s [' '])

/-- The entries of a map stored under the key `k`. -/
def GoMap.entries (r : GoMap) (k : GoString) : GoMap :=
  r.filter (fun kv => decide (kv.1 = k))

/-- The result of storing, in order, the entry of each trimmed segment of
`ts`, from the map `r`. -/
def storeAll (r : GoMap) (ts : List GoString) : GoMap :=
  ts.foldl (fun r t => r.store (metaKey t) (metaValue t)) r

/-! ## The bbox and x_wconf tokens, in the words of the specification -/

/-- A digit group: one or more decimal digits. -/
def IsDigits (g : GoString) : Prop := g ≠ [] ∧ ∀ c ∈ g, isDigit c = true

/-- The token `bbox g1 g2 g3 g4`. -/
def bboxToken (g1 g2 g3 g4 : GoString) : GoString :=
  "bbox ".toList ++ (g1 ++ ' ' :: (g2 ++ ' ' :: (g3 ++ ' ' :: g4)))

/-- A bbox token (the text `bbox ` and four digit groups separated by single
spaces) stands at the very start of `s`. -/
def BBoxAt (s : GoString) : Prop :=
  ∃ g1 g2 g3 g4 rest, IsDigits g1 ∧ IsDigits g2 ∧ IsDigits g3 ∧ IsDigits g4
    ∧ s = bboxToken g1 g2 g3 g4 ++ rest

/-- The title contains a bbox token somewhere. -/
def HasBBox (title : GoString) : Prop :=
  ∃ i, i ≤ title.length ∧ BBoxAt (title.drop i)

/-- An x_wconf token (the text `x_wconf ` followed by a character of `[0-9.]`)
stands at the very start of `s`. -/
def WConfAt (s : GoString) : Prop :=
  ∃ c rest, isDigitOrDot c = true ∧ s = "x_wconf ".toList ++ c :: rest

/-- The title contains an x_wconf token somewhere. -/
def HasWConf (title : GoString) : Prop :=
  ∃ i, i ≤ title.length ∧ WConfAt (title.drop i)

/-- The words of a document in document order: by page, then by line within
the page, then by word within the line. -/
def allWords (pages : List Page) : List OcrWord :=
  (pages.map fun p => (p.Lines.map fun l => l.Words).flatten).flatten

/-- The title carries a parseable confidence: `wordConf` returns on it, with
no error. -/
def parsesConf (title : GoString) : Bool :=
  match wordConf title with
  | Run.done (_, none) => true
  | _ => false

/-! ## Example documents -/

/-- A word with the given title and text. -/
def exampleWord (title text : GoString) : OcrWord :=
  { Class := "ocrx_word".toList, Id := [], Title := title, Chars := [], Text := text }

/-- A line with the given words and text. -/
def exampleLine (words : List OcrWord) (text : GoString) : OcrLine :=
  { Class := "ocr_line".toList, Id := [], Title := [], Words := words, Text := text }

/-- A document of two pages; the first has a line of two words and a line
without words, the second a line of one word.  Every word has a confidence. -/
def exampleDoc : Hocr :=
  { Pages :=
      [ { Lines :=
            [ exampleLine
                [ exampleWord "bbox 1 2 3 4; x_wconf 90".toList "ab".toList,
                  exampleWord "x_wconf 80".toList "cd".toList ] "ab cd".toList,
              exampleLine [] [] ],
          Title := [] },
        { Lines := [ exampleLine [ exampleWord "x_wconf 0.5".toList "e".toList ] "e".toList ],
          Title := [] } ] }

/-- A document of one page and two lines whose second word has an x_wconf
value, `1.2.3`, that is not a number. -/
def exampleDocBadConf : Hocr :=
  { Pages :=
      [ { Lines :=
            [ exampleLine [ exampleWord "x_wconf 70".toList "a".toList ] "a".toList,
              exampleLine
                [ exampleWord "x_wconf 1.2.3".toList "b".toList,
                  exampleWord "x_wconf 90".toList "c".toList ] "b c".toList ],
          Title := [] } ] }

/-- A document of one page and one line whose second word has no x_wconf
token. -/
def exampleDocNoConf : Hocr :=
  { Pages :=
      [ { Lines :=
            [ exampleLine
                [ exampleWord "x_wconf 70".toList "a".toList,
                  exampleWord "bbox 1 2 3 4".toList "b".toList,
                  exampleWord "x_wconf 90".toList "c".toList ] "a b c".toList ],
          Title := [] } ] }

/-! ## Identifiers, clean text and full text -/

/-- The method `OcrLine.GetShortId` of `hocr.go`:
```go
a := strings.Split(l.Id, "_")
if len(a) == 3 { return a[2] }
return l.Id
``` -/
def OcrLine.GetShortId (l : OcrLine) : Run GoString :=
  let a := Split l.Id '_'
  if a.length = 3 then index a 2 else Run.done l.Id

/-- The method `OcrWord.GetShortId` of `hocr.go`, with the same body on the
identifier of a word. -/
def OcrWord.GetShortId (w : OcrWord) : Run GoString :=
  let a := Split w.Id '_'
  if a.length = 3 then index a 2 else Run.done w.Id

/-- The method `OcrWord.GetCleanText` of `hocr.go`:
`strings.Trim(strings.Trim(w.Text, " "), "\n")`. -/
def OcrWord.GetCleanText (w : OcrWord) : GoString :=
  Trim (Trim w.Text [' ']) ['\n']

/-- The function `noText` of `hocr.go`. -/
def noText (s : GoString) : Bool :=
  let t := Trim s [' ', '\n']
  decide (t.length = 0)

/-- Modelled from the spec: the function `LineText` of the package, which
`GetText` calls and whose file is not among the sources.  The specification has
the full-document text made of each line's raw text, preserved exactly as
encountered, so the text of a line is its `Text` field. -/
def LineText (l : OcrLine) : GoString := l.Text

/-- The loop `for _, l := range p.Lines` of `GetText`, from the string `s`:
`s += LineText(l) + "\n"`. -/
def GetTextLines : GoString → List OcrLine → GoString
  | s, [] => s
  | s, l :: ls => GetTextLines (s ++ (LineText l ++ ['\n'])) ls

/-- The loop `for _, p := range h.Pages` of `GetText`, from the string `s`. -/
def GetTextPages : GoString → List Page → GoString
  | s, [] => s
  | s, p :: ps => GetTextPages (GetTextLines s p.Lines) ps

/-- The function `GetText` of `hocr.go`, with `os.ReadFile` and `Parse` as
parameters. -/
def GetText {Bytes : Type} (ReadFile : GoString → Bytes × Option GoError)
    (Parse : Bytes → Hocr × Option GoError) (hocrfn : GoString) :
    GoString × Option GoError :=
  let s : GoString := []
  match ReadFile hocrfn with
  | (_, some err) => (s, some err)
  | (file, none) =>
    match Parse file with
    | (_, some err) => (s, some err)
    | (h, none) => (GetTextPages s h.Pages, none)

/-- Go `strings.HasSuffix(s, suffix)`. -/
def HasSuffix (s suffix : GoString) : Bool :=
  decide (suffix.length ≤ s.length) && decide (s.drop (s.length - suffix.length) = suffix)

/-- Go `strings.TrimSuffix(s, suffix)`: `s` without the trailing `suffix` when
`s` ends with it, and `s` unchanged otherwise. -/
def TrimSuffix (s suffix : GoString) : GoString :=
  if HasSuffix s suffix then s.take (s.length - suffix.length) else s

/-- The image path that `main` derives from the input path `f` when the flag
`-e` is not set: `imgName := strings.TrimSuffix(f, ".hocr") + ".png"`. -/
def imgName (f : GoString) : GoString :=
  TrimSuffix f ".hocr".toList ++ ".png".toList

/-- The lines of a document in document order: by page, then by line within
the page. -/
def allLines (pages : List Page) : List OcrLine :=
  (pages.map fun p => p.Lines).flatten

/-- Go `filepath.Ext(path)`, over the characters of `path` in reverse: the
suffix of `path` from the last `.` of its last `/`-separated element, and the
empty string when that element has no `.`. -/
def ExtRev : GoString → GoString → GoString
  | [], _ => []
  | c :: cs, acc =>
    if c = '/' then [] else if c = '.' then '.' :: acc else ExtRev cs (c :: acc)

/-- Go `filepath.Ext(path)`. -/
def Ext (path : GoString) : GoString := ExtRev path.reverse []

/-- The path with its extension substituted by `.png`: the path up to its
extension, followed by `.png`. -/
def substituteExt (path : GoString) : GoString :=
  path.take (path.length - (Ext path).length) ++ ".png".toList

/-- A line with the given identifier. -/
def exampleLineWithId (id : GoString) : OcrLine :=
  { Class := "ocr_line".toList, Id := id, Title := [], Words := [], Text := [] }

/-! ## Paths and files: the command `extracthocrlines` -/

/-- One step of Go `filepath.Clean` on the path elements seen so far (the
last one first): an empty element and `.` are dropped, `..` removes the element
before it, stays when there is none to remove in a relative path, and is
dropped at the root. -/
def cleanPush (rooted : Bool) (st : List GoString) (c : GoString) : List GoString :=
  if c = [] ∨ c = ".".toList then st
  else if c = "..".toList then
    match st with
    | [] => if rooted then [] else [c]
    | top :: rest => if top = "..".toList then c :: st else rest
  else c :: st

/-- Go `filepath.Clean(path)` with the separator `/`: the shortest path
equivalent to `path` by lexical processing; `.` for an empty result. -/
def Clean (path : GoString) : GoString :=
  let rooted : Bool := decide (path.head? = some '/')
  let st := (Split path '/').foldl (cleanPush rooted) []
  let out : GoString := (if rooted then ['/'] else []) ++ List.intercalate ['/'] st.reverse
  if out = [] then ['.'] else out

/-- Go `filepath.Join(elem...)` with the separator `/`: the elements from the
first non-empty one on, joined by `/`, cleaned; the empty string when all the
elements are empty. -/
def Join (elem : List GoString) : GoString :=
  match elem.dropWhile (fun e => decide (e = [])) with
  | [] => []
  | e :: es => Clean (List.intercalate ['/'] (e :: es))

/-- Modelled from the spec: a non-nil value of the interface `line.CopyableImg`,
whose declaration is not among the sources.  The specification has the crop of
the page image written to the `.png` file by the cropper; `png` is what the
method `CopyLineTo` writes. -/
structure CopyableImg where
  png : GoString

/-- Modelled from the spec: the type `line.Detail`, whose declaration is not
among the sources, with the fields that `saveline` and `main` read: the line
identifier `Name`, the grouping name `OcrName`, the raw text `Text` of the line
and the crop image `Img`, nil for a line without usable bounding box. -/
structure Detail where
  Name : GoString
  OcrName : GoString
  Text : GoString
  Img : Option CopyableImg

/-- The directories made and the content of the files written. -/
structure FileSystem where
  dirs : List GoString
  files : GoMap

/-- The operations of the operating system that fail, each with its error:
`os.MkdirAll` by directory, and `os.Create`, `CopyLineTo` and `io.WriteString`
by the path of the file. -/
structure Faults where
  MkdirAll : GoString → Option GoError
  Create : GoString → Option GoError
  CopyLineTo : GoString → Option GoError
  WriteString : GoString → Option GoError

/-- The errors that `saveline` returns: an error of the operating system, or
an error made by `fmt.Errorf` from a format, a path and a cause. -/
inductive SaveError where
  | os (err : GoError)
  | errorf (format path : GoString) (cause : GoError)
  deriving DecidableEq, Repr

/-- The effect of a successful `os.Create(path)`: the file exists and is
empty. -/
def FileSystem.create (fs : FileSystem) (path : GoString) : FileSystem :=
  { fs with files := fs.files.store path [] }

/-- The effect of a successful write of `data` at the end of the file
`path`. -/
def FileSystem.write (fs : FileSystem) (path data : GoString) : FileSystem :=
  { fs with files := fs.files.store path (((fs.files.lookup path).getD []) ++ data) }

/-- The function `saveline` of `extracthocrlines/main.go`: saves the text and
the image of a line in a directory.  The call of `CopyLineTo` on a nil image is
a nil dereference. -/
def saveline (io : Faults) (l : Detail) (dir : GoString) (fs : FileSystem) :
    Run (FileSystem × Option SaveError) :=
  match io.MkdirAll dir with
  | some err => Run.done (fs, some (SaveError.os err))
  | none =>
    let fs := { fs with dirs := fs.dirs ++ [dir] }
    let base := Join [dir, l.OcrName ++ "_".toList ++ l.Name]
    match io.Create (base ++ ".png".toList) with
    | some err =>
      Run.done (fs, some (SaveError.errorf "Error creating file %s: %v".toList
        (base ++ ".png".toList) err))
    | none =>
      let fs := fs.create (base ++ ".png".toList)
      match l.Img with
      | none => Run.crash GoPanic.nilDereference
      | some img =>
        match io.CopyLineTo (base ++ ".png".toList) with
        | some err =>
          Run.done (fs, some (SaveError.errorf "Error writing line image for %s: %v".toList
            (base ++ ".png".toList) err))
        | none =>
          let fs := fs.write (base ++ ".png".toList) img.png
          match io.Create (base ++ ".txt".toList) with
          | some err =>
            Run.done (fs, some (SaveError.errorf "Error creating file %s: %v".toList
              (base ++ ".txt".toList) err))
          | none =>
            let fs := fs.create (base ++ ".txt".toList)
            match io.WriteString (base ++ ".txt".toList) with
            | some err =>
              Run.done (fs, some (SaveError.errorf "Error writing line text for %s: %v".toList
                (base ++ ".txt".toList) err))
            | none => Run.done (fs.write (base ++ ".txt".toList) l.Text, none)

/-- The loop `for _, l := range newlines` of `main`, on the line details of one
input file: a line without image is passed over, and an error of `saveline`
ends the program by `log.Fatal`, here the error in the result. -/
def saveLines (io : Faults) (dir : GoString) :
    List Detail → FileSystem → Run (FileSystem × Option SaveError)
  | [], fs => Run.done (fs, none)
  | l :: ls, fs =>
    if l.Img.isNone then saveLines io dir ls fs
    else
      (saveline io l dir fs).bind fun r =>
        match r with
        | (fs, some err) => Run.done (fs, some err)
        | (fs, none) => saveLines io dir ls fs

/-- No operation of the operating system fails. -/
def noFaults : Faults :=
  { MkdirAll := fun _ => none, Create := fun _ => none, CopyLineTo := fun _ => none,
    WriteString := fun _ => none }

/-- The file system after saving, one after the other and without fault, the
lines of `ls`, all with an image. -/
def savedAll (dir : GoString) : List Detail → FileSystem → FileSystem
  | [], fs => fs
  | l :: ls, fs =>
    let base := Join [dir, l.OcrName ++ "_".toList ++ l.Name]
    let fs := { fs with dirs := fs.dirs ++ [dir] }
    let fs := (fs.create (base ++ ".png".toList)).write (base ++ ".png".toList)
      ((l.Img.map fun i => i.png).getD [])
    let fs := (fs.create (base ++ ".txt".toList)).write (base ++ ".txt".toList) l.Text
    savedAll dir ls fs

/-- A path element that `filepath.Clean` leaves alone: not empty, without `/`,
and neither `.` nor `..`. -/
def PlainElem (e : GoString) : Prop :=
  e ≠ [] ∧ '/' ∉ e ∧ e ≠ ".".toList ∧ e ≠ "..".toList

/-- The line details of the example of the specification: group `a`, line
`a1`. -/
def exampleDetailA : Detail :=
  { Name := "a1".toList, OcrName := "a".toList, Text := " first line \n".toList,
    Img := some { png := "PNG-a1".toList } }

/-- The line details of the example of the specification: group `b`, line
`b1`. -/
def exampleDetailB : Detail :=
  { Name := "b1".toList, OcrName := "b".toList, Text := "second".toList,
    Img := some { png := "PNG-b1".toList } }

/-- A line without image. -/
def exampleDetailNoImg : Detail :=
  { Name := "a2".toList, OcrName := "a".toList, Text := "caption".toList, Img := none }

/-! ## Arithmetic of `float64` and `GetAvgConf` -/

/-- The `float64` one. -/
def Float64.one : Float64 := Float64.finite (2 ^ 52) (-52)

/-- The comparison `x == 0` of a `float64`. -/
def Float64.isZero : Float64 → Bool
  | Float64.finite mant _ => decide (mant = 0)
  | _ => false

/-- The conversion of a natural number to `float64`. -/
def Float64.ofNat (n : Nat) : Float64 := roundFloat64 n 1

/-- The sum `x + y` of two `float64`: the exact sum of two finite numbers,
rounded; `+Inf` when one is `+Inf`; a NaN when one is a NaN. -/
def fadd : Float64 → Float64 → Float64
  | Float64.finite m1 e1, Float64.finite m2 e2 =>
    roundFloat64
      (m1 * 2 ^ e1.toNat * 2 ^ (-e2).toNat + m2 * 2 ^ e2.toNat * 2 ^ (-e1).toNat)
      (2 ^ (-e1).toNat * 2 ^ (-e2).toNat)
  | Float64.nan, _ => Float64.nan
  | _, Float64.nan => Float64.nan
  | _, _ => Float64.posInf

/-- The quotient `x / y` of two `float64`: the exact quotient of two finite
numbers, rounded, when `y` is not zero; a number that is not zero divided by
zero is `+Inf`, and `0 / 0` and `Inf / Inf` are NaN. -/
def fdiv : Float64 → Float64 → Float64
  | Float64.finite m1 e1, Float64.finite m2 e2 =>
    if m2 = 0 then (if m1 = 0 then Float64.nan else Float64.posInf)
    else roundFloat64 (m1 * 2 ^ e1.toNat * 2 ^ (-e2).toNat) (2 ^ (-e1).toNat * (m2 * 2 ^ e2.toNat))
  | Float64.finite _ _, Float64.posInf => Float64.zero
  | Float64.posInf, Float64.finite _ _ => Float64.posInf
  | _, _ => Float64.nan

/-- The innermost loop of `GetAvgConf`, `for _, w := range l.Words`, from the
values of `total` and `num`.  An error in the second component means that the
function returned from inside the loop with that error. -/
def GetAvgConfWords :
    Float64 × Float64 → List OcrWord → Run ((Float64 × Float64) × Option GoError)
  | acc, [] => Run.done (acc, none)
  | acc, w :: ws =>
    (wordConf w.Title).bind fun r =>
      match r with
      | (_, some err) => Run.done (acc, some err)
      | (c, none) => GetAvgConfWords (fadd acc.1 c, fadd acc.2 Float64.one) ws

/-- The loop `for _, l := range p.Lines` of `GetAvgConf`. -/
def GetAvgConfLines :
    Float64 × Float64 → List OcrLine → Run ((Float64 × Float64) × Option GoError)
  | acc, [] => Run.done (acc, none)
  | acc, l :: ls =>
    (GetAvgConfWords acc l.Words).bind fun r =>
      match r with
      | (acc, some err) => Run.done (acc, some err)
      | (acc, none) => GetAvgConfLines acc ls

/-- The loop `for _, p := range h.Pages` of `GetAvgConf`. -/
def GetAvgConfPages :
    Float64 × Float64 → List Page → Run ((Float64 × Float64) × Option GoError)
  | acc, [] => Run.done (acc, none)
  | acc, p :: ps =>
    (GetAvgConfLines acc p.Lines).bind fun r =>
      match r with
      | (acc, some err) => Run.done (acc, some err)
      | (acc, none) => GetAvgConfPages acc ps

/-- The function `GetAvgConf` of `hocr.go`, with `os.ReadFile` and `Parse` as
parameters; `total` and `num` start at zero. -/
def GetAvgConf {Bytes : Type} (ReadFile : GoString → Bytes × Option GoError)
    (Parse : Bytes → Hocr × Option GoError) (hocrfn : GoString) :
    Run (Float64 × Option GoError) :=
  match ReadFile hocrfn with
  | (_, some err) => Run.done (Float64.zero, some err)
  | (file, none) =>
    match Parse file with
    | (_, some err) => Run.done (Float64.zero, some err)
    | (h, none) =>
      (GetAvgConfPages (Float64.zero, Float64.zero) h.Pages).bind fun r =>
        match r with
        | (_, some err) => Run.done (Float64.zero, some err)
        | ((total, num), none) =>
          if num.isZero then Run.done (Float64.zero, some GoError.noWordsFound)
          else Run.done (fdiv total num, none)

/-- The value of `num` after `n` executions of `num++` from zero. -/
def countFloat : Nat → Float64
  | 0 => Float64.zero
  | n + 1 => fadd (countFloat n) Float64.one

/-- The value of `total` after adding the confidences `cs` in order, from
zero. -/
def sumFloat (cs : List Float64) : Float64 := cs.foldl fadd Float64.zero

/-- The binary exponent that `roundFloat64` finds for the fraction `n / d`:
the `e` with `2 ^ e ≤ n / d < 2 ^ (e + 1)`. -/
def binExp (n d : Nat) : Int :=
  if scaledDen d ((bitLen n : Int) - (bitLen d : Int))
      ≤ scaledNum n ((bitLen n : Int) - (bitLen d : Int))
  then (bitLen n : Int) - (bitLen d : Int) else (bitLen n : Int) - (bitLen d : Int) - 1

/-- A document of one page and one line with the word confidences `90` and
`80`. -/
def exampleDocTwoWords : Hocr :=
  { Pages :=
      [ { Lines :=
            [ exampleLine
                [ exampleWord "x_wconf 90".toList "a".toList,
                  exampleWord "x_wconf 80".toList "b".toList ] "a b".toList ],
          Title := [] } ] }

/-- A document of two pages without any word: a page without lines and a page
with a line without words. -/
def exampleDocNoWords : Hocr :=
  { Pages := [ { Lines := [], Title := [] }, { Lines := [exampleLine [] []], Title := [] } ] }

/-- A document of one page and one line with three words of confidence `0`. -/
def exampleDocZeroConf : Hocr :=
  { Pages :=
      [ { Lines :=
            [ exampleLine
                [ exampleWord "x_wconf 0".toList "a".toList,
                  exampleWord "x_wconf 0.0".toList "b".toList,
                  exampleWord "x_wconf 0".toList "c".toList ] "a b c".toList ],
          Title := [] } ] }

/-- A decimal numeral: the digits `ip`, followed, when `fp` is not empty, by
one `.` and the digits `fp`. -/
def numeral (ip fp : GoString) : GoString :=
  if fp = [] then ip else ip ++ '.' :: fp

/-- The number that the decimal numeral `numeral ip fp` denotes. -/
def decimalValue (ip fp : GoString) : ℚ :=
  (digitsVal (ip ++ fp) : ℚ) / 10 ^ fp.length

/-- The title `x_wconf 1000...0` with 308 zeros: the confidence `1e308`. -/
def exampleTitleHuge : GoString :=
  "x_wconf ".toList ++ ('1' :: List.replicate 308 '0')

/-- A document of one page and one line with two words of confidence
`1e308`. -/
def exampleDocHugeConf : Hocr :=
  { Pages :=
      [ { Lines :=
            [ exampleLine
                [ exampleWord exampleTitleHuge "a".toList,
                  exampleWord exampleTitleHuge "b".toList ] "a b".toList ],
          Title := [] } ] }

/-- A document of one page and one line with the word confidences `0.1`,
`0.2` and `0.3`. -/
def exampleDocTenths : Hocr :=
  { Pages :=
      [ { Lines :=
            [ exampleLine
                [ exampleWord "x_wconf 0.1".toList "a".toList,
                  exampleWord "x_wconf 0.2".toList "b".toList,
                  exampleWord "x_wconf 0.3".toList "c".toList ] "a b c".toList ],
          Title := [] } ] }

/-! ## Lemmas on `Split`, `HasPrefix` and maps -/

theorem Split_ne_nil (s : GoString) (sep : Char) : Split s sep ≠ [] := by
  induction s with
  | nil => simp [Split]
  | cons c cs ih =>
    by_cases h : c = sep
    · simp [Split, h]
    · cases hs : Split cs sep <;> simp [Split, h, hs]

theorem Split_head (s : GoString) (sep : Char) :
    (Split s sep).head? = some (s.takeWhile (fun c => decide (c ≠ sep))) := by
  induction s with
  | nil => simp [Split]
  | cons c cs ih =>
    by_cases h : c = sep
    · simp [Split, h]
    · cases hs : Split cs sep with
      | nil => exact absurd hs (Split_ne_nil cs sep)
      | cons p ps =>
        rw [hs] at ih
        simp only [List.head?_cons, Option.some.injEq] at ih
        simp [Split, h, hs, ih]

theorem Split_sep_not_mem (s : GoString) (sep : Char) :
    ∀ p ∈ Split s sep, sep ∉ p := by
  induction s with
  | nil => simp [Split]
  | cons c cs ih =>
    by_cases h : c = sep
    · intro p hp
      simp only [Split, h, if_true, List.mem_cons] at hp
      rcases hp with rfl | hp
      · simp
      · exact ih p hp
    · cases hs : Split cs sep with
      | nil => exact absurd hs (Split_ne_nil cs sep)
      | cons q qs =>
        rw [hs] at ih
        intro p hp
        simp only [Split, h, if_false, hs, List.mem_cons] at hp
        rcases hp with rfl | hp
        · have hq := ih q (List.mem_cons_self _ _)
          simp only [List.mem_cons, not_or]
          exact ⟨fun e => h e.symm, hq⟩
        · exact ih p (List.mem_cons_of_mem _ hp)

theorem Split_intercalate (s : GoString) (sep : Char) :
    List.intercalate [sep] (Split s sep) = s := by
  induction s with
  | nil => simp [Split, List.intercalate]
  | cons c cs ih =>
    by_cases h : c = sep
    · cases hs : Split cs sep with
      | nil => exact absurd hs (Split_ne_nil cs sep)
      | cons q qs =>
        rw [hs] at ih
        simp only [Split, h, if_true, hs]
        simp only [List.intercalate] at ih ⊢
        simp [List.intersperse, ih]
    · cases hs : Split cs sep with
      | nil => exact absurd hs (Split_ne_nil cs sep)
      | cons q qs =>
        rw [hs] at ih
        simp only [Split, h, if_false, hs]
        simp only [List.intercalate] at ih ⊢
        cases qs with
        | nil => simpa [List.intersperse] using ih
        | cons q' qs' => simpa [List.intersperse] using ih

theorem index_zero_Split (s : GoString) (sep : Char) :
    index (Split s sep) 0 = Run.done (s.takeWhile (fun c => decide (c ≠ sep))) := by
  have h := Split_head s sep
  cases hs : Split s sep with
  | nil => exact absurd hs (Split_ne_nil s sep)
  | cons p ps =>
    rw [hs] at h
    simp only [List.head?_cons, Option.some.injEq] at h
    simp [index, h]

theorem HasPrefix_takeWhile (s : GoString) (f : Char → Bool) :
    HasPrefix s (s.takeWhile f) = true := by
  induction s with
  | nil => simp [HasPrefix]
  | cons c cs ih =>
    by_cases h : f c = true
    · simp [List.takeWhile, h, HasPrefix, ih]
    · simp [List.takeWhile, h, HasPrefix]

theorem TrimPrefix_metaKey (t : GoString) :
    TrimPrefix t (metaKey t) = t.drop (metaKey t).length := by
  simp [TrimPrefix, metaKey, HasPrefix_takeWhile]

theorem SplitMetaStep_eq (r : GoMap) (s : GoString) :
    SplitMetaStep r s
      = Run.done (r.store (metaKey (Trim s [' '])) (metaValue (Trim s [' ']))) := by
  unfold SplitMetaStep
  simp only [index_zero_Split, Run.bind]
  rw [show (List.takeWhile (fun c => decide (c ≠ ' ')) (Trim s [' '])) = metaKey (Trim s [' '])
    from rfl, TrimPrefix_metaKey]
  rfl

theorem SplitMetaLoop_eq (r : GoMap) (a : List GoString) :
    SplitMetaLoop r a
      = Run.done (a.foldl
          (fun r s => r.store (metaKey (Trim s [' '])) (metaValue (Trim s [' ']))) r) := by
  induction a generalizing r with
  | nil => rfl
  | cons s a ih => simp [SplitMetaLoop, SplitMetaStep_eq, Run.bind, ih]

theorem SplitMetaLoop_append (r : GoMap) (a b : List GoString) :
    SplitMetaLoop r (a ++ b) = (SplitMetaLoop r a).bind fun r => SplitMetaLoop r b := by
  simp [SplitMetaLoop_eq, Run.bind, List.foldl_append]

theorem entries_store_ne (r : GoMap) (k k' v' : GoString) (h : k' ≠ k) :
    (r.store k' v').entries k = r.entries k := by
  induction r with
  | nil => simp [GoMap.store, GoMap.entries, h]
  | cons e r ih =>
    obtain ⟨k₀, v₀⟩ := e
    by_cases h₀ : k₀ = k'
    · subst h₀
      simp [GoMap.store, GoMap.entries, h]
    · simp only [GoMap.store, h₀, if_false]
      simp only [GoMap.entries, List.filter_cons] at ih ⊢
      rw [ih]

theorem entries_store_eq (r : GoMap) (k v : GoString) (h : (r.entries k).length ≤ 1) :
    (r.store k v).entries k = [(k, v)] := by
  induction r with
  | nil => simp [GoMap.store, GoMap.entries]
  | cons e r ih =>
    obtain ⟨k₀, v₀⟩ := e
    by_cases h₀ : k₀ = k
    · subst h₀
      simp only [GoMap.entries, List.filter_cons, decide_True, if_true, List.length_cons] at h
      have h' : List.filter (fun kv => decide (kv.1 = k₀)) r = [] :=
        List.length_eq_zero.mp (by omega)
      simp [GoMap.store, GoMap.entries, h']
    · simp only [GoMap.entries, List.filter_cons, h₀, decide_False] at h
      simp only [GoMap.store, h₀, if_false, GoMap.entries, List.filter_cons, decide_False]
      exact ih h

theorem lookup_eq_entries (r : GoMap) (k : GoString) :
    r.lookup k = ((r.entries k).head?).map Prod.snd := by
  induction r with
  | nil => rfl
  | cons e r ih =>
    obtain ⟨k₀, v₀⟩ := e
    by_cases h₀ : k₀ = k
    · simp [GoMap.lookup, GoMap.entries, h₀]
    · simp only [GoMap.lookup, h₀, if_false, GoMap.entries, List.filter_cons, decide_False]
      exact ih

theorem storeAll_entries_le (r : GoMap) (ts : List GoString)
    (h : ∀ k, (r.entries k).length ≤ 1) : ∀ k, ((storeAll r ts).entries k).length ≤ 1 := by
  induction ts generalizing r with
  | nil => exact h
  | cons t ts ih =>
    apply ih
    intro k
    by_cases hk : metaKey t = k
    · subst hk
      rw [entries_store_eq _ _ _ (h _)]
      simp
    · rw [entries_store_ne _ _ _ _ hk]
      exact h k

theorem storeAll_entries_not_key (r : GoMap) (ts : List GoString) (k : GoString)
    (h : ∀ t ∈ ts, metaKey t ≠ k) : (storeAll r ts).entries k = r.entries k := by
  induction ts generalizing r with
  | nil => rfl
  | cons t ts ih =>
    simp only [storeAll, List.foldl_cons]
    have := ih (r.store (metaKey t) (metaValue t)) (fun u hu => h u (List.mem_cons_of_mem _ hu))
    simp only [storeAll] at this
    rw [this, entries_store_ne _ _ _ _ (h t (List.mem_cons_self _ _))]

theorem storeAll_entries_last (r : GoMap) (pre post : List GoString) (t : GoString)
    (hr : ∀ k, (r.entries k).length ≤ 1) (h : ∀ u ∈ post, metaKey u ≠ metaKey t) :
    (storeAll r (pre ++ t :: post)).entries (metaKey t) = [(metaKey t, metaValue t)] := by
  have e : storeAll r (pre ++ t :: post)
      = storeAll ((storeAll r pre).store (metaKey t) (metaValue t)) post := by
    simp [storeAll, List.foldl_append]
  rw [e, storeAll_entries_not_key _ _ _ h]
  exact entries_store_eq _ _ _ (storeAll_entries_le r pre hr _)

theorem SplitMeta_eq_storeAll (meta : GoString) :
    SplitMeta meta = Run.done (storeAll [] (metaSegments meta)) := by
  simp [SplitMeta, SplitMetaLoop_eq, storeAll, metaSegments, List.foldl_map]

theorem store_ne_nil (r : GoMap) (k v : GoString) : r.store k v ≠ [] := by
  cases r with
  | nil => simp [GoMap.store]
  | cons e r =>
    obtain ⟨k₀, v₀⟩ := e
    by_cases h₀ : k₀ = k <;> simp [GoMap.store, h₀]

theorem storeAll_ne_nil (r : GoMap) (ts : List GoString) (h : r ≠ [] ∨ ts ≠ []) :
    storeAll r ts ≠ [] := by
  induction ts generalizing r with
  | nil => simpa [storeAll] using h
  | cons t ts ih => exact ih _ (Or.inl (store_ne_nil _ _ _))

theorem storeAll_entries_mem (r : GoMap) (ts : List GoString) (k : GoString)
    (hr : ∀ k, (r.entries k).length ≤ 1)
    (h : (∃ v, r.entries k = [(k, v)]) ∨ ∃ t ∈ ts, metaKey t = k) :
    ∃ v, (storeAll r ts).entries k = [(k, v)] := by
  induction ts generalizing r with
  | nil =>
    rcases h with h | ⟨t, ht, _⟩
    · exact h
    · exact absurd ht (List.not_mem_nil t)
  | cons t ts ih =>
    have hr' : ∀ k, ((r.store (metaKey t) (metaValue t)).entries k).length ≤ 1 :=
      storeAll_entries_le r [t] hr
    apply ih _ hr'
    by_cases hk : metaKey t = k
    · left
      subst hk
      exact ⟨metaValue t, entries_store_eq _ _ _ (hr _)⟩
    · rw [entries_store_ne _ _ _ _ hk]
      rcases h with h | ⟨u, hu, huk⟩
      · exact Or.inl h
      · rcases List.mem_cons.mp hu with rfl | hu
        · exact absurd huk hk
        · exact Or.inr ⟨u, hu, huk⟩

theorem metaKey_of_no_space (t : GoString) (h : ' ' ∉ t) : metaKey t = t := by
  unfold metaKey
  rw [List.takeWhile_eq_self_iff]
  intro c hc
  simp only [ne_eq, decide_not, Bool.not_eq_true', decide_eq_false_iff_not]
  rintro rfl
  exact h hc

theorem metaValue_of_no_space (t : GoString) (h : ' ' ∉ t) : metaValue t = [] := by
  unfold metaValue
  rw [metaKey_of_no_space t h]
  simp [Trim, TrimRight, TrimLeft]

/-! ## `SplitMeta`: the claims -/

/-- C1. For every metadata string, `SplitMeta` returns the map obtained by
storing, for each piece of the string between the `;` (the pieces contain no `;`
and joined by `;` give the string back), trimmed of its spaces, the value of
the trimmed segment (what follows the key, trimmed of its spaces) under its key
(the part before the first space); and `SplitMeta("k1 v1; k2 v2a v2b")` is the
map with the two entries `k1: "v1"` and `k2: "v2a v2b"`. -/
theorem SplitMeta_stores_each_segment (meta : GoString) :
    SplitMeta meta = Run.done (storeAll [] (metaSegments meta))
    ∧ List.intercalate [';'] (Split meta ';') = meta
    ∧ (∀ p ∈ Split meta ';', ';' ∉ p)
    ∧ SplitMeta "k1 v1; k2 v2a v2b".toList
        = Run.done [("k1".toList, "v1".toList), ("k2".toList, "v2a v2b".toList)] :=
  ⟨SplitMeta_eq_storeAll meta, Split_intercalate meta ';', Split_sep_not_mem meta ';',
    by decide⟩

/-- C2. When two segments of a metadata string have the same key and no later
segment has that key, the map that `SplitMeta` returns holds exactly one entry
under that key, and its value is the value of the later of the two segments. -/
theorem SplitMeta_last_duplicate_wins (meta : GoString) (pre mid post : List GoString)
    (t₁ t₂ : GoString)
    (hseg : metaSegments meta = pre ++ t₁ :: (mid ++ t₂ :: post))
    (hkey : metaKey t₁ = metaKey t₂)
    (hlast : ∀ u ∈ post, metaKey u ≠ metaKey t₂) :
    ∃ m, SplitMeta meta = Run.done m
      ∧ m.entries (metaKey t₁) = [(metaKey t₂, metaValue t₂)]
      ∧ m.lookup (metaKey t₁) = some (metaValue t₂) := by
  refine ⟨_, SplitMeta_eq_storeAll meta, ?_⟩
  have e : pre ++ t₁ :: (mid ++ t₂ :: post) = (pre ++ t₁ :: mid) ++ t₂ :: post := by simp
  have h := storeAll_entries_last [] (pre ++ t₁ :: mid) post t₂ (by simp [GoMap.entries]) hlast
  rw [hseg, e, hkey]
  exact ⟨h, by rw [lookup_eq_entries, h]; rfl⟩

/-- Witness for C2: in `"a 1; b 2; a 3"` the key `a` occurs twice and its last
value `3` is the one kept. -/
theorem SplitMeta_last_duplicate_wins_witness :
    metaSegments "a 1; b 2; a 3".toList = [] ++ "a 1".toList :: (["b 2".toList] ++ "a 3".toList :: [])
    ∧ metaKey "a 1".toList = metaKey "a 3".toList
    ∧ ∃ m, SplitMeta "a 1; b 2; a 3".toList = Run.done m
      ∧ m.entries (metaKey "a 1".toList) = [(metaKey "a 3".toList, metaValue "a 3".toList)]
      ∧ m.lookup (metaKey "a 1".toList) = some (metaValue "a 3".toList) :=
  ⟨by decide, by decide,
    SplitMeta_last_duplicate_wins "a 1; b 2; a 3".toList [] ["b 2".toList] []
      "a 1".toList "a 3".toList (by decide) (by decide) (by simp)⟩

/-- C3. For every metadata string the map that `SplitMeta` returns is not
empty, and for a piece `s` of the string whose trimmed form `t` has no space:
the iteration of the loop for `s` leaves exactly the entry `t: ""` under `t`,
the final map has exactly one entry under `t`, and that entry is `t: ""` when no
later segment has the key `t`.  `SplitMeta("")` is the one-entry map `"": ""`. -/
theorem SplitMeta_spaceless_segment (meta : GoString) :
    (∃ m, SplitMeta meta = Run.done m ∧ m ≠ [] ∧
      ∀ (a₁ a₂ : List GoString) (s : GoString),
        Split meta ';' = a₁ ++ s :: a₂ → ' ' ∉ Trim s [' '] →
        (∃ m', SplitMetaLoop [] (a₁ ++ [s]) = Run.done m'
            ∧ m'.entries (Trim s [' ']) = [(Trim s [' '], [])]
            ∧ SplitMetaLoop m' a₂ = Run.done m)
        ∧ (∃ v, m.entries (Trim s [' ']) = [(Trim s [' '], v)])
        ∧ ((∀ s' ∈ a₂, metaKey (Trim s' [' ']) ≠ Trim s [' ']) →
            m.entries (Trim s [' ']) = [(Trim s [' '], [])]))
    ∧ SplitMeta [] = Run.done [([], [])] := by
  refine ⟨⟨_, SplitMeta_eq_storeAll meta, ?_, ?_⟩, by decide⟩
  · apply storeAll_ne_nil
    right
    simp [metaSegments, Split_ne_nil]
  · intro a₁ a₂ s hsplit hns
    have hk := metaKey_of_no_space _ hns
    have hv := metaValue_of_no_space _ hns
    have hnil : ∀ k, (GoMap.entries [] k).length ≤ 1 := by simp [GoMap.entries]
    have hsegs : metaSegments meta
        = a₁.map (fun s => Trim s [' ']) ++ Trim s [' '] :: a₂.map (fun s => Trim s [' ']) := by
      simp [metaSegments, hsplit]
    refine ⟨⟨storeAll [] (a₁.map (fun s => Trim s [' ']) ++ [Trim s [' ']]), ?_, ?_, ?_⟩, ?_, ?_⟩
    · simp [SplitMetaLoop_eq, storeAll, List.foldl_append, List.foldl_map]
    · have h := storeAll_entries_last [] (a₁.map (fun s => Trim s [' '])) [] (Trim s [' '])
        hnil (by simp)
      rw [hk, hv] at h
      exact h
    · rw [hsegs]
      simp [SplitMetaLoop_eq, storeAll, List.foldl_append, List.foldl_map]
    · have h := storeAll_entries_mem [] (metaSegments meta) (Trim s [' ']) hnil
        (Or.inr ⟨Trim s [' '], by simp [hsegs], hk⟩)
      exact h
    · intro hlater
      have h := storeAll_entries_last [] (a₁.map (fun s => Trim s [' ']))
        (a₂.map (fun s => Trim s [' '])) (Trim s [' ']) hnil (by
          intro u hu
          obtain ⟨s', hs', rfl⟩ := List.mem_map.mp hu
          rw [hk]
          exact hlater s' hs')
      rw [hk, hv, ← hsegs] at h
      exact h

/-- Witness for C3: in `"a ; k v;"` the first piece `"a "` and the last piece
`""` have no space once trimmed. -/
theorem SplitMeta_spaceless_segment_witness :
    Split "a ; k v;".toList ';' = [] ++ "a ".toList :: [" k v".toList, []]
    ∧ ' ' ∉ Trim "a ".toList [' ']
    ∧ (∃ m, SplitMeta "a ; k v;".toList = Run.done m ∧ m ≠ [] ∧
        m.entries (Trim "a ".toList [' ']) = [(Trim "a ".toList [' '], [])]) := by
  refine ⟨by decide, by decide, ?_⟩
  obtain ⟨⟨m, hm, hne, h⟩, _⟩ := SplitMeta_spaceless_segment "a ; k v;".toList
  exact ⟨m, hm, hne,
    (h [] [" k v".toList, []] "a ".toList (by decide) (by decide)).2.2 (by decide)⟩

/-- C4. `SplitMeta` is total: for every string it returns a map, without a
panic; the slice `kv` of the pieces of a trimmed segment between spaces is never
empty, so the access `kv[0]` is in bounds for every segment. -/
theorem SplitMeta_total (meta : GoString) :
    (∃ m, SplitMeta meta = Run.done m)
    ∧ (∀ s : GoString, 0 < (Split (Trim s [' ']) ' ').length
        ∧ ∃ kv0, index (Split (Trim s [' ']) ' ') 0 = Run.done kv0)
    ∧ (∀ (r : GoMap) (a : List GoString), ∃ m, SplitMetaLoop r a = Run.done m) :=
  ⟨⟨_, SplitMeta_eq_storeAll meta⟩,
    fun _ => ⟨List.length_pos.mpr (Split_ne_nil _ _), _, index_zero_Split _ _⟩,
    fun r a => ⟨_, SplitMetaLoop_eq r a⟩⟩

/-! ## Lemmas on the patterns and `FindStringSubmatch` -/

theorem HasPrefix_append (t r : GoString) : HasPrefix (t ++ r) t = true := by
  induction t with
  | nil => cases r <;> rfl
  | cons c t ih => simp [HasPrefix, ih]

theorem HasPrefix_elim (s t : GoString) (h : HasPrefix s t = true) :
    s = t ++ s.drop t.length := by
  induction t generalizing s with
  | nil => rfl
  | cons d t ih =>
    cases s with
    | nil => simp [HasPrefix] at h
    | cons c s =>
      simp only [HasPrefix, Bool.and_eq_true, decide_eq_true_eq] at h
      obtain ⟨rfl, h⟩ := h
      have := ih s h
      simp only [List.cons_append, List.length_cons, List.drop_succ_cons, List.cons.injEq,
        true_and]
      exact this

theorem matchHere_lit (t : GoString) (re : List Item) (r : GoString) :
    matchHere (Item.lit t :: re) (t ++ r) = matchHere re r := by
  simp [matchHere, HasPrefix_append]

theorem takeWhile_append_stop (cls : Char → Bool) (g r : GoString)
    (hg : ∀ c ∈ g, cls c = true) :
    (g ++ r).takeWhile cls = g ++ r.takeWhile cls := by
  induction g with
  | nil => rfl
  | cons c g ih =>
    have hc := hg c (List.mem_cons_self _ _)
    simp [List.takeWhile, hc, ih (fun d hd => hg d (List.mem_cons_of_mem _ hd))]

theorem dropWhile_append_stop (cls : Char → Bool) (g r : GoString)
    (hg : ∀ c ∈ g, cls c = true) :
    (g ++ r).dropWhile cls = r.dropWhile cls := by
  induction g with
  | nil => rfl
  | cons c g ih =>
    have hc := hg c (List.mem_cons_self _ _)
    simp [List.dropWhile, hc, ih (fun d hd => hg d (List.mem_cons_of_mem _ hd))]

theorem matchHere_group_sep (cls : Char → Bool) (re : List Item) (g r : GoString) (c : Char)
    (hne : g ≠ []) (hg : ∀ d ∈ g, cls d = true) (hc : cls c = false) :
    matchHere (Item.group cls :: re) (g ++ c :: r)
      = (matchHere re (c :: r)).map fun x => (g :: x.1, x.2) := by
  have ht : (g ++ c :: r).takeWhile cls = g := by
    rw [takeWhile_append_stop cls g _ hg]
    simp [List.takeWhile, hc]
  have hd : (g ++ c :: r).dropWhile cls = c :: r := by
    rw [dropWhile_append_stop cls g _ hg]
    simp [List.dropWhile, hc]
  simp only [matchHere, ht, hd, hne, if_false]
  cases matchHere re (c :: r) <;> rfl

theorem matchHere_group_last (cls : Char → Bool) (g r : GoString)
    (hne : g ≠ []) (hg : ∀ d ∈ g, cls d = true) :
    matchHere [Item.group cls] (g ++ r)
      = some ([g ++ r.takeWhile cls], r.dropWhile cls) := by
  have ht : (g ++ r).takeWhile cls = g ++ r.takeWhile cls := takeWhile_append_stop cls g _ hg
  have hd : (g ++ r).dropWhile cls = r.dropWhile cls := dropWhile_append_stop cls g _ hg
  simp [matchHere, ht, hd, hne]

theorem matchHere_lit_inv (t : GoString) (re : List Item) (s : GoString)
    (x : List GoString × GoString) (h : matchHere (Item.lit t :: re) s = some x) :
    ∃ r, s = t ++ r ∧ matchHere re r = some x := by
  simp only [matchHere] at h
  by_cases hp : HasPrefix s t = true
  · rw [if_pos hp] at h
    exact ⟨_, HasPrefix_elim s t hp, h⟩
  · rw [if_neg hp] at h
    exact absurd h (by simp)

theorem matchHere_group_inv (cls : Char → Bool) (re : List Item) (s : GoString)
    (x : List GoString × GoString) (h : matchHere (Item.group cls :: re) s = some x) :
    ∃ g gs, x.1 = g :: gs ∧ g ≠ [] ∧ (∀ c ∈ g, cls c = true)
      ∧ s = g ++ s.dropWhile cls ∧ matchHere re (s.dropWhile cls) = some (gs, x.2) := by
  simp only [matchHere] at h
  by_cases hg : s.takeWhile cls = []
  · rw [if_pos hg] at h
    exact absurd h (by simp)
  · rw [if_neg hg] at h
    cases hm : matchHere re (s.dropWhile cls) with
    | none => rw [hm] at h; exact absurd h (by simp)
    | some y =>
      rw [hm] at h
      simp only [Option.some.injEq] at h
      subst h
      exact ⟨s.takeWhile cls, y.1, rfl, hg, fun c hc => List.mem_takeWhile_imp hc,
        (List.takeWhile_append_dropWhile cls s).symm, rfl⟩

theorem isDigit_space : isDigit ' ' = false := by decide

theorem matchHere_bboxToken (g1 g2 g3 g4 rest : GoString)
    (h1 : IsDigits g1) (h2 : IsDigits g2) (h3 : IsDigits g3) (h4 : IsDigits g4) :
    matchHere bboxRe (bboxToken g1 g2 g3 g4 ++ rest)
      = some ([g1, g2, g3, g4 ++ rest.takeWhile isDigit], rest.dropWhile isDigit) := by
  have e : bboxToken g1 g2 g3 g4 ++ rest
      = "bbox ".toList ++ (g1 ++ ' ' :: (g2 ++ ' ' :: (g3 ++ ' ' :: (g4 ++ rest)))) := by
    simp [bboxToken]
  rw [e]
  unfold bboxRe
  rw [matchHere_lit, matchHere_group_sep _ _ _ _ _ h1.1 h1.2 isDigit_space,
    show (' ' :: (g2 ++ ' ' :: (g3 ++ ' ' :: (g4 ++ rest))))
      = " ".toList ++ (g2 ++ ' ' :: (g3 ++ ' ' :: (g4 ++ rest))) from rfl,
    matchHere_lit, matchHere_group_sep _ _ _ _ _ h2.1 h2.2 isDigit_space,
    show (' ' :: (g3 ++ ' ' :: (g4 ++ rest))) = " ".toList ++ (g3 ++ ' ' :: (g4 ++ rest)) from rfl,
    matchHere_lit, matchHere_group_sep _ _ _ _ _ h3.1 h3.2 isDigit_space,
    show (' ' :: (g4 ++ rest)) = " ".toList ++ (g4 ++ rest) from rfl,
    matchHere_lit, matchHere_group_last _ _ _ h4.1 h4.2]
  rfl

theorem matchHere_bboxRe_sound (s : GoString) (x : List GoString × GoString)
    (h : matchHere bboxRe s = some x) :
    ∃ g1 g2 g3 g4, x.1 = [g1, g2, g3, g4] ∧ IsDigits g1 ∧ IsDigits g2 ∧ IsDigits g3
      ∧ IsDigits g4 ∧ s = bboxToken g1 g2 g3 g4 ++ x.2 := by
  unfold bboxRe at h
  obtain ⟨r0, e0, h⟩ := matchHere_lit_inv _ _ _ _ h
  obtain ⟨g1, gs1, ex1, n1, d1, e1, h⟩ := matchHere_group_inv _ _ _ _ h
  obtain ⟨r2, e2, h⟩ := matchHere_lit_inv _ _ _ _ h
  obtain ⟨g2, gs2, ex2, n2, d2, e3, h⟩ := matchHere_group_inv _ _ _ _ h
  obtain ⟨r4, e4, h⟩ := matchHere_lit_inv _ _ _ _ h
  obtain ⟨g3, gs3, ex3, n3, d3, e5, h⟩ := matchHere_group_inv _ _ _ _ h
  obtain ⟨r6, e6, h⟩ := matchHere_lit_inv _ _ _ _ h
  obtain ⟨g4, gs4, ex4, n4, d4, e7, h⟩ := matchHere_group_inv _ _ _ _ h
  simp only [matchHere, Option.some.injEq, Prod.mk.injEq] at h
  obtain ⟨hgs4, hrest⟩ := h
  simp only at ex2 ex3 ex4
  refine ⟨g1, g2, g3, g4, ?_, ⟨n1, d1⟩, ⟨n2, d2⟩, ⟨n3, d3⟩, ⟨n4, d4⟩, ?_⟩
  · rw [ex1, ex2, ex3, ex4, ← hgs4]
  · rw [e0, e1, e2, e3, e4, e5, e6, e7, hrest]
    simp [bboxToken]

theorem matchHere_bboxRe_iff (s : GoString) : matchHere bboxRe s ≠ none ↔ BBoxAt s := by
  constructor
  · intro h
    cases hm : matchHere bboxRe s with
    | none => exact absurd hm h
    | some x =>
      obtain ⟨g1, g2, g3, g4, _, h1, h2, h3, h4, e⟩ := matchHere_bboxRe_sound s x hm
      exact ⟨g1, g2, g3, g4, x.2, h1, h2, h3, h4, e⟩
  · rintro ⟨g1, g2, g3, g4, rest, h1, h2, h3, h4, rfl⟩
    rw [matchHere_bboxToken g1 g2 g3 g4 rest h1 h2 h3 h4]
    simp

theorem matchHere_wconfRe_iff (s : GoString) : matchHere wconfRe s ≠ none ↔ WConfAt s := by
  constructor
  · intro h
    cases hm : matchHere wconfRe s with
    | none => exact absurd hm h
    | some x =>
      unfold wconfRe at hm
      obtain ⟨r0, e0, hm⟩ := matchHere_lit_inv _ _ _ _ hm
      obtain ⟨g, gs, _, n, d, e1, _⟩ := matchHere_group_inv _ _ _ _ hm
      cases g with
      | nil => exact absurd rfl n
      | cons c g =>
        refine ⟨c, g ++ r0.dropWhile isDigitOrDot, d c (List.mem_cons_self _ _), ?_⟩
        rw [e0]
        exact congrArg _ e1
  · rintro ⟨c, rest, hc, rfl⟩
    unfold wconfRe
    rw [matchHere_lit, show c :: rest = [c] ++ rest from rfl,
      matchHere_group_last _ _ _ (by simp) (by simpa using hc)]
    simp

theorem submatchHere_eq_none_iff (re : List Item) (s : GoString) :
    submatchHere re s = none ↔ matchHere re s = none := by
  unfold submatchHere
  cases matchHere re s <;> simp

theorem FindStringSubmatch_of_some (re : List Item) (s : GoString) (m : List GoString)
    (h : submatchHere re s = some m) : FindStringSubmatch re s = m := by
  cases s with
  | nil => simp [FindStringSubmatch, h]
  | cons c cs => simp [FindStringSubmatch, h]

theorem FindStringSubmatch_append_of_none (re : List Item) (pre s : GoString)
    (h : ∀ i, i < pre.length → submatchHere re ((pre ++ s).drop i) = none) :
    FindStringSubmatch re (pre ++ s) = FindStringSubmatch re s := by
  induction pre with
  | nil => rfl
  | cons c pre ih =>
    have h0 := h 0 (by simp)
    simp only [List.drop_zero, List.cons_append] at h0
    rw [List.cons_append, FindStringSubmatch, h0]
    apply ih
    intro i hi
    have := h (i + 1) (by simpa using hi)
    simpa using this

theorem FindStringSubmatch_eq_nil (re : List Item) (s : GoString)
    (h : ∀ i, i ≤ s.length → submatchHere re (s.drop i) = none) :
    FindStringSubmatch re s = [] := by
  induction s with
  | nil =>
    have h0 := h 0 (by simp)
    simp only [List.drop_zero] at h0
    simp [FindStringSubmatch, h0]
  | cons c cs ih =>
    have h0 := h 0 (by simp)
    simp only [List.drop_zero] at h0
    simp only [FindStringSubmatch, h0]
    apply ih
    intro i hi
    have := h (i + 1) (by simpa using hi)
    simpa using this

theorem FindStringSubmatch_leftmost (re : List Item) (s : GoString) (i : Nat)
    (hi : i ≤ s.length) (h : submatchHere re (s.drop i) ≠ none) :
    ∃ j, j ≤ i ∧ submatchHere re (s.drop j) = some (FindStringSubmatch re s)
      ∧ ∀ k, k < j → submatchHere re (s.drop k) = none := by
  induction s generalizing i with
  | nil =>
    have : i = 0 := by simpa using hi
    subst this
    simp only [List.drop_zero] at h
    cases hm : submatchHere re [] with
    | none => exact absurd hm h
    | some m => exact ⟨0, le_refl _, by simp [FindStringSubmatch, hm], by simp⟩
  | cons c cs ih =>
    cases hm : submatchHere re (c :: cs) with
    | some m => exact ⟨0, Nat.zero_le _, by simp [FindStringSubmatch, hm], by simp⟩
    | none =>
      cases i with
      | zero => exact absurd hm (by simpa using h)
      | succ i =>
        obtain ⟨j, hj, hs, hlt⟩ := ih i (by simpa using hi) (by simpa using h)
        refine ⟨j + 1, by omega, by simpa [FindStringSubmatch, hm] using hs, ?_⟩
        intro k hk
        cases k with
        | zero => simpa using hm
        | succ k => simpa using hlt k (by omega)

theorem submatchHere_ne_nil (re : List Item) (s : GoString) (m : List GoString)
    (h : submatchHere re s = some m) : m ≠ [] := by
  unfold submatchHere at h
  cases hm : matchHere re s with
  | none => rw [hm] at h; exact absurd h (by simp)
  | some x =>
    rw [hm] at h
    simp only [Option.some.injEq] at h
    subst h
    simp

theorem FindStringSubmatch_ne_nil_iff (re : List Item) (s : GoString) :
    FindStringSubmatch re s ≠ [] ↔ ∃ i, i ≤ s.length ∧ matchHere re (s.drop i) ≠ none := by
  constructor
  · intro h
    by_contra hno
    apply h
    apply FindStringSubmatch_eq_nil
    intro i hi
    rw [submatchHere_eq_none_iff]
    by_contra hm
    exact hno ⟨i, hi, hm⟩
  · rintro ⟨i, hi, hm⟩
    obtain ⟨j, _, hs, _⟩ := FindStringSubmatch_leftmost re s i hi
      (by rwa [ne_eq, submatchHere_eq_none_iff])
    exact submatchHere_ne_nil _ _ _ hs

theorem HasBBox_iff (title : GoString) :
    HasBBox title ↔ FindStringSubmatch bboxRe title ≠ [] := by
  rw [FindStringSubmatch_ne_nil_iff]
  unfold HasBBox
  simp only [matchHere_bboxRe_iff]

theorem HasWConf_iff (title : GoString) :
    HasWConf title ↔ FindStringSubmatch wconfRe title ≠ [] := by
  rw [FindStringSubmatch_ne_nil_iff]
  unfold HasWConf
  simp only [matchHere_wconfRe_iff]

/-! ## Lemmas on `Atoi` and `BoxCoords` -/

theorem Atoi_digits (g : GoString) (h : IsDigits g) :
    Atoi g = if maxInt < digitsVal g then ((maxInt : Int), some GoError.rangeError)
      else ((digitsVal g : Int), none) := by
  obtain ⟨hne, hd⟩ := h
  cases g with
  | nil => exact absurd rfl hne
  | cons c cs =>
    have hc : isDigit c = true := hd c (List.mem_cons_self _ _)
    have hm : c ≠ '-' := by rintro rfl; exact absurd hc (by decide)
    have hp : c ≠ '+' := by rintro rfl; exact absurd hc (by decide)
    have hall : (c :: cs).all isDigit = true := by
      rw [List.all_eq_true]
      exact hd
    unfold Atoi
    simp only [List.head?_cons, Option.some.injEq, hm, hp, or_self, if_false, decide_False,
      hall, Bool.true_eq_false, or_false, Bool.false_eq_true]
    simp

theorem Atoi_digits_error_iff (g : GoString) (h : IsDigits g) :
    (Atoi g).2 ≠ none ↔ maxInt < digitsVal g := by
  rw [Atoi_digits g h]
  split_ifs with hlt <;> simp [hlt]

theorem BoxCoords_of_submatch (title m g1 g2 g3 g4 : GoString)
    (h : FindStringSubmatch bboxRe title = [m, g1, g2, g3, g4])
    (h1 : IsDigits g1) (h2 : IsDigits g2) (h3 : IsDigits g3) (h4 : IsDigits g4) :
    BoxCoords title = Run.done (
      if maxInt < digitsVal g1 then ([0, 0, 0, 0], some GoError.rangeError)
      else if maxInt < digitsVal g2 then
        ([(digitsVal g1 : Int), 0, 0, 0], some GoError.rangeError)
      else if maxInt < digitsVal g3 then
        ([(digitsVal g1 : Int), (digitsVal g2 : Int), 0, 0], some GoError.rangeError)
      else if maxInt < digitsVal g4 then
        ([(digitsVal g1 : Int), (digitsVal g2 : Int), (digitsVal g3 : Int), 0],
          some GoError.rangeError)
      else
        ([(digitsVal g1 : Int), (digitsVal g2 : Int), (digitsVal g3 : Int),
          (digitsVal g4 : Int)], none)) := by
  unfold BoxCoords
  simp only [h, BoxCoordsLoop, index, List.get?, Run.bind, Atoi_digits _ h1, Atoi_digits _ h2,
    Atoi_digits _ h3, Atoi_digits _ h4]
  split_ifs <;> simp [List.set]

theorem BoxCoords_of_no_bbox (title : GoString) (h : ¬ HasBBox title) :
    BoxCoords title = Run.crash (GoPanic.indexOutOfRange 1 0) := by
  rw [HasBBox_iff, not_not] at h
  simp [BoxCoords, h, BoxCoordsLoop, index, Run.bind]

theorem wordConf_of_no_wconf (title : GoString) (h : ¬ HasWConf title) :
    wordConf title = Run.crash (GoPanic.indexOutOfRange 1 0) := by
  rw [HasWConf_iff, not_not] at h
  simp [wordConf, h, index, Run.bind]

theorem FindStringSubmatch_bboxRe_shape (title : GoString) (h : HasBBox title) :
    ∃ m g1 g2 g3 g4, FindStringSubmatch bboxRe title = [m, g1, g2, g3, g4]
      ∧ IsDigits g1 ∧ IsDigits g2 ∧ IsDigits g3 ∧ IsDigits g4 := by
  obtain ⟨i, hi, hb⟩ := h
  rw [← matchHere_bboxRe_iff, ne_eq, ← submatchHere_eq_none_iff] at hb
  obtain ⟨j, _, hs, _⟩ := FindStringSubmatch_leftmost bboxRe title i hi hb
  unfold submatchHere at hs
  cases hm : matchHere bboxRe (title.drop j) with
  | none => rw [hm] at hs; exact absurd hs (by simp)
  | some x =>
    rw [hm] at hs
    simp only [Option.some.injEq] at hs
    obtain ⟨g1, g2, g3, g4, hx, h1, h2, h3, h4, _⟩ := matchHere_bboxRe_sound _ x hm
    exact ⟨_, g1, g2, g3, g4, by rw [← hs, hx], h1, h2, h3, h4⟩

/-! ## `BoxCoords` and `wordConf`: the claims -/

/-- C5, as amended.  When the leftmost bbox token of a title is
`bbox g1 g2 g3 g4` (no bbox token starts before it), the token is not directly
followed by one more digit, and the four numbers fit in an `int`, `BoxCoords`
returns exactly these four numbers and no error, whatever the other text around
the token is and whether or not the numbers are monotonic. -/
theorem BoxCoords_leftmost_token (pre post g1 g2 g3 g4 : GoString)
    (h1 : IsDigits g1) (h2 : IsDigits g2) (h3 : IsDigits g3) (h4 : IsDigits g4)
    (hfit : digitsVal g1 ≤ maxInt ∧ digitsVal g2 ≤ maxInt ∧ digitsVal g3 ≤ maxInt
      ∧ digitsVal g4 ≤ maxInt)
    (hleft : ∀ i, i < pre.length → ¬ BBoxAt ((pre ++ (bboxToken g1 g2 g3 g4 ++ post)).drop i))
    (hpost : ∀ c, post.head? = some c → isDigit c = false) :
    BoxCoords (pre ++ (bboxToken g1 g2 g3 g4 ++ post))
      = Run.done ([(digitsVal g1 : Int), (digitsVal g2 : Int), (digitsVal g3 : Int),
          (digitsVal g4 : Int)], none) := by
  have hfind : FindStringSubmatch bboxRe (pre ++ (bboxToken g1 g2 g3 g4 ++ post))
      = FindStringSubmatch bboxRe (bboxToken g1 g2 g3 g4 ++ post) := by
    apply FindStringSubmatch_append_of_none
    intro i hi
    rw [submatchHere_eq_none_iff]
    by_contra hm
    exact hleft i hi ((matchHere_bboxRe_iff _).mp hm)
  have htake : post.takeWhile isDigit = [] := by
    cases post with
    | nil => rfl
    | cons c cs => simp [List.takeWhile, hpost c rfl]
  have hsub : ∃ m, FindStringSubmatch bboxRe (bboxToken g1 g2 g3 g4 ++ post)
      = [m, g1, g2, g3, g4] := by
    refine ⟨(bboxToken g1 g2 g3 g4 ++ post).take
      ((bboxToken g1 g2 g3 g4 ++ post).length - (post.dropWhile isDigit).length),
      FindStringSubmatch_of_some _ _ _ ?_⟩
    unfold submatchHere
    rw [matchHere_bboxToken g1 g2 g3 g4 post h1 h2 h3 h4, htake, List.append_nil]
  obtain ⟨m, hm⟩ := hsub
  rw [BoxCoords_of_submatch _ m g1 g2 g3 g4 (hfind.trans hm) h1 h2 h3 h4]
  obtain ⟨f1, f2, f3, f4⟩ := hfit
  simp [Nat.not_lt.mpr f1, Nat.not_lt.mpr f2, Nat.not_lt.mpr f3, Nat.not_lt.mpr f4]

/-- Witness for C5 as amended: the title `"a bbox 10 20 300 400; x"`, and a
token whose numbers are not monotonic is read the same way. -/
theorem BoxCoords_leftmost_token_witness :
    (IsDigits "300".toList ∧ IsDigits "20".toList ∧ IsDigits "10".toList
      ∧ IsDigits "400".toList)
    ∧ (digitsVal "300".toList ≤ maxInt ∧ digitsVal "20".toList ≤ maxInt
      ∧ digitsVal "10".toList ≤ maxInt ∧ digitsVal "400".toList ≤ maxInt)
    ∧ BoxCoords ("a ".toList ++
        (bboxToken "300".toList "20".toList "10".toList "400".toList ++ "; x".toList))
      = Run.done ([(digitsVal "300".toList : Int), (digitsVal "20".toList : Int),
          (digitsVal "10".toList : Int), (digitsVal "400".toList : Int)], none) :=
  ⟨⟨⟨by decide, by decide⟩, ⟨by decide, by decide⟩, ⟨by decide, by decide⟩,
      ⟨by decide, by decide⟩⟩,
    ⟨by decide, by decide, by decide, by decide⟩,
    BoxCoords_leftmost_token "a ".toList "; x".toList "300".toList "20".toList "10".toList
      "400".toList ⟨by decide, by decide⟩ ⟨by decide, by decide⟩ ⟨by decide, by decide⟩
      ⟨by decide, by decide⟩ ⟨by decide, by decide, by decide, by decide⟩
      (by
        intro i hi
        rw [← matchHere_bboxRe_iff, not_not]
        have hi' : i < 2 := hi
        interval_cases i <;> decide)
      (by decide)⟩

/-- Counterexample for C5 as stated: the title
`"bbox 1 2 3 4; bbox 10 20 300 400"` contains the token `bbox 10 20 300 400`,
and `BoxCoords` returns `(1, 2, 3, 4)`; the title `"bbox 10 20 300 4005"`
contains the text `bbox 10 20 300 400`, and `BoxCoords` returns
`(10, 20, 300, 4005)`. -/
theorem BoxCoords_not_every_token :
    (IsDigits "10".toList ∧ IsDigits "20".toList ∧ IsDigits "300".toList
      ∧ IsDigits "400".toList)
    ∧ "bbox 1 2 3 4; bbox 10 20 300 400".toList
        = "bbox 1 2 3 4; ".toList
          ++ (bboxToken "10".toList "20".toList "300".toList "400".toList ++ [])
    ∧ BoxCoords "bbox 1 2 3 4; bbox 10 20 300 400".toList = Run.done ([1, 2, 3, 4], none)
    ∧ "bbox 10 20 300 4005".toList
        = [] ++ (bboxToken "10".toList "20".toList "300".toList "400".toList ++ "5".toList)
    ∧ BoxCoords "bbox 10 20 300 4005".toList = Run.done ([10, 20, 300, 4005], none)
    ∧ ¬ ∀ (pre post g1 g2 g3 g4 : GoString),
        IsDigits g1 → IsDigits g2 → IsDigits g3 → IsDigits g4 →
        digitsVal g1 ≤ maxInt → digitsVal g2 ≤ maxInt → digitsVal g3 ≤ maxInt →
        digitsVal g4 ≤ maxInt →
        BoxCoords (pre ++ (bboxToken g1 g2 g3 g4 ++ post))
          = Run.done ([(digitsVal g1 : Int), (digitsVal g2 : Int), (digitsVal g3 : Int),
              (digitsVal g4 : Int)], none) := by
  refine ⟨⟨⟨by decide, by decide⟩, ⟨by decide, by decide⟩, ⟨by decide, by decide⟩,
    ⟨by decide, by decide⟩⟩, by decide, by decide, by decide, by decide, ?_⟩
  intro h
  have := h "bbox 1 2 3 4; ".toList [] "10".toList "20".toList "300".toList "400".toList
    ⟨by decide, by decide⟩ ⟨by decide, by decide⟩ ⟨by decide, by decide⟩
    ⟨by decide, by decide⟩ (by decide) (by decide) (by decide) (by decide)
  revert this
  decide

/-- C6, the code at failing inputs.  The empty title and the title `"ppageno 0"`
contain no bbox token, and on them `BoxCoords` does not return: it panics with
an index out of range, the submatch slice being nil. -/
theorem BoxCoords_panics_without_bbox :
    ¬ HasBBox [] ∧ BoxCoords [] = Run.crash (GoPanic.indexOutOfRange 1 0)
    ∧ ¬ HasBBox "ppageno 0".toList
    ∧ BoxCoords "ppageno 0".toList = Run.crash (GoPanic.indexOutOfRange 1 0) := by
  refine ⟨?_, by decide, ?_, by decide⟩
  · rw [HasBBox_iff, not_not]; decide
  · rw [HasBBox_iff, not_not]; decide

/-- C7. For every title that has a bbox token, `BoxCoords` returns (it does not
panic), the four captured groups are digit groups, and the error returned is
not nil if and only if one of the four groups is not parseable by `Atoi`, which
for a digit group means that its number exceeds the largest `int`; with all
four parseable there is no error and the coordinates are the four numbers. -/
theorem BoxCoords_error_iff (title : GoString) (h : HasBBox title) :
    ∃ m g1 g2 g3 g4 coords err,
      FindStringSubmatch bboxRe title = [m, g1, g2, g3, g4]
      ∧ IsDigits g1 ∧ IsDigits g2 ∧ IsDigits g3 ∧ IsDigits g4
      ∧ BoxCoords title = Run.done (coords, err)
      ∧ (err ≠ none ↔ ∃ g ∈ [g1, g2, g3, g4], (Atoi g).2 ≠ none)
      ∧ (∀ g ∈ [g1, g2, g3, g4], ((Atoi g).2 ≠ none ↔ maxInt < digitsVal g))
      ∧ (err = none ∨ err = some GoError.rangeError)
      ∧ (err = none → coords = [(digitsVal g1 : Int), (digitsVal g2 : Int),
          (digitsVal g3 : Int), (digitsVal g4 : Int)]) := by
  obtain ⟨m, g1, g2, g3, g4, hf, h1, h2, h3, h4⟩ := FindStringSubmatch_bboxRe_shape title h
  have hb := BoxCoords_of_submatch title m g1 g2 g3 g4 hf h1 h2 h3 h4
  have hall : ∀ g ∈ [g1, g2, g3, g4], ((Atoi g).2 ≠ none ↔ maxInt < digitsVal g) := by
    intro g hg
    simp only [List.mem_cons, List.mem_singleton, List.not_mem_nil, or_false] at hg
    rcases hg with rfl | rfl | rfl | rfl
    · exact Atoi_digits_error_iff _ h1
    · exact Atoi_digits_error_iff _ h2
    · exact Atoi_digits_error_iff _ h3
    · exact Atoi_digits_error_iff _ h4
  have hex : (∃ g ∈ [g1, g2, g3, g4], (Atoi g).2 ≠ none)
      ↔ (maxInt < digitsVal g1 ∨ maxInt < digitsVal g2 ∨ maxInt < digitsVal g3
        ∨ maxInt < digitsVal g4) := by
    simp only [List.mem_cons, List.mem_singleton, List.not_mem_nil, or_false, exists_eq_or_imp,
      exists_eq_left, Atoi_digits_error_iff _ h1, Atoi_digits_error_iff _ h2,
      Atoi_digits_error_iff _ h3, Atoi_digits_error_iff _ h4]
  by_cases c1 : maxInt < digitsVal g1
  · rw [if_pos c1] at hb
    exact ⟨m, g1, g2, g3, g4, _, _, hf, h1, h2, h3, h4, hb, by rw [hex]; simp [c1], hall,
      by simp, by simp⟩
  rw [if_neg c1] at hb
  by_cases c2 : maxInt < digitsVal g2
  · rw [if_pos c2] at hb
    exact ⟨m, g1, g2, g3, g4, _, _, hf, h1, h2, h3, h4, hb, by rw [hex]; simp [c2], hall,
      by simp, by simp⟩
  rw [if_neg c2] at hb
  by_cases c3 : maxInt < digitsVal g3
  · rw [if_pos c3] at hb
    exact ⟨m, g1, g2, g3, g4, _, _, hf, h1, h2, h3, h4, hb, by rw [hex]; simp [c3], hall,
      by simp, by simp⟩
  rw [if_neg c3] at hb
  by_cases c4 : maxInt < digitsVal g4
  · rw [if_pos c4] at hb
    exact ⟨m, g1, g2, g3, g4, _, _, hf, h1, h2, h3, h4, hb, by rw [hex]; simp [c4], hall,
      by simp, by simp⟩
  rw [if_neg c4] at hb
  exact ⟨m, g1, g2, g3, g4, _, _, hf, h1, h2, h3, h4, hb, by rw [hex]; simp [c1, c2, c3, c4], hall,
    by simp, by simp⟩

/-- Witness for C7: a title whose fourth number exceeds the largest `int`. -/
theorem BoxCoords_error_iff_witness :
    HasBBox "bbox 1 2 3 99999999999999999999".toList
    ∧ ∃ m g1 g2 g3 g4 coords err,
      FindStringSubmatch bboxRe "bbox 1 2 3 99999999999999999999".toList = [m, g1, g2, g3, g4]
      ∧ IsDigits g1 ∧ IsDigits g2 ∧ IsDigits g3 ∧ IsDigits g4
      ∧ BoxCoords "bbox 1 2 3 99999999999999999999".toList = Run.done (coords, err)
      ∧ (err ≠ none ↔ ∃ g ∈ [g1, g2, g3, g4], (Atoi g).2 ≠ none)
      ∧ (∀ g ∈ [g1, g2, g3, g4], ((Atoi g).2 ≠ none ↔ maxInt < digitsVal g))
      ∧ (err = none ∨ err = some GoError.rangeError)
      ∧ (err = none → coords = [(digitsVal g1 : Int), (digitsVal g2 : Int),
          (digitsVal g3 : Int), (digitsVal g4 : Int)]) :=
  ⟨(HasBBox_iff _).mpr (by decide),
    BoxCoords_error_iff "bbox 1 2 3 99999999999999999999".toList
      ((HasBBox_iff _).mpr (by decide))⟩

/-- C8, the code at failing inputs.  The empty title and the title
`"bbox 1 2 3 4"` contain no x_wconf token, and on them `wordConf` does not
return: it panics with an index out of range, the submatch slice being nil. -/
theorem wordConf_panics_without_wconf :
    ¬ HasWConf [] ∧ wordConf [] = Run.crash (GoPanic.indexOutOfRange 1 0)
    ∧ ¬ HasWConf "bbox 1 2 3 4".toList
    ∧ wordConf "bbox 1 2 3 4".toList = Run.crash (GoPanic.indexOutOfRange 1 0) := by
  refine ⟨?_, by decide, ?_, by decide⟩
  · rw [HasWConf_iff, not_not]; decide
  · rw [HasWConf_iff, not_not]; decide

/-! ## Lemmas on the loops of `GetWordConfs` -/

theorem GetWordConfsWords_append (confs : List Float64) (a b : List OcrWord) :
    GetWordConfsWords confs (a ++ b)
      = (GetWordConfsWords confs a).bind fun r =>
          match r with
          | (confs, some err) => Run.done (confs, some err)
          | (confs, none) => GetWordConfsWords confs b := by
  induction a generalizing confs with
  | nil => rfl
  | cons w a ih =>
    simp only [List.cons_append, GetWordConfsWords]
    cases wordConf w.Title with
    | crash p => rfl
    | done r =>
      obtain ⟨c, e⟩ := r
      cases e with
      | some err => rfl
      | none => exact ih _

theorem GetWordConfsLines_eq (confs : List Float64) (ls : List OcrLine) :
    GetWordConfsLines confs ls
      = GetWordConfsWords confs (ls.map fun l => l.Words).flatten := by
  induction ls generalizing confs with
  | nil => rfl
  | cons l ls ih =>
    simp only [GetWordConfsLines, List.map_cons, List.flatten_cons, GetWordConfsWords_append]
    congr 1
    funext r
    obtain ⟨c, e⟩ := r
    cases e with
    | some err => rfl
    | none => exact ih c

theorem GetWordConfsPages_eq (confs : List Float64) (ps : List Page) :
    GetWordConfsPages confs ps = GetWordConfsWords confs (allWords ps) := by
  induction ps generalizing confs with
  | nil => rfl
  | cons p ps ih =>
    simp only [GetWordConfsPages, allWords, List.map_cons, List.flatten_cons,
      GetWordConfsWords_append, GetWordConfsLines_eq]
    congr 1
    funext r
    obtain ⟨c, e⟩ := r
    cases e with
    | some err => rfl
    | none => exact ih c

theorem GetWordConfsWords_ok (confs : List Float64) (ws : List OcrWord) (cs : List Float64)
    (h : List.Forall₂ (fun w c => wordConf w.Title = Run.done (c, none)) ws cs) :
    GetWordConfsWords confs ws = Run.done (confs ++ cs, none) := by
  induction h generalizing confs with
  | nil => simp [GetWordConfsWords]
  | cons hw _ ih => simp [GetWordConfsWords, hw, Run.bind, ih]

theorem GetWordConfsWords_fail (confs : List Float64) (pre post : List OcrWord) (w : OcrWord)
    (cs : List Float64) (c : Float64) (err : GoError)
    (hpre : List.Forall₂ (fun w c => wordConf w.Title = Run.done (c, none)) pre cs)
    (hw : wordConf w.Title = Run.done (c, some err)) :
    GetWordConfsWords confs (pre ++ w :: post) = Run.done (confs ++ cs, some err) := by
  rw [GetWordConfsWords_append, GetWordConfsWords_ok confs pre cs hpre]
  simp [Run.bind, GetWordConfsWords, hw]

theorem exists_confs_of_forall (ws : List OcrWord)
    (h : ∀ w ∈ ws, ∃ c, wordConf w.Title = Run.done (c, none)) :
    ∃ cs, List.Forall₂ (fun w c => wordConf w.Title = Run.done (c, none)) ws cs := by
  induction ws with
  | nil => exact ⟨[], List.Forall₂.nil⟩
  | cons w ws ih =>
    obtain ⟨c, hc⟩ := h w (List.mem_cons_self _ _)
    obtain ⟨cs, hcs⟩ := ih fun u hu => h u (List.mem_cons_of_mem _ hu)
    exact ⟨c :: cs, List.Forall₂.cons hc hcs⟩

theorem mem_allWords (ps : List Page) (w : OcrWord) :
    w ∈ allWords ps ↔ ∃ p ∈ ps, ∃ l ∈ p.Lines, w ∈ l.Words := by
  simp only [allWords, List.mem_flatten, List.mem_map]
  constructor
  · rintro ⟨_, ⟨p, hp, rfl⟩, hw⟩
    obtain ⟨_, hm, hw⟩ := List.mem_flatten.mp hw
    obtain ⟨l, hl, rfl⟩ := List.mem_map.mp hm
    exact ⟨p, hp, l, hl, hw⟩
  · rintro ⟨p, hp, l, hl, hw⟩
    exact ⟨_, ⟨p, hp, rfl⟩, List.mem_flatten.mpr ⟨_, List.mem_map.mpr ⟨l, hl, rfl⟩, hw⟩⟩

theorem length_allWords (ps : List Page) :
    (allWords ps).length
      = (ps.map fun p => (p.Lines.map fun l => l.Words.length).sum).sum := by
  have hl : ∀ ls : List OcrLine, ((ls.map fun l => l.Words).flatten).length
      = (ls.map fun l => l.Words.length).sum := by
    intro ls
    induction ls with
    | nil => rfl
    | cons l ls ih => simp [ih]
  induction ps with
  | nil => rfl
  | cons p ps ih =>
    simp only [allWords, List.map_cons, List.flatten_cons, List.length_append, List.sum_cons,
      hl] at ih ⊢
    rw [ih]

/-! ## `GetWordConfs`: the claims -/

/-- C9. When the file is read and parsed without error and `wordConf` returns a
confidence and no error on the title of every word of the document,
`GetWordConfs` returns no error and a slice with exactly one entry per word: its
length is the number of words over all lines of all pages, and its entries are,
in document order (page, then line, then word), the confidences that `wordConf`
returns on the titles of the words. -/
theorem GetWordConfs_lists_every_word {Bytes : Type}
    (ReadFile : GoString → Bytes × Option GoError) (Parse : Bytes → Hocr × Option GoError)
    (hocrfn : GoString) (file : Bytes) (h : Hocr)
    (hread : ReadFile hocrfn = (file, none)) (hparse : Parse file = (h, none))
    (hconf : ∀ p ∈ h.Pages, ∀ l ∈ p.Lines, ∀ w ∈ l.Words,
      ∃ c, wordConf w.Title = Run.done (c, none)) :
    ∃ confs, GetWordConfs ReadFile Parse hocrfn = Run.done (confs, none)
      ∧ confs.length = (h.Pages.map fun p => (p.Lines.map fun l => l.Words.length).sum).sum
      ∧ List.Forall₂ (fun w c => wordConf w.Title = Run.done (c, none))
          (allWords h.Pages) confs := by
  obtain ⟨cs, hcs⟩ := exists_confs_of_forall (allWords h.Pages) (by
    intro w hw
    obtain ⟨p, hp, l, hl, hw⟩ := (mem_allWords _ _).mp hw
    exact hconf p hp l hl w hw)
  refine ⟨cs, ?_, ?_, hcs⟩
  · simp [GetWordConfs, hread, hparse, GetWordConfsPages_eq, GetWordConfsWords_ok _ _ _ hcs]
  · rw [← hcs.length_eq, length_allWords]

theorem parsesConf_iff (title : GoString) :
    (∃ c, wordConf title = Run.done (c, none)) ↔ parsesConf title = true := by
  unfold parsesConf
  cases wordConf title with
  | crash p => simp
  | done r =>
    obtain ⟨c, e⟩ := r
    cases e <;> simp

/-- Witness for C9: the example document of two pages, three lines and three
words. -/
theorem GetWordConfs_lists_every_word_witness :
    (∀ p ∈ exampleDoc.Pages, ∀ l ∈ p.Lines, ∀ w ∈ l.Words,
      ∃ c, wordConf w.Title = Run.done (c, none))
    ∧ ∃ confs, GetWordConfs (fun _ => ((), none)) (fun _ => (exampleDoc, none)) "f.hocr".toList
          = Run.done (confs, none)
      ∧ confs.length
          = (exampleDoc.Pages.map fun p => (p.Lines.map fun l => l.Words.length).sum).sum
      ∧ List.Forall₂ (fun w c => wordConf w.Title = Run.done (c, none))
          (allWords exampleDoc.Pages) confs :=
  have hconf : ∀ p ∈ exampleDoc.Pages, ∀ l ∈ p.Lines, ∀ w ∈ l.Words,
      ∃ c, wordConf w.Title = Run.done (c, none) :=
    fun p hp l hl w hw => (parsesConf_iff _).mpr
      ((by decide : ∀ p ∈ exampleDoc.Pages, ∀ l ∈ p.Lines, ∀ w ∈ l.Words,
        parsesConf w.Title = true) p hp l hl w hw)
  ⟨hconf, GetWordConfs_lists_every_word (fun _ => ((), none)) (fun _ => (exampleDoc, none))
    "f.hocr".toList () exampleDoc rfl rfl hconf⟩

/-- C10, as amended.  When the file is read and parsed without error, `wordConf`
returns a confidence and no error on the titles of the words `pre` that come
first in document order, and returns an error on the title of the next word `w`,
`GetWordConfs` returns that error together with the confidences of the words
`pre`, in order, and nothing of `w` or of the words after it. -/
theorem GetWordConfs_stops_at_first_error {Bytes : Type}
    (ReadFile : GoString → Bytes × Option GoError) (Parse : Bytes → Hocr × Option GoError)
    (hocrfn : GoString) (file : Bytes) (h : Hocr)
    (pre post : List OcrWord) (w : OcrWord) (cs : List Float64) (c : Float64) (err : GoError)
    (hread : ReadFile hocrfn = (file, none)) (hparse : Parse file = (h, none))
    (hwords : allWords h.Pages = pre ++ w :: post)
    (hpre : List.Forall₂ (fun w c => wordConf w.Title = Run.done (c, none)) pre cs)
    (hw : wordConf w.Title = Run.done (c, some err)) :
    GetWordConfs ReadFile Parse hocrfn = Run.done (cs, some err)
      ∧ cs.length = pre.length := by
  refine ⟨?_, hpre.length_eq.symm⟩
  simp [GetWordConfs, hread, hparse, GetWordConfsPages_eq, hwords,
    GetWordConfsWords_fail [] pre post w cs c err hpre hw]

/-- Witness for C10 as amended: in the example document the second word has
the x_wconf value `1.2.3`; the error is returned with the confidence `70` of the
first word only. -/
theorem GetWordConfs_stops_at_first_error_witness :
    allWords exampleDocBadConf.Pages
        = [exampleWord "x_wconf 70".toList "a".toList]
          ++ exampleWord "x_wconf 1.2.3".toList "b".toList
            :: [exampleWord "x_wconf 90".toList "c".toList]
    ∧ wordConf (exampleWord "x_wconf 1.2.3".toList "b".toList).Title
        = Run.done (Float64.zero, some GoError.syntaxError)
    ∧ (GetWordConfs (fun _ => ((), none)) (fun _ => (exampleDocBadConf, none)) "f.hocr".toList
        = Run.done ([Float64.finite (70 * 2 ^ 46) (-46)], some GoError.syntaxError)
      ∧ [Float64.finite (70 * 2 ^ 46) (-46)].length
        = [exampleWord "x_wconf 70".toList "a".toList].length) :=
  ⟨rfl, by decide,
    GetWordConfs_stops_at_first_error (fun _ => ((), none))
      (fun _ => (exampleDocBadConf, none)) "f.hocr".toList () exampleDocBadConf
      [exampleWord "x_wconf 70".toList "a".toList] [exampleWord "x_wconf 90".toList "c".toList]
      (exampleWord "x_wconf 1.2.3".toList "b".toList) [Float64.finite (70 * 2 ^ 46) (-46)]
      Float64.zero GoError.syntaxError rfl rfl rfl
      (List.Forall₂.cons (by decide) List.Forall₂.nil) (by decide)⟩

/-- Counterexample for C10 as stated: on the example document whose second
word has the x_wconf value `1.2.3`, `GetWordConfs` fails with an error and the
slice it returns is not empty: it holds the confidence `70` of the first word. -/
theorem GetWordConfs_returns_partial_results :
    GetWordConfs (fun _ => ((), none)) (fun _ => (exampleDocBadConf, none)) "f.hocr".toList
        = Run.done ([Float64.finite (70 * 2 ^ 46) (-46)], some GoError.syntaxError)
    ∧ wordConf "x_wconf 70".toList = Run.done (Float64.finite (70 * 2 ^ 46) (-46), none)
    ∧ Float64.toRat (Float64.finite (70 * 2 ^ 46) (-46)) = some 70
    ∧ [Float64.finite (70 * 2 ^ 46) (-46)] ≠ [] := by
  refine ⟨by decide, by decide, ?_, by simp⟩
  simp only [Float64.toRat, Option.some.injEq]
  norm_num

/-- The example of the specification for the word-confidence listing: with the
confidences `70`, missing, `90`, `GetWordConfs` does not return; it panics in
`wordConf` at the second word. -/
theorem GetWordConfs_panics_on_missing_confidence :
    GetWordConfs (fun _ => ((), none)) (fun _ => (exampleDocNoConf, none)) "f.hocr".toList
      = Run.crash (GoPanic.indexOutOfRange 1 0) := by
  decide

/-! ## Lemmas on `Split` for identifiers -/

theorem Split_length (s : GoString) (sep : Char) :
    (Split s sep).length = s.count sep + 1 := by
  induction s with
  | nil => simp [Split]
  | cons c cs ih =>
    by_cases h : c = sep
    · subst h
      simp [Split, ih]
    · cases hs : Split cs sep with
      | nil => exact absurd hs (Split_ne_nil cs sep)
      | cons p ps =>
        rw [hs] at ih
        simp only [Split, h, if_false, hs, List.length_cons] at ih ⊢
        rw [ih, List.count_cons_of_ne (fun e => h e.symm)]

theorem Split_of_not_mem (f : GoString) (sep : Char) (h : sep ∉ f) : Split f sep = [f] := by
  induction f with
  | nil => rfl
  | cons c cs ih =>
    have hc : c ≠ sep := fun e => h (e ▸ List.mem_cons_self _ _)
    have hcs : sep ∉ cs := fun m => h (List.mem_cons_of_mem _ m)
    simp [Split, hc, ih hcs]

theorem Split_append_sep (f r : GoString) (sep : Char) (h : sep ∉ f) :
    Split (f ++ sep :: r) sep = f :: Split r sep := by
  induction f with
  | nil => simp [Split]
  | cons c cs ih =>
    have hc : c ≠ sep := fun e => h (e ▸ List.mem_cons_self _ _)
    have hcs : sep ∉ cs := fun m => h (List.mem_cons_of_mem _ m)
    simp [Split, hc, ih hcs]

theorem Split_three (id f1 f2 f3 : GoString) (sep : Char)
    (h1 : sep ∉ f1) (h2 : sep ∉ f2) (h3 : sep ∉ f3)
    (hid : id = f1 ++ sep :: (f2 ++ sep :: f3)) : Split id sep = [f1, f2, f3] := by
  rw [hid, Split_append_sep _ _ _ h1, Split_append_sep _ _ _ h2, Split_of_not_mem _ _ h3]

theorem Split_three_inv (id : GoString) (sep : Char) (h : (Split id sep).length = 3) :
    ∃ f1 f2 f3, sep ∉ f1 ∧ sep ∉ f2 ∧ sep ∉ f3 ∧ Split id sep = [f1, f2, f3]
      ∧ id = f1 ++ sep :: (f2 ++ sep :: f3) := by
  have hj := Split_intercalate id sep
  have hn := Split_sep_not_mem id sep
  match hs : Split id sep, h with
  | [f1, f2, f3], _ =>
    rw [hs] at hj hn
    refine ⟨f1, f2, f3, hn f1 (by simp), hn f2 (by simp), hn f3 (by simp), rfl, ?_⟩
    rw [← hj]
    simp [List.intercalate, List.intersperse]

/-! ## Identifiers: the claim -/

/-- C18. `GetShortId` returns the third field of an identifier made of exactly
three fields separated by `_` (an identifier with exactly two `_`), without a
panic, and returns the identifier unchanged in every other case; the methods of
`OcrLine` and of `OcrWord` return the same result for the same identifier;
`line_1_7` gives `7`. -/
theorem GetShortId_third_field (l : OcrLine) (w : OcrWord) :
    (∀ f1 f2 f3 : GoString, '_' ∉ f1 → '_' ∉ f2 → '_' ∉ f3 →
        l.Id = f1 ++ '_' :: (f2 ++ '_' :: f3) → l.GetShortId = Run.done f3)
    ∧ (l.Id.count '_' = 2 →
        ∃ f1 f2 f3, '_' ∉ f1 ∧ '_' ∉ f2 ∧ '_' ∉ f3 ∧ l.Id = f1 ++ '_' :: (f2 ++ '_' :: f3)
          ∧ l.GetShortId = Run.done f3)
    ∧ (l.Id.count '_' ≠ 2 → l.GetShortId = Run.done l.Id)
    ∧ (w.Id = l.Id → w.GetShortId = l.GetShortId)
    ∧ OcrLine.GetShortId (exampleLineWithId "line_1_7".toList) = Run.done "7".toList := by
  have key : ∀ f1 f2 f3 : GoString, '_' ∉ f1 → '_' ∉ f2 → '_' ∉ f3 →
      l.Id = f1 ++ '_' :: (f2 ++ '_' :: f3) → l.GetShortId = Run.done f3 := by
    intro f1 f2 f3 h1 h2 h3 hid
    simp [OcrLine.GetShortId, Split_three _ _ _ _ _ h1 h2 h3 hid, index]
  refine ⟨key, ?_, ?_, ?_, by decide⟩
  · intro hc
    obtain ⟨f1, f2, f3, h1, h2, h3, _, hid⟩ :=
      Split_three_inv l.Id '_' (by rw [Split_length, hc])
    exact ⟨f1, f2, f3, h1, h2, h3, hid, key f1 f2 f3 h1 h2 h3 hid⟩
  · intro hc
    have : (Split l.Id '_').length ≠ 3 := by
      rw [Split_length]
      omega
    simp [OcrLine.GetShortId, this]
  · intro h
    simp [OcrLine.GetShortId, OcrWord.GetShortId, h]

/-- Witness for C18: the identifier `word_1_23` and the identifiers `line_1`
and `a_b_c_d`. -/
theorem GetShortId_third_field_witness :
    ('_' ∉ "word".toList ∧ '_' ∉ "1".toList ∧ '_' ∉ "23".toList)
    ∧ OcrLine.GetShortId (exampleLineWithId "word_1_23".toList) = Run.done "23".toList
    ∧ ("line_1".toList.count '_' ≠ 2
      ∧ OcrLine.GetShortId (exampleLineWithId "line_1".toList) = Run.done "line_1".toList)
    ∧ ("a_b_c_d".toList.count '_' ≠ 2
      ∧ OcrLine.GetShortId (exampleLineWithId "a_b_c_d".toList) = Run.done "a_b_c_d".toList)
    ∧ OcrWord.GetShortId { exampleWord [] [] with Id := "word_1_23".toList }
        = OcrLine.GetShortId (exampleLineWithId "word_1_23".toList) :=
  ⟨⟨by decide, by decide, by decide⟩,
    (GetShortId_third_field (exampleLineWithId "word_1_23".toList) (exampleWord [] [])).1
      "word".toList "1".toList "23".toList (by decide) (by decide) (by decide) rfl,
    ⟨by decide,
      (GetShortId_third_field (exampleLineWithId "line_1".toList) (exampleWord [] [])).2.2.1
        (by decide)⟩,
    ⟨by decide,
      (GetShortId_third_field (exampleLineWithId "a_b_c_d".toList) (exampleWord [] [])).2.2.1
        (by decide)⟩,
    (GetShortId_third_field (exampleLineWithId "word_1_23".toList)
      { exampleWord [] [] with Id := "word_1_23".toList }).2.2.2.1 rfl⟩

/-! ## Lemmas on `GetText` -/

theorem GetTextLines_eq (s : GoString) (ls : List OcrLine) :
    GetTextLines s ls = s ++ (ls.map fun l => l.Text ++ ['\n']).flatten := by
  induction ls generalizing s with
  | nil => simp [GetTextLines]
  | cons l ls ih => simp [GetTextLines, ih, LineText]

theorem GetTextPages_eq (s : GoString) (ps : List Page) :
    GetTextPages s ps = s ++ ((allLines ps).map fun l => l.Text ++ ['\n']).flatten := by
  induction ps generalizing s with
  | nil => simp [GetTextPages, allLines]
  | cons p ps ih =>
    simp only [GetTextPages, ih, GetTextLines_eq, allLines, List.map_cons, List.flatten_cons,
      List.map_append, List.flatten_append, List.append_assoc]

theorem length_flatten_lines (ls : List OcrLine) :
    ((ls.map fun l => l.Text ++ ['\n']).flatten).length
      = (ls.map fun l => l.Text.length).sum + ls.length := by
  induction ls with
  | nil => rfl
  | cons l ls ih =>
    simp only [List.map_cons, List.flatten_cons, List.length_append, List.length_cons,
      List.length_nil, List.sum_cons, ih]
    omega

theorem flatten_allLines (ps : List Page) :
    ((allLines ps).map fun l => l.Text ++ ['\n']).flatten
      = (ps.map fun p => (p.Lines.map fun l => l.Text ++ ['\n']).flatten).flatten := by
  induction ps with
  | nil => rfl
  | cons p ps ih =>
    simp only [allLines, List.map_cons, List.flatten_cons, List.map_append,
      List.flatten_append] at ih ⊢
    rw [ih]

/-! ## `GetText`: the claim -/

/-- C13.  When the file is read and parsed without error, `GetText` returns no
error and the concatenation, over the pages in order and the lines in order
within each page, of the text of each line followed by one newline; the text of
a line is its `Text` field, untrimmed.  The result has one more character per
line than the texts have together, and is empty for a document without
lines. -/
theorem GetText_concatenates_lines {Bytes : Type}
    (ReadFile : GoString → Bytes × Option GoError) (Parse : Bytes → Hocr × Option GoError)
    (hocrfn : GoString) (file : Bytes) (h : Hocr)
    (hread : ReadFile hocrfn = (file, none)) (hparse : Parse file = (h, none)) :
    GetText ReadFile Parse hocrfn
        = (((allLines h.Pages).map fun l => LineText l ++ ['\n']).flatten, none)
    ∧ (∀ l : OcrLine, LineText l = l.Text)
    ∧ (GetText ReadFile Parse hocrfn).1
        = ((h.Pages.map fun p => (p.Lines.map fun l => l.Text ++ ['\n']).flatten).flatten)
    ∧ (GetText ReadFile Parse hocrfn).1.length
        = ((allLines h.Pages).map fun l => l.Text.length).sum + (allLines h.Pages).length
    ∧ (allLines h.Pages = [] → (GetText ReadFile Parse hocrfn).1 = []) := by
  have e : GetText ReadFile Parse hocrfn
      = (((allLines h.Pages).map fun l => l.Text ++ ['\n']).flatten, none) := by
    simp [GetText, hread, hparse, GetTextPages_eq]
  refine ⟨e, fun _ => rfl, ?_, ?_, ?_⟩
  · rw [e]
    exact flatten_allLines _
  · rw [e]
    exact length_flatten_lines _
  · intro hnil
    rw [e, hnil]
    rfl

/-- Witness for C13: the example document, with the lines `ab cd`, the empty
line and `e`. -/
theorem GetText_concatenates_lines_witness :
    GetText (fun _ => ((), none)) (fun _ => (exampleDoc, none)) "f.hocr".toList
        = (((allLines exampleDoc.Pages).map fun l => LineText l ++ ['\n']).flatten, none)
    ∧ GetText (fun _ => ((), none)) (fun _ => (exampleDoc, none)) "f.hocr".toList
        = ("ab cd\n\ne\n".toList, none) :=
  ⟨(GetText_concatenates_lines (fun _ => ((), none)) (fun _ => (exampleDoc, none))
      "f.hocr".toList () exampleDoc rfl rfl).1, by decide⟩

/-! ## The image path: the claim -/

theorem HasSuffix_append (stem suffix : GoString) : HasSuffix (stem ++ suffix) suffix = true := by
  simp [HasSuffix]

theorem TrimSuffix_append (stem suffix : GoString) :
    TrimSuffix (stem ++ suffix) suffix = stem := by
  simp [TrimSuffix, HasSuffix_append]

theorem Ext_hocr (stem : GoString) : Ext (stem ++ ".hocr".toList) = ".hocr".toList := by
  simp [Ext, ExtRev]

/-- C15, as amended.  In default mode the image path is the input path with a
trailing `.hocr` replaced by `.png`, which for such a path is the substitution
of its extension; an input path that does not end in `.hocr` keeps its
extension and gets `.png` appended. -/
theorem imgName_replaces_hocr (f : GoString) :
    (∀ stem, f = stem ++ ".hocr".toList →
      imgName f = stem ++ ".png".toList ∧ imgName f = substituteExt f)
    ∧ (HasSuffix f ".hocr".toList = false → imgName f = f ++ ".png".toList) := by
  constructor
  · rintro stem rfl
    constructor
    · rw [imgName, TrimSuffix_append]
    · rw [imgName, TrimSuffix_append, substituteExt, Ext_hocr]
      simp
  · intro h
    rw [imgName, TrimSuffix, h]
    rfl

/-- Witness for C15 as amended: `dir/a.hocr` gives `dir/a.png`, and `a.xml`
gives `a.xml.png`. -/
theorem imgName_replaces_hocr_witness :
    (imgName "dir/a.hocr".toList = "dir/a".toList ++ ".png".toList
      ∧ imgName "dir/a.hocr".toList = substituteExt "dir/a.hocr".toList)
    ∧ HasSuffix "a.xml".toList ".hocr".toList = false
    ∧ imgName "a.xml".toList = "a.xml".toList ++ ".png".toList :=
  ⟨(imgName_replaces_hocr "dir/a.hocr".toList).1 "dir/a".toList rfl, by decide,
    (imgName_replaces_hocr "a.xml".toList).2 (by decide)⟩

/-- Counterexample for C15 as stated: for the input path `a.xml` the extension
is `.xml` and its substitution by `.png` is `a.png`, but the image path is
`a.xml.png`: `.png` is appended after the existing extension. -/
theorem imgName_appends_after_other_extension :
    Ext "a.xml".toList = ".xml".toList
    ∧ substituteExt "a.xml".toList = "a.png".toList
    ∧ imgName "a.xml".toList = "a.xml.png".toList
    ∧ imgName "a.xml".toList ≠ substituteExt "a.xml".toList := by
  decide

/-! ## Lemmas on `Trim` -/

theorem TrimLeft_decomp (s cs : GoString) :
    ∃ a, s = a ++ TrimLeft s cs ∧ ∀ c ∈ a, c ∈ cs := by
  refine ⟨s.takeWhile (fun c => decide (c ∈ cs)), ?_, ?_⟩
  · exact (List.takeWhile_append_dropWhile _ s).symm
  · intro c hc
    simpa using List.mem_takeWhile_imp hc

theorem TrimLeft_head (s cs : GoString) (c : Char) (h : (TrimLeft s cs).head? = some c) :
    c ∉ cs := by
  unfold TrimLeft at h
  induction s with
  | nil => simp at h
  | cons d s ih =>
    by_cases hd : d ∈ cs
    · simp only [List.dropWhile, hd, decide_True] at h
      exact ih h
    · simp only [List.dropWhile, hd, decide_False, List.head?_cons, Option.some.injEq] at h
      exact h ▸ hd

theorem TrimLeft_eq_self (s cs : GoString) (h : ∀ c, s.head? = some c → c ∉ cs) :
    TrimLeft s cs = s := by
  cases s with
  | nil => rfl
  | cons d s => simp [TrimLeft, List.dropWhile, h d rfl]

theorem TrimLeft_eq_nil_iff (s cs : GoString) : TrimLeft s cs = [] ↔ ∀ c ∈ s, c ∈ cs := by
  simp [TrimLeft, List.dropWhile_eq_nil_iff]

theorem TrimRight_decomp (s cs : GoString) :
    ∃ b, s = TrimRight s cs ++ b ∧ ∀ c ∈ b, c ∈ cs := by
  obtain ⟨a, ha, hcs⟩ := TrimLeft_decomp s.reverse cs
  refine ⟨a.reverse, ?_, fun c hc => hcs c (List.mem_reverse.mp hc)⟩
  have := congrArg List.reverse ha
  simpa [TrimRight] using this

theorem TrimRight_getLast (s cs : GoString) (c : Char)
    (h : (TrimRight s cs).getLast? = some c) : c ∉ cs := by
  apply TrimLeft_head s.reverse cs c
  simpa [TrimRight] using h

theorem TrimRight_eq_self (s cs : GoString) (h : ∀ c, s.getLast? = some c → c ∉ cs) :
    TrimRight s cs = s := by
  unfold TrimRight
  rw [TrimLeft_eq_self s.reverse cs (by simpa using h)]
  exact List.reverse_reverse s

theorem TrimRight_eq_nil_iff (s cs : GoString) : TrimRight s cs = [] ↔ ∀ c ∈ s, c ∈ cs := by
  simp [TrimRight, TrimLeft_eq_nil_iff]

theorem TrimRight_head (s cs : GoString) (c : Char)
    (hs : ∀ d, s.head? = some d → d ∉ cs) (h : (TrimRight s cs).head? = some c) : c ∉ cs := by
  obtain ⟨b, hb, _⟩ := TrimRight_decomp s cs
  cases ht : TrimRight s cs with
  | nil => rw [ht] at h; simp at h
  | cons d t =>
    rw [ht] at h hb
    simp only [List.head?_cons, Option.some.injEq] at h
    subst h
    exact hs d (by rw [hb]; rfl)

theorem Trim_head (s cs : GoString) (c : Char) (h : (Trim s cs).head? = some c) : c ∉ cs :=
  TrimRight_head _ cs c (TrimLeft_head s cs) h

theorem Trim_getLast (s cs : GoString) (c : Char) (h : (Trim s cs).getLast? = some c) :
    c ∉ cs :=
  TrimRight_getLast _ cs c h

theorem Trim_eq_self (s cs : GoString) (hh : ∀ c, s.head? = some c → c ∉ cs)
    (hl : ∀ c, s.getLast? = some c → c ∉ cs) : Trim s cs = s := by
  unfold Trim
  rw [TrimLeft_eq_self s cs hh, TrimRight_eq_self s cs hl]

theorem Trim_decomp (s cs : GoString) :
    ∃ a b, s = a ++ Trim s cs ++ b ∧ (∀ c ∈ a, c ∈ cs) ∧ ∀ c ∈ b, c ∈ cs := by
  obtain ⟨a, ha, hac⟩ := TrimLeft_decomp s cs
  obtain ⟨b, hb, hbc⟩ := TrimRight_decomp (TrimLeft s cs) cs
  refine ⟨a, b, ?_, hac, hbc⟩
  unfold Trim
  rw [List.append_assoc, ← hb, ← ha]

theorem Trim_eq_nil_iff (s cs : GoString) : Trim s cs = [] ↔ ∀ c ∈ s, c ∈ cs := by
  unfold Trim
  rw [TrimRight_eq_nil_iff]
  constructor
  · intro h
    obtain ⟨a, ha, hac⟩ := TrimLeft_decomp s cs
    intro c hc
    rw [ha] at hc
    rcases List.mem_append.mp hc with hc | hc
    · exact hac c hc
    · exact h c hc
  · intro h c hc
    obtain ⟨a, ha, _⟩ := TrimLeft_decomp s cs
    exact h c (by rw [ha]; exact List.mem_append_right _ hc)

theorem Trim_not_mem (s cs : GoString) (h : ∀ c ∈ cs, c ∉ s) : Trim s cs = s := by
  apply Trim_eq_self
  · intro c hc hcs
    cases s with
    | nil => simp at hc
    | cons d s =>
      simp only [List.head?_cons, Option.some.injEq] at hc
      exact h c hcs (hc ▸ List.mem_cons_self _ _)
  · intro c hc hcs
    exact h c hcs (List.mem_of_getLast?_eq_some hc)

theorem noText_iff (s : GoString) : noText s = true ↔ ∀ c ∈ s, c = ' ' ∨ c = '\n' := by
  simp [noText, Trim_eq_nil_iff]

/-! ## `GetCleanText`: the claim -/

/-- C20, as amended.  For every word text the result of `GetCleanText` neither
begins nor ends with a newline; when the result neither begins nor ends with a
space either, as for every text without a newline, applying `GetCleanText` to
the result returns it unchanged; and when the result is empty, `noText` holds
of the original text, the converse holding for a text without a newline. -/
theorem GetCleanText_clean_of_newlines (w : OcrWord) :
    (w.GetCleanText.head? ≠ some '\n' ∧ w.GetCleanText.getLast? ≠ some '\n')
    ∧ (w.GetCleanText.head? ≠ some ' ' → w.GetCleanText.getLast? ≠ some ' ' →
        OcrWord.GetCleanText { w with Text := w.GetCleanText } = w.GetCleanText)
    ∧ ('\n' ∉ w.Text →
        w.GetCleanText.head? ≠ some ' ' ∧ w.GetCleanText.getLast? ≠ some ' '
        ∧ OcrWord.GetCleanText { w with Text := w.GetCleanText } = w.GetCleanText)
    ∧ (w.GetCleanText = [] → noText w.Text = true)
    ∧ ('\n' ∉ w.Text → noText w.Text = true → w.GetCleanText = []) := by
  have hnl : w.GetCleanText.head? ≠ some '\n' ∧ w.GetCleanText.getLast? ≠ some '\n' :=
    ⟨fun h => Trim_head _ _ _ h (by simp), fun h => Trim_getLast _ _ _ h (by simp)⟩
  have hfix : w.GetCleanText.head? ≠ some ' ' → w.GetCleanText.getLast? ≠ some ' ' →
      OcrWord.GetCleanText { w with Text := w.GetCleanText } = w.GetCleanText := by
    intro h1 h2
    show Trim (Trim w.GetCleanText [' ']) ['\n'] = w.GetCleanText
    rw [Trim_eq_self w.GetCleanText [' '] (by
        intro c hc hm
        simp only [List.mem_singleton] at hm
        exact h1 (hm ▸ hc)) (by
        intro c hc hm
        simp only [List.mem_singleton] at hm
        exact h2 (hm ▸ hc))]
    exact Trim_eq_self _ _ (by
        intro c hc hm
        simp only [List.mem_singleton] at hm
        exact hnl.1 (hm ▸ hc)) (by
        intro c hc hm
        simp only [List.mem_singleton] at hm
        exact hnl.2 (hm ▸ hc))
  have hsp : '\n' ∉ w.Text → w.GetCleanText = Trim w.Text [' '] := by
    intro h
    apply Trim_not_mem
    intro c hc hm
    simp only [List.mem_singleton] at hc
    subst hc
    obtain ⟨a, b, hab, _, _⟩ := Trim_decomp w.Text [' ']
    exact h (by rw [hab]; simp [hm])
  refine ⟨hnl, hfix, ?_, ?_, ?_⟩
  · intro h
    have h1 : w.GetCleanText.head? ≠ some ' ' := by
      rw [hsp h]
      exact fun hc => Trim_head _ _ _ hc (by simp)
    have h2 : w.GetCleanText.getLast? ≠ some ' ' := by
      rw [hsp h]
      exact fun hc => Trim_getLast _ _ _ hc (by simp)
    exact ⟨h1, h2, hfix h1 h2⟩
  · intro h
    rw [noText_iff]
    have h' : ∀ c ∈ Trim w.Text [' '], c ∈ ['\n'] := (Trim_eq_nil_iff _ _).mp h
    obtain ⟨a, b, hab, ha, hb⟩ := Trim_decomp w.Text [' ']
    intro c hc
    rw [hab] at hc
    simp only [List.mem_append] at hc
    rcases hc with (hc | hc) | hc
    · exact Or.inl (by simpa using ha c hc)
    · exact Or.inr (by simpa using h' c hc)
    · exact Or.inl (by simpa using hb c hc)
  · intro hn ht
    rw [hsp hn, Trim_eq_nil_iff]
    intro c hc
    rcases (noText_iff _).mp ht c hc with rfl | rfl
    · simp
    · exact absurd hc hn

/-- Witness for C20 as amended: the text `"  ab c "`, without a newline. -/
theorem GetCleanText_clean_of_newlines_witness :
    '\n' ∉ (exampleWord [] "  ab c ".toList).Text
    ∧ ((exampleWord [] "  ab c ".toList).GetCleanText.head? ≠ some ' '
      ∧ (exampleWord [] "  ab c ".toList).GetCleanText.getLast? ≠ some ' '
      ∧ OcrWord.GetCleanText
          { exampleWord [] "  ab c ".toList with
            Text := (exampleWord [] "  ab c ".toList).GetCleanText }
        = (exampleWord [] "  ab c ".toList).GetCleanText)
    ∧ (exampleWord [] "  ab c ".toList).GetCleanText = "ab c".toList :=
  ⟨by decide,
    (GetCleanText_clean_of_newlines (exampleWord [] "  ab c ".toList)).2.2.1 (by decide),
    by decide⟩

/-- Counterexample for C20 as stated: for the text `"\n a"` the result `" a"`
begins with a space and a second application gives `"a"`; for the text
`"\n \n"`, of which `noText` holds, the result is `" "` and not empty. -/
theorem GetCleanText_not_idempotent :
    (exampleWord [] "\n a".toList).GetCleanText = " a".toList
    ∧ (exampleWord [] " a".toList).GetCleanText = "a".toList
    ∧ OcrWord.GetCleanText
        { exampleWord [] "\n a".toList with Text := (exampleWord [] "\n a".toList).GetCleanText }
      ≠ (exampleWord [] "\n a".toList).GetCleanText
    ∧ noText "\n \n".toList = true
    ∧ (exampleWord [] "\n \n".toList).GetCleanText = " ".toList := by
  decide

/-! ## Lemmas on paths and files -/

theorem lookup_store (r : GoMap) (k v k' : GoString) :
    (r.store k v).lookup k' = if k = k' then some v else r.lookup k' := by
  induction r with
  | nil => simp [GoMap.store, GoMap.lookup]
  | cons e r ih =>
    obtain ⟨k₀, v₀⟩ := e
    by_cases h₀ : k₀ = k
    · subst h₀
      by_cases h₁ : k₀ = k' <;> simp [GoMap.store, GoMap.lookup, h₁]
    · by_cases h₁ : k₀ = k'
      · subst h₁
        simp [GoMap.store, GoMap.lookup, h₀, Ne.symm h₀]
      · simp only [GoMap.store, h₀, if_false, GoMap.lookup, h₁, ih]

theorem Join_plain (dir name : GoString) (hd : PlainElem dir) (hn : PlainElem name) :
    Join [dir, name] = dir ++ '/' :: name := by
  obtain ⟨d1, d2, d3, d4⟩ := hd
  obtain ⟨n1, n2, n3, n4⟩ := hn
  have hsplit : Split (dir ++ '/' :: name) '/' = [dir, name] := by
    rw [Split_append_sep _ _ _ d2, Split_of_not_mem _ _ n2]
  have hhead : (dir ++ '/' :: name).head? ≠ some '/' := by
    cases dir with
    | nil => exact absurd rfl d1
    | cons c cs =>
      simp only [List.cons_append, List.head?_cons, ne_eq, Option.some.injEq]
      rintro rfl
      exact d2 (List.mem_cons_self _ _)
  have hne : dir ++ '/' :: name ≠ [] := by simp
  simp only [Join, List.dropWhile, d1, decide_False, List.intercalate, List.intersperse,
    List.flatten, List.append_nil, List.singleton_append]
  simp only [Clean, hsplit, hhead, decide_False, List.foldl, cleanPush, d1, d3, d4, n1, n3, n4,
    or_self, if_false, List.reverse_cons, List.reverse_nil, List.nil_append, List.cons_append,
    List.intercalate, List.intersperse, List.flatten, List.append_nil, Bool.false_eq_true,
    List.singleton_append, hne]

theorem name_plain (ocrName name : GoString) (ho : '/' ∉ ocrName) (hn : '/' ∉ name) :
    PlainElem (ocrName ++ "_".toList ++ name) := by
  refine ⟨by simp, ?_, ?_, ?_⟩
  · simp only [List.mem_append, not_or]
    exact ⟨⟨ho, by decide⟩, hn⟩
  · intro h
    have : '_' ∈ ".".toList := by rw [← h]; simp
    exact absurd this (by decide)
  · intro h
    have : '_' ∈ "..".toList := by rw [← h]; simp
    exact absurd this (by decide)

theorem saveline_ok (io : Faults) (l : Detail) (dir : GoString) (fs : FileSystem)
    (img : CopyableImg) (base : GoString)
    (hbase : base = Join [dir, l.OcrName ++ "_".toList ++ l.Name])
    (himg : l.Img = some img) (hmk : io.MkdirAll dir = none)
    (hc1 : io.Create (base ++ ".png".toList) = none)
    (hw1 : io.CopyLineTo (base ++ ".png".toList) = none)
    (hc2 : io.Create (base ++ ".txt".toList) = none)
    (hw2 : io.WriteString (base ++ ".txt".toList) = none) :
    saveline io l dir fs
      = Run.done ((((({ fs with dirs := fs.dirs ++ [dir] } : FileSystem).create
            (base ++ ".png".toList)).write (base ++ ".png".toList) img.png).create
            (base ++ ".txt".toList)).write (base ++ ".txt".toList) l.Text, none) := by
  subst hbase
  simp only [saveline, hmk, hc1, himg, hw1, hc2, hw2]

theorem png_ne_txt (base : GoString) : base ++ ".png".toList ≠ base ++ ".txt".toList := by
  intro h
  have := List.append_cancel_left h
  exact absurd this (by decide)

theorem saveLines_skip (io : Faults) (dir : GoString) (a b : List Detail) (l : Detail)
    (fs : FileSystem) (h : l.Img = none) :
    saveLines io dir (a ++ l :: b) fs = saveLines io dir (a ++ b) fs := by
  induction a generalizing fs with
  | nil => simp [saveLines, h]
  | cons x a ih =>
    simp only [List.cons_append, saveLines]
    split
    · exact ih fs
    · congr 1
      funext r
      obtain ⟨fs', e⟩ := r
      cases e with
      | some err => rfl
      | none => exact ih fs'

theorem saveLines_filter (io : Faults) (dir : GoString) (ls : List Detail) (fs : FileSystem) :
    saveLines io dir ls fs = saveLines io dir (ls.filter fun l => l.Img.isSome) fs := by
  induction ls generalizing fs with
  | nil => rfl
  | cons l ls ih =>
    cases himg : l.Img with
    | none => simp [saveLines, himg, ih]
    | some img =>
      simp only [saveLines, himg, Option.isNone_some, Bool.false_eq_true, if_false,
        List.filter_cons, Option.isSome_some, if_true]
      congr 1
      funext r
      obtain ⟨fs', e⟩ := r
      cases e with
      | some err => rfl
      | none => exact ih fs'

theorem saveLines_noFaults (dir : GoString) (ls : List Detail) (fs : FileSystem) :
    saveLines noFaults dir ls fs
      = Run.done (savedAll dir (ls.filter fun l => l.Img.isSome) fs, none) := by
  induction ls generalizing fs with
  | nil => rfl
  | cons l ls ih =>
    cases himg : l.Img with
    | none => simp [saveLines, himg, ih]
    | some img =>
      simp only [saveLines, himg, Option.isNone_some, Bool.false_eq_true, if_false,
        List.filter_cons, Option.isSome_some, if_true, savedAll]
      rw [saveline_ok noFaults l dir fs img _ rfl himg rfl rfl rfl rfl rfl]
      simp only [Run.bind, ih, himg, Option.map_some', Option.getD_some]

/-! ## `saveline` and the export loop: the claims -/

/-- C14.  For a line with an image, when no operation of the operating system
fails, `saveline` returns no error and writes exactly two files,
`base.png` and `base.txt` with the same
`base = filepath.Join(dir, OcrName + "_" + Name)`: after it the `.png` file holds
what the image writes, the `.txt` file holds the text of the line verbatim, and
every other file is as before.  When `dir` is one plain path element and
neither name contains `/`, `base` is `dir/OcrName_Name`. -/
theorem saveline_writes_two_files (io : Faults) (l : Detail) (dir : GoString)
    (fs : FileSystem) (img : CopyableImg) (base : GoString)
    (hbase : base = Join [dir, l.OcrName ++ "_".toList ++ l.Name])
    (himg : l.Img = some img) (hmk : io.MkdirAll dir = none)
    (hc1 : io.Create (base ++ ".png".toList) = none)
    (hw1 : io.CopyLineTo (base ++ ".png".toList) = none)
    (hc2 : io.Create (base ++ ".txt".toList) = none)
    (hw2 : io.WriteString (base ++ ".txt".toList) = none) :
    ∃ fs', saveline io l dir fs = Run.done (fs', none)
      ∧ fs'.files.lookup (base ++ ".png".toList) = some img.png
      ∧ fs'.files.lookup (base ++ ".txt".toList) = some l.Text
      ∧ (∀ p, p ≠ base ++ ".png".toList → p ≠ base ++ ".txt".toList →
          fs'.files.lookup p = fs.files.lookup p)
      ∧ (PlainElem dir → '/' ∉ l.OcrName → '/' ∉ l.Name →
          base = dir ++ "/".toList ++ l.OcrName ++ "_".toList ++ l.Name) := by
  refine ⟨_, saveline_ok io l dir fs img base hbase himg hmk hc1 hw1 hc2 hw2, ?_, ?_, ?_, ?_⟩
  · simp [FileSystem.write, FileSystem.create, lookup_store, png_ne_txt,
      (png_ne_txt base).symm]
  · simp [FileSystem.write, FileSystem.create, lookup_store]
  · intro p h1 h2
    simp only [FileSystem.write, FileSystem.create, lookup_store, Ne.symm h1, Ne.symm h2,
      if_false]
  · intro hd ho hn
    rw [hbase, Join_plain dir _ hd (name_plain _ _ ho hn)]
    simp

/-- Witness for C14: the example of the specification, directory `out`, groups
`a` and `b`, lines `a1` and `b1`; saved one after the other into an empty
directory, the two lines leave the four files `out/a_a1.png`, `out/a_a1.txt`,
`out/b_b1.png`, `out/b_b1.txt`, each `.txt` with the text of its line. -/
theorem saveline_writes_two_files_witness :
    "out/a_a1".toList = Join ["out".toList, exampleDetailA.OcrName ++ "_".toList ++ exampleDetailA.Name]
    ∧ (∃ fs', saveline noFaults exampleDetailA "out".toList ⟨[], []⟩ = Run.done (fs', none)
      ∧ fs'.files.lookup ("out/a_a1".toList ++ ".png".toList) = some "PNG-a1".toList
      ∧ fs'.files.lookup ("out/a_a1".toList ++ ".txt".toList) = some exampleDetailA.Text
      ∧ (∀ p, p ≠ "out/a_a1".toList ++ ".png".toList → p ≠ "out/a_a1".toList ++ ".txt".toList →
          fs'.files.lookup p = GoMap.lookup [] p)
      ∧ (PlainElem "out".toList → '/' ∉ exampleDetailA.OcrName → '/' ∉ exampleDetailA.Name →
          "out/a_a1".toList = "out".toList ++ "/".toList ++ exampleDetailA.OcrName
            ++ "_".toList ++ exampleDetailA.Name))
    ∧ (∃ fs', saveLines noFaults "out".toList [exampleDetailA, exampleDetailB] ⟨[], []⟩
          = Run.done (fs', none)
      ∧ fs'.files
        = [("out/a_a1.png".toList, "PNG-a1".toList), ("out/a_a1.txt".toList, " first line \n".toList),
           ("out/b_b1.png".toList, "PNG-b1".toList), ("out/b_b1.txt".toList, "second".toList)]) :=
  ⟨by decide,
    saveline_writes_two_files noFaults exampleDetailA "out".toList ⟨[], []⟩
      { png := "PNG-a1".toList } "out/a_a1".toList (by decide) rfl rfl rfl rfl rfl rfl,
    ⟨_, saveLines_noFaults _ _ _, by decide⟩⟩

/-- C16.  In the export loop a line without image is passed over: the loop
over a sequence with such a line does what it does over the sequence without
it, whatever fails, so the lines before and after it are saved as they would be
alone, in order, and the line gives no file and no error; the loop does the
same as over the lines that carry an image, and when no operation fails it
returns no error after saving each of these lines in order. -/
theorem saveLines_skips_lines_without_image (io : Faults) (dir : GoString)
    (ls : List Detail) (fs : FileSystem) :
    (∀ (a b : List Detail) (l : Detail), ls = a ++ l :: b → l.Img = none →
      saveLines io dir ls fs = saveLines io dir (a ++ b) fs)
    ∧ saveLines io dir ls fs = saveLines io dir (ls.filter fun l => l.Img.isSome) fs
    ∧ saveLines noFaults dir ls fs
        = Run.done (savedAll dir (ls.filter fun l => l.Img.isSome) fs, none) :=
  ⟨fun a b l hls h => hls ▸ saveLines_skip io dir a b l fs h, saveLines_filter io dir ls fs,
    saveLines_noFaults dir ls fs⟩

/-- Witness for C16: a line without image between the lines `a1` and `b1`;
the files written are those of `a1` and `b1`. -/
theorem saveLines_skips_lines_without_image_witness :
    exampleDetailNoImg.Img = none
    ∧ saveLines noFaults "out".toList [exampleDetailA, exampleDetailNoImg, exampleDetailB] ⟨[], []⟩
        = saveLines noFaults "out".toList ([exampleDetailA] ++ [exampleDetailB]) ⟨[], []⟩
    ∧ (∃ fs', saveLines noFaults "out".toList
          [exampleDetailA, exampleDetailNoImg, exampleDetailB] ⟨[], []⟩ = Run.done (fs', none)
      ∧ fs'.files.keys = ["out/a_a1.png".toList, "out/a_a1.txt".toList,
          "out/b_b1.png".toList, "out/b_b1.txt".toList]) :=
  ⟨rfl,
    (saveLines_skips_lines_without_image noFaults "out".toList
      [exampleDetailA, exampleDetailNoImg, exampleDetailB] ⟨[], []⟩).1
      [exampleDetailA] [exampleDetailB] exampleDetailNoImg rfl rfl,
    ⟨_, saveLines_noFaults _ _ _, by decide⟩⟩

/-! ## Lemmas on `roundFloat64` -/

theorem bitLenAux_zero (fuel : Nat) : bitLenAux fuel 0 = 0 := by
  cases fuel <;> simp [bitLenAux]

theorem bitLenAux_spec (fuel n : Nat) (h : n ≤ fuel) (hn : n ≠ 0) :
    2 ^ (bitLenAux fuel n - 1) ≤ n ∧ n < 2 ^ bitLenAux fuel n ∧ 1 ≤ bitLenAux fuel n := by
  induction fuel generalizing n with
  | zero => omega
  | succ fuel ih =>
    simp only [bitLenAux, hn, if_false]
    by_cases h2 : n / 2 = 0
    · have h1 : n = 1 := by omega
      subst h1
      simp [bitLenAux_zero]
    · obtain ⟨l, u, p⟩ := ih (n / 2) (by omega) h2
      have e1 : 2 ^ bitLenAux fuel (n / 2) = 2 * 2 ^ (bitLenAux fuel (n / 2) - 1) := by
        rw [← pow_succ']
        congr 1
        omega
      have e2 : 2 ^ (bitLenAux fuel (n / 2) + 1) = 2 * 2 ^ bitLenAux fuel (n / 2) := pow_succ' _ _
      refine ⟨?_, ?_, by omega⟩
      · rw [Nat.add_sub_cancel]
        omega
      · omega

theorem bitLen_spec (n : Nat) (hn : n ≠ 0) :
    2 ^ (bitLen n - 1) ≤ n ∧ n < 2 ^ bitLen n ∧ 1 ≤ bitLen n :=
  bitLenAux_spec n n (le_refl n) hn

theorem zpow_two_eq (y : ℤ) : (2 : ℚ) ^ y = 2 ^ y.toNat / 2 ^ (-y).toNat := by
  rcases le_total 0 y with h | h
  · have h1 : (-y).toNat = 0 := Int.toNat_eq_zero.mpr (by omega)
    have h2 : ((y.toNat : ℕ) : ℤ) = y := Int.toNat_of_nonneg h
    rw [h1, pow_zero, div_one, ← zpow_natCast, h2]
  · have h1 : y.toNat = 0 := Int.toNat_eq_zero.mpr h
    have h2 : (((-y).toNat : ℕ) : ℤ) = -y := Int.toNat_of_nonneg (by omega)
    rw [h1, pow_zero, one_div, ← zpow_natCast, h2, zpow_neg, inv_inv]

theorem scaled_le_iff (n d : Nat) (hd : 0 < d) (y : ℤ) :
    scaledDen d y ≤ scaledNum n y ↔ (2 : ℚ) ^ y ≤ (n : ℚ) / d := by
  have hd' : (0 : ℚ) < d := by exact_mod_cast hd
  have hp : (0 : ℚ) < 2 ^ (-y).toNat := by positivity
  rw [zpow_two_eq, div_le_div_iff₀ hp hd']
  unfold scaledDen scaledNum
  constructor
  · intro h
    have : ((d * 2 ^ y.toNat : ℕ) : ℚ) ≤ ((n * 2 ^ (-y).toNat : ℕ) : ℚ) := by exact_mod_cast h
    push_cast at this
    linarith
  · intro h
    have : ((d * 2 ^ y.toNat : ℕ) : ℚ) ≤ ((n * 2 ^ (-y).toNat : ℕ) : ℚ) := by
      push_cast
      linarith
    exact_mod_cast this

theorem scaled_eq_iff (n d m : Nat) (hd : 0 < d) (y : ℤ) :
    scaledNum n y = m * scaledDen d y ↔ (n : ℚ) / d = m * 2 ^ y := by
  have hd' : (0 : ℚ) < d := by exact_mod_cast hd
  have hp : (0 : ℚ) < 2 ^ (-y).toNat := by positivity
  rw [zpow_two_eq, ← mul_div_assoc, div_eq_div_iff hd'.ne' hp.ne']
  unfold scaledDen scaledNum
  constructor
  · intro h
    have : ((n * 2 ^ (-y).toNat : ℕ) : ℚ) = ((m * (d * 2 ^ y.toNat) : ℕ) : ℚ) := by
      exact_mod_cast h
    push_cast at this
    linarith
  · intro h
    have : ((n * 2 ^ (-y).toNat : ℕ) : ℚ) = ((m * (d * 2 ^ y.toNat) : ℕ) : ℚ) := by
      push_cast
      linarith
    exact_mod_cast this

theorem ratio_bitLen_bounds (n d : Nat) (hn : n ≠ 0) (hd : d ≠ 0) :
    (2 : ℚ) ^ ((bitLen n : ℤ) - (bitLen d : ℤ) - 1) < (n : ℚ) / d
    ∧ (n : ℚ) / d < 2 ^ ((bitLen n : ℤ) - (bitLen d : ℤ) + 1) := by
  obtain ⟨nl, nu, n1⟩ := bitLen_spec n hn
  obtain ⟨dl, du, d1⟩ := bitLen_spec d hd
  have hd' : (0 : ℚ) < d := by exact_mod_cast Nat.pos_of_ne_zero hd
  have hn' : (0 : ℚ) < n := by exact_mod_cast Nat.pos_of_ne_zero hn
  have nl' : (2 : ℚ) ^ ((bitLen n : ℤ) - 1) ≤ n := by
    have : ((2 ^ (bitLen n - 1) : ℕ) : ℚ) ≤ n := by exact_mod_cast nl
    rw [show ((bitLen n : ℤ) - 1) = ((bitLen n - 1 : ℕ) : ℤ) by omega, zpow_natCast]
    exact_mod_cast this
  have nu' : (n : ℚ) < 2 ^ (bitLen n : ℤ) := by
    rw [zpow_natCast]
    exact_mod_cast nu
  have dl' : (2 : ℚ) ^ ((bitLen d : ℤ) - 1) ≤ d := by
    have : ((2 ^ (bitLen d - 1) : ℕ) : ℚ) ≤ d := by exact_mod_cast dl
    rw [show ((bitLen d : ℤ) - 1) = ((bitLen d - 1 : ℕ) : ℤ) by omega, zpow_natCast]
    exact_mod_cast this
  have du' : (d : ℚ) < 2 ^ (bitLen d : ℤ) := by
    rw [zpow_natCast]
    exact_mod_cast du
  have two : (2 : ℚ) ≠ 0 := by norm_num
  constructor
  · rw [lt_div_iff₀ hd']
    calc (2 : ℚ) ^ ((bitLen n : ℤ) - (bitLen d : ℤ) - 1) * d
        < 2 ^ ((bitLen n : ℤ) - (bitLen d : ℤ) - 1) * 2 ^ (bitLen d : ℤ) := by
          apply mul_lt_mul_of_pos_left du'
          positivity
      _ = 2 ^ ((bitLen n : ℤ) - 1) := by
          rw [← zpow_add₀ two]
          congr 1
          ring
      _ ≤ n := nl'
  · rw [div_lt_iff₀ hd']
    calc (n : ℚ) < 2 ^ (bitLen n : ℤ) := nu'
      _ = 2 ^ ((bitLen n : ℤ) - (bitLen d : ℤ) + 1) * 2 ^ ((bitLen d : ℤ) - 1) := by
          rw [← zpow_add₀ two]
          congr 1
          ring
      _ ≤ 2 ^ ((bitLen n : ℤ) - (bitLen d : ℤ) + 1) * d := by
          apply mul_le_mul_of_nonneg_left dl'
          positivity

theorem binExp_spec (n d : Nat) (hn : n ≠ 0) (hd : d ≠ 0) :
    (2 : ℚ) ^ binExp n d ≤ (n : ℚ) / d ∧ (n : ℚ) / d < 2 ^ (binExp n d + 1) := by
  obtain ⟨lo, hi⟩ := ratio_bitLen_bounds n d hn hd
  unfold binExp
  by_cases h : scaledDen d ((bitLen n : ℤ) - (bitLen d : ℤ))
      ≤ scaledNum n ((bitLen n : ℤ) - (bitLen d : ℤ))
  · rw [if_pos h]
    exact ⟨(scaled_le_iff n d (Nat.pos_of_ne_zero hd) _).mp h, hi⟩
  · rw [if_neg h]
    rw [scaled_le_iff n d (Nat.pos_of_ne_zero hd), not_le] at h
    refine ⟨lo.le, ?_⟩
    rwa [sub_add_cancel]

theorem binExp_unique (n d : Nat) (hn : n ≠ 0) (hd : d ≠ 0) (e : ℤ)
    (lo : (2 : ℚ) ^ e ≤ (n : ℚ) / d) (hi : (n : ℚ) / d < 2 ^ (e + 1)) : binExp n d = e := by
  obtain ⟨lo', hi'⟩ := binExp_spec n d hn hd
  have h1 : (2 : ℚ) ^ e < 2 ^ (binExp n d + 1) := lt_of_le_of_lt lo hi'
  have h2 : (2 : ℚ) ^ binExp n d < 2 ^ (e + 1) := lt_of_le_of_lt lo' hi
  rw [zpow_lt_zpow_iff_right₀ (by norm_num : (1 : ℚ) < 2)] at h1 h2
  omega

theorem roundFloat64_eq (n d : Nat) (hn : n ≠ 0) :
    roundFloat64 n d
      = if 971 < (if divRoundHalfEven (scaledNum n (max (binExp n d) (-1022) - 52))
              (scaledDen d (max (binExp n d) (-1022) - 52)) = 2 ^ 53
            then max (binExp n d) (-1022) - 52 + 1 else max (binExp n d) (-1022) - 52)
        then Float64.posInf
        else Float64.finite
          (if divRoundHalfEven (scaledNum n (max (binExp n d) (-1022) - 52))
              (scaledDen d (max (binExp n d) (-1022) - 52)) = 2 ^ 53
            then 2 ^ 52
            else divRoundHalfEven (scaledNum n (max (binExp n d) (-1022) - 52))
              (scaledDen d (max (binExp n d) (-1022) - 52)))
          (if divRoundHalfEven (scaledNum n (max (binExp n d) (-1022) - 52))
              (scaledDen d (max (binExp n d) (-1022) - 52)) = 2 ^ 53
            then max (binExp n d) (-1022) - 52 + 1 else max (binExp n d) (-1022) - 52) := by
  unfold roundFloat64 binExp
  rw [if_neg hn]

theorem divRoundHalfEven_mul (q d : Nat) (hd : 0 < d) : divRoundHalfEven (q * d) d = q := by
  unfold divRoundHalfEven
  rw [Nat.mul_mod_left, Nat.mul_div_cancel _ hd]
  simp [hd]

theorem scaledDen_pos (d : Nat) (hd : 0 < d) (y : ℤ) : 0 < scaledDen d y := by
  unfold scaledDen
  positivity

/-- A fraction that is equal to a normal `float64` rounds to it. -/
theorem roundFloat64_exact (n d m : Nat) (x : ℤ) (hd : 0 < d)
    (hm : 2 ^ 52 ≤ m ∧ m < 2 ^ 53) (hx : -1074 ≤ x ∧ x ≤ 971)
    (h : (n : ℚ) / d = m * 2 ^ x) : roundFloat64 n d = Float64.finite m x := by
  have hd' : (0 : ℚ) < d := by exact_mod_cast hd
  have hm1 : ((2 : ℚ) ^ (52 : ℤ)) ≤ m := by
    have : ((2 ^ 52 : ℕ) : ℚ) ≤ m := by exact_mod_cast hm.1
    norm_num at this ⊢
    exact this
  have hm2 : (m : ℚ) < (2 : ℚ) ^ (53 : ℤ) := by
    have : (m : ℚ) < ((2 ^ 53 : ℕ) : ℚ) := by exact_mod_cast hm.2
    norm_num at this ⊢
    exact this
  have two : (2 : ℚ) ≠ 0 := by norm_num
  have hpos : (0 : ℚ) < 2 ^ x := by positivity
  have hn : n ≠ 0 := by
    rintro rfl
    have hm0 : (0 : ℚ) < m := lt_of_lt_of_le (by positivity) hm1
    have : (0 : ℚ) < m * 2 ^ x := by positivity
    rw [← h] at this
    simp at this
  have he : binExp n d = 52 + x := by
    apply binExp_unique n d hn hd.ne'
    · rw [h, zpow_add₀ two]
      exact mul_le_mul_of_nonneg_right hm1 hpos.le
    · rw [h, show 52 + x + 1 = 53 + x by ring, zpow_add₀ two]
      exact mul_lt_mul_of_pos_right hm2 hpos
  have hX : max (binExp n d) (-1022) - 52 = x := by
    rw [he]
    omega
  have hmant : divRoundHalfEven (scaledNum n x) (scaledDen d x) = m := by
    rw [(scaled_eq_iff n d m hd x).mpr h]
    exact divRoundHalfEven_mul m _ (scaledDen_pos d hd x)
  rw [roundFloat64_eq n d hn, hX, hmant]
  have hne : m ≠ 2 ^ 53 := by omega
  simp only [hne, if_false]
  rw [if_neg (by omega)]

theorem divRoundHalfEven_scale (a b c : Nat) (hc : 0 < c) :
    divRoundHalfEven (a * c) (b * c) = divRoundHalfEven a b := by
  unfold divRoundHalfEven
  rw [Nat.mul_div_mul_right _ _ hc, Nat.mul_mod_mul_right]
  have e1 : 2 * (a % b * c) < b * c ↔ 2 * (a % b) < b := by
    rw [← Nat.mul_assoc]
    exact Nat.mul_lt_mul_right hc
  have e2 : b * c < 2 * (a % b * c) ↔ b < 2 * (a % b) := by
    rw [← Nat.mul_assoc]
    exact Nat.mul_lt_mul_right hc
  simp only [e1, e2]

theorem roundFloat64_scale (n d c : Nat) (hd : 0 < d) (hc : 0 < c) :
    roundFloat64 (n * c) (d * c) = roundFloat64 n d := by
  by_cases hn : n = 0
  · subst hn
    simp [roundFloat64]
  have hnc : n * c ≠ 0 := Nat.mul_ne_zero hn hc.ne'
  have hc' : (c : ℚ) ≠ 0 := by exact_mod_cast hc.ne'
  have hratio : ((n * c : ℕ) : ℚ) / ((d * c : ℕ) : ℚ) = (n : ℚ) / d := by
    push_cast
    rw [mul_div_mul_right _ _ hc']
  have he : binExp (n * c) (d * c) = binExp n d := by
    obtain ⟨lo, hi⟩ := binExp_spec n d hn hd.ne'
    apply binExp_unique _ _ hnc (Nat.mul_ne_zero hd.ne' hc.ne')
    · rw [hratio]; exact lo
    · rw [hratio]; exact hi
  have hs : ∀ y : ℤ, divRoundHalfEven (scaledNum (n * c) y) (scaledDen (d * c) y)
      = divRoundHalfEven (scaledNum n y) (scaledDen d y) := by
    intro y
    have e1 : scaledNum (n * c) y = scaledNum n y * c := by
      unfold scaledNum
      ring
    have e2 : scaledDen (d * c) y = scaledDen d y * c := by
      unfold scaledDen
      ring
    rw [e1, e2, divRoundHalfEven_scale _ _ _ hc]
  rw [roundFloat64_eq _ _ hnc, roundFloat64_eq _ _ hn, he, hs]

/-- The result of `roundFloat64` depends on the value of the fraction only. -/
theorem roundFloat64_congr (n d n' d' : Nat) (hd : 0 < d) (hd' : 0 < d')
    (h : (n : ℚ) / d = (n' : ℚ) / d') : roundFloat64 n d = roundFloat64 n' d' := by
  have hdq : (d : ℚ) ≠ 0 := by exact_mod_cast hd.ne'
  have hdq' : (d' : ℚ) ≠ 0 := by exact_mod_cast hd'.ne'
  have hcross : n * d' = n' * d := by
    rw [div_eq_div_iff hdq hdq'] at h
    exact_mod_cast h
  rw [← roundFloat64_scale n d d' hd hd', ← roundFloat64_scale n' d' d hd' hd, hcross,
    Nat.mul_comm d d']

theorem exists_normal_of_nat (n : Nat) (h0 : 0 < n) (h : n ≤ 2 ^ 53) :
    ∃ (m : Nat) (x : ℤ), (2 ^ 52 ≤ m ∧ m < 2 ^ 53) ∧ (-1074 ≤ x ∧ x ≤ 971)
      ∧ (n : ℚ) = m * 2 ^ x := by
  rcases Nat.lt_or_ge n (2 ^ 53) with hlt | hge
  · obtain ⟨lo, hi, h1⟩ := bitLen_spec n h0.ne'
    have hb : bitLen n ≤ 53 := by
      by_contra hc
      have : 2 ^ 53 ≤ 2 ^ (bitLen n - 1) := Nat.pow_le_pow_right (by norm_num) (by omega)
      omega
    refine ⟨n * 2 ^ (53 - bitLen n), (bitLen n : ℤ) - 53, ⟨?_, ?_⟩, ⟨by omega, by omega⟩, ?_⟩
    · calc 2 ^ 52 = 2 ^ (bitLen n - 1) * 2 ^ (53 - bitLen n) := by
            rw [← pow_add]
            congr 1
            omega
        _ ≤ n * 2 ^ (53 - bitLen n) := Nat.mul_le_mul_right _ lo
    · calc n * 2 ^ (53 - bitLen n) < 2 ^ bitLen n * 2 ^ (53 - bitLen n) :=
            Nat.mul_lt_mul_of_pos_right hi (by positivity)
        _ = 2 ^ 53 := by
            rw [← pow_add]
            congr 1
            omega
    · push_cast
      rw [mul_assoc, ← zpow_natCast, ← zpow_add₀ (by norm_num : (2 : ℚ) ≠ 0)]
      rw [show ((53 - bitLen n : ℕ) : ℤ) + ((bitLen n : ℤ) - 53) = 0 by omega]
      simp
  · have hn : n = 2 ^ 53 := le_antisymm h hge
    refine ⟨2 ^ 52, 1, ⟨le_refl _, by norm_num⟩, ⟨by norm_num, by norm_num⟩, ?_⟩
    rw [hn]
    norm_num

/-- A natural number up to `2 ^ 53` converts to a `float64` of that value. -/
theorem ofNat_spec (n : Nat) (h : n ≤ 2 ^ 53) :
    ∃ (m : Nat) (x : ℤ), Float64.ofNat n = Float64.finite m x ∧ (m : ℚ) * 2 ^ x = n
      ∧ (0 < n → 2 ^ 52 ≤ m) := by
  rcases Nat.eq_zero_or_pos n with rfl | h0
  · exact ⟨0, -1074, rfl, by simp, fun h => absurd h (by simp)⟩
  · obtain ⟨m, x, hm, hx, hv⟩ := exists_normal_of_nat n h0 h
    refine ⟨m, x, ?_, hv.symm, fun _ => hm.1⟩
    apply roundFloat64_exact n 1 m x (by norm_num) hm hx
    rw [Nat.cast_one, div_one]
    exact hv

theorem ofNat_toRat (n : Nat) (h : n ≤ 2 ^ 53) : (Float64.ofNat n).toRat = some (n : ℚ) := by
  obtain ⟨m, x, e, hv, _⟩ := ofNat_spec n h
  rw [e, Float64.toRat, hv]

theorem fadd_finite_ratio (m1 m2 : Nat) (e1 e2 : ℤ) :
    ((m1 * 2 ^ e1.toNat * 2 ^ (-e2).toNat + m2 * 2 ^ e2.toNat * 2 ^ (-e1).toNat : ℕ) : ℚ)
        / ((2 ^ (-e1).toNat * 2 ^ (-e2).toNat : ℕ) : ℚ)
      = (m1 : ℚ) * 2 ^ e1 + (m2 : ℚ) * 2 ^ e2 := by
  rw [zpow_two_eq e1, zpow_two_eq e2]
  push_cast
  field_simp

theorem fdiv_finite_ratio (m1 m2 : Nat) (e1 e2 : ℤ) (h2 : m2 ≠ 0) :
    ((m1 * 2 ^ e1.toNat * 2 ^ (-e2).toNat : ℕ) : ℚ)
        / ((2 ^ (-e1).toNat * (m2 * 2 ^ e2.toNat) : ℕ) : ℚ)
      = ((m1 : ℚ) * 2 ^ e1) / ((m2 : ℚ) * 2 ^ e2) := by
  have h2' : (m2 : ℚ) ≠ 0 := by exact_mod_cast h2
  rw [zpow_two_eq e1, zpow_two_eq e2]
  push_cast
  field_simp

/-- The sum of two finite `float64` whose exact sum is `n / d` is that fraction
rounded. -/
theorem fadd_eq_round (m1 m2 : Nat) (e1 e2 : ℤ) (n d : Nat) (hd : 0 < d)
    (h : (m1 : ℚ) * 2 ^ e1 + (m2 : ℚ) * 2 ^ e2 = (n : ℚ) / d) :
    fadd (Float64.finite m1 e1) (Float64.finite m2 e2) = roundFloat64 n d := by
  unfold fadd
  apply roundFloat64_congr _ _ _ _ (by positivity) hd
  rw [fadd_finite_ratio, h]

/-- The quotient of two finite `float64`, the second not zero, whose exact
quotient is `n / d` is that fraction rounded. -/
theorem fdiv_eq_round (m1 m2 : Nat) (e1 e2 : ℤ) (n d : Nat) (hd : 0 < d) (h2 : m2 ≠ 0)
    (h : ((m1 : ℚ) * 2 ^ e1) / ((m2 : ℚ) * 2 ^ e2) = (n : ℚ) / d) :
    fdiv (Float64.finite m1 e1) (Float64.finite m2 e2) = roundFloat64 n d := by
  simp only [fdiv, h2, if_false]
  apply roundFloat64_congr _ _ _ _ (by positivity) hd
  rw [fdiv_finite_ratio _ _ _ _ h2, h]

theorem fadd_ofNat (a b : Nat) (h : a + b ≤ 2 ^ 53) :
    fadd (Float64.ofNat a) (Float64.ofNat b) = Float64.ofNat (a + b) := by
  obtain ⟨m1, e1, h1, v1, _⟩ := ofNat_spec a (by omega)
  obtain ⟨m2, e2, h2, v2, _⟩ := ofNat_spec b (by omega)
  rw [h1, h2]
  apply fadd_eq_round _ _ _ _ (a + b) 1 (by norm_num)
  rw [v1, v2]
  push_cast
  ring

theorem fdiv_ofNat (s n : Nat) (hs : s ≤ 2 ^ 53) (hn : n ≤ 2 ^ 53) (h0 : 0 < n) :
    fdiv (Float64.ofNat s) (Float64.ofNat n) = roundFloat64 s n := by
  obtain ⟨m1, e1, h1, v1, _⟩ := ofNat_spec s hs
  obtain ⟨m2, e2, h2, v2, p2⟩ := ofNat_spec n hn
  rw [h1, h2]
  have hm2 : m2 ≠ 0 := by
    have := p2 h0
    omega
  exact fdiv_eq_round _ _ _ _ s n h0 hm2 (by rw [v1, v2])

theorem one_eq_ofNat : Float64.one = Float64.ofNat 1 := by decide

set_option maxRecDepth 8000 in
theorem fadd_ofNat_stall :
    fadd (Float64.ofNat (2 ^ 53)) (Float64.ofNat 1) = Float64.ofNat (2 ^ 53) := by
  decide

theorem countFloat_eq (n : Nat) : countFloat n = Float64.ofNat (min n (2 ^ 53)) := by
  induction n with
  | zero => rfl
  | succ k ih =>
    rw [countFloat, ih, one_eq_ofNat]
    rcases Nat.lt_or_ge k (2 ^ 53) with hk | hk
    · rw [Nat.min_eq_left hk.le, Nat.min_eq_left (by omega : k + 1 ≤ 2 ^ 53)]
      exact fadd_ofNat k 1 (by omega)
    · rw [Nat.min_eq_right hk, Nat.min_eq_right (by omega : 2 ^ 53 ≤ k + 1)]
      exact fadd_ofNat_stall

theorem countFloat_isZero (n : Nat) : (countFloat n).isZero = decide (n = 0) := by
  rcases Nat.eq_zero_or_pos n with rfl | h0
  · rfl
  · obtain ⟨m, x, e, _, p⟩ := ofNat_spec (min n (2 ^ 53)) (Nat.min_le_right _ _)
    have hpos : 0 < min n (2 ^ 53) := by
      rw [Nat.lt_min]
      exact ⟨h0, by norm_num⟩
    have hm := p hpos
    rw [countFloat_eq, e]
    have hm0 : m ≠ 0 := by omega
    simp [Float64.isZero, hm0, h0.ne']

theorem sumFloat_ofNat_aux (s : Nat) (as : List Nat) (h : s + as.sum ≤ 2 ^ 53) :
    (as.map Float64.ofNat).foldl fadd (Float64.ofNat s) = Float64.ofNat (s + as.sum) := by
  induction as generalizing s with
  | nil => simp
  | cons a as ih =>
    simp only [List.map_cons, List.foldl_cons, List.sum_cons] at h ⊢
    rw [fadd_ofNat s a (by omega), ih (s + a) (by omega)]
    congr 1
    omega

theorem sumFloat_ofNat (as : List Nat) (h : as.sum ≤ 2 ^ 53) :
    sumFloat (as.map Float64.ofNat) = Float64.ofNat as.sum := by
  have := sumFloat_ofNat_aux 0 as (by omega)
  simpa [sumFloat, Float64.ofNat, roundFloat64, Float64.zero] using this

/-! ## Lemmas on the loops of `GetAvgConf` -/

theorem GetAvgConfWords_append (acc : Float64 × Float64) (a b : List OcrWord) :
    GetAvgConfWords acc (a ++ b)
      = (GetAvgConfWords acc a).bind fun r =>
          match r with
          | (acc, some err) => Run.done (acc, some err)
          | (acc, none) => GetAvgConfWords acc b := by
  induction a generalizing acc with
  | nil => rfl
  | cons w a ih =>
    simp only [List.cons_append, GetAvgConfWords]
    cases wordConf w.Title with
    | crash p => rfl
    | done r =>
      obtain ⟨c, e⟩ := r
      cases e with
      | some err => rfl
      | none => exact ih _

theorem GetAvgConfLines_eq (acc : Float64 × Float64) (ls : List OcrLine) :
    GetAvgConfLines acc ls = GetAvgConfWords acc (ls.map fun l => l.Words).flatten := by
  induction ls generalizing acc with
  | nil => rfl
  | cons l ls ih =>
    simp only [GetAvgConfLines, List.map_cons, List.flatten_cons, GetAvgConfWords_append]
    congr 1
    funext r
    obtain ⟨c, e⟩ := r
    cases e with
    | some err => rfl
    | none => exact ih c

theorem GetAvgConfPages_eq (acc : Float64 × Float64) (ps : List Page) :
    GetAvgConfPages acc ps = GetAvgConfWords acc (allWords ps) := by
  induction ps generalizing acc with
  | nil => rfl
  | cons p ps ih =>
    simp only [GetAvgConfPages, allWords, List.map_cons, List.flatten_cons,
      GetAvgConfWords_append, GetAvgConfLines_eq]
    congr 1
    funext r
    obtain ⟨c, e⟩ := r
    cases e with
    | some err => rfl
    | none => exact ih c

theorem GetAvgConfWords_ok (total : Float64) (k : Nat) (ws : List OcrWord) (cs : List Float64)
    (h : List.Forall₂ (fun w c => wordConf w.Title = Run.done (c, none)) ws cs) :
    GetAvgConfWords (total, countFloat k) ws
      = Run.done ((cs.foldl fadd total, countFloat (k + cs.length)), none) := by
  induction h generalizing total k with
  | nil => simp [GetAvgConfWords]
  | cons hw _ ih =>
    simp only [GetAvgConfWords, hw, Run.bind, List.foldl_cons, List.length_cons]
    rw [show fadd (countFloat k) Float64.one = countFloat (k + 1) from rfl, ih]
    congr 4
    omega

theorem GetAvgConf_ok {Bytes : Type}
    (ReadFile : GoString → Bytes × Option GoError) (Parse : Bytes → Hocr × Option GoError)
    (hocrfn : GoString) (file : Bytes) (h : Hocr) (cs : List Float64)
    (hread : ReadFile hocrfn = (file, none)) (hparse : Parse file = (h, none))
    (hcs : List.Forall₂ (fun w c => wordConf w.Title = Run.done (c, none))
      (allWords h.Pages) cs) :
    GetAvgConf ReadFile Parse hocrfn
      = if cs.length = 0 then Run.done (Float64.zero, some GoError.noWordsFound)
        else Run.done (fdiv (sumFloat cs) (countFloat cs.length), none) := by
  have hloop := GetAvgConfWords_ok Float64.zero 0 _ _ hcs
  simp only [GetAvgConf, hread, hparse, GetAvgConfPages_eq]
  rw [show (Float64.zero, Float64.zero) = (Float64.zero, countFloat 0) from rfl, hloop]
  simp only [Run.bind, Nat.zero_add, countFloat_isZero, decide_eq_true_eq]
  rfl

theorem allWords_eq_nil_iff (ps : List Page) :
    allWords ps = [] ↔ ∀ p ∈ ps, ∀ l ∈ p.Lines, l.Words = [] := by
  constructor
  · intro h p hp l hl
    cases hw : l.Words with
    | nil => rfl
    | cons w ws =>
      have : w ∈ allWords ps := (mem_allWords ps w).mpr ⟨p, hp, l, hl, by rw [hw]; simp⟩
      rw [h] at this
      exact absurd this (List.not_mem_nil w)
  · intro h
    cases ha : allWords ps with
    | nil => rfl
    | cons w ws =>
      obtain ⟨p, hp, l, hl, hw⟩ := (mem_allWords ps w).mp (by rw [ha]; simp)
      rw [h p hp l hl] at hw
      exact absurd hw (List.not_mem_nil w)

theorem fadd_zero_zero : fadd Float64.zero Float64.zero = Float64.zero := by
  simp only [fadd, Float64.zero, Nat.zero_mul, Nat.add_zero, roundFloat64, if_true]

theorem sumFloat_zeros (cs : List Float64) (h : ∀ c ∈ cs, c = Float64.zero) :
    sumFloat cs = Float64.zero := by
  unfold sumFloat
  induction cs with
  | nil => rfl
  | cons c cs ih =>
    rw [List.foldl_cons, h c (List.mem_cons_self _ _), fadd_zero_zero]
    exact ih fun d hd => h d (List.mem_cons_of_mem _ hd)

theorem fdiv_zero_count (n : Nat) (h : 0 < n) :
    fdiv Float64.zero (countFloat n) = Float64.zero := by
  obtain ⟨m, x, e, _, p⟩ := ofNat_spec (min n (2 ^ 53)) (Nat.min_le_right _ _)
  have hpos : 0 < min n (2 ^ 53) := by
    rw [Nat.lt_min]
    exact ⟨h, by norm_num⟩
  have hm := p hpos
  have hm0 : m ≠ 0 := by omega
  rw [countFloat_eq, e]
  simp only [fdiv, Float64.zero, hm0, if_false, Nat.zero_mul, roundFloat64, if_true]

/-! ## `GetAvgConf`: the claims -/

/-- C12.  When the file is read and parsed without error and `wordConf` returns
a confidence and no error on the title of every word, `GetAvgConf` returns the
error `No words found` if and only if the document has no word, that is, when
every line of every page is without words; with one or more words it returns no
error, and when the confidences are all zero the result is zero. -/
theorem GetAvgConf_noWordsFound_iff {Bytes : Type}
    (ReadFile : GoString → Bytes × Option GoError) (Parse : Bytes → Hocr × Option GoError)
    (hocrfn : GoString) (file : Bytes) (h : Hocr)
    (hread : ReadFile hocrfn = (file, none)) (hparse : Parse file = (h, none))
    (hconf : ∀ p ∈ h.Pages, ∀ l ∈ p.Lines, ∀ w ∈ l.Words,
      ∃ c, wordConf w.Title = Run.done (c, none)) :
    ((∃ v, GetAvgConf ReadFile Parse hocrfn = Run.done (v, some GoError.noWordsFound))
        ↔ allWords h.Pages = [])
    ∧ (allWords h.Pages = [] ↔ ∀ p ∈ h.Pages, ∀ l ∈ p.Lines, l.Words = [])
    ∧ (allWords h.Pages = [] →
        GetAvgConf ReadFile Parse hocrfn = Run.done (Float64.zero, some GoError.noWordsFound))
    ∧ (allWords h.Pages ≠ [] → ∃ v, GetAvgConf ReadFile Parse hocrfn = Run.done (v, none))
    ∧ (allWords h.Pages ≠ [] →
        (∀ w ∈ allWords h.Pages, wordConf w.Title = Run.done (Float64.zero, none)) →
        GetAvgConf ReadFile Parse hocrfn = Run.done (Float64.zero, none)) := by
  obtain ⟨cs, hcs⟩ := exists_confs_of_forall (allWords h.Pages) (by
    intro w hw
    obtain ⟨p, hp, l, hl, hw⟩ := (mem_allWords _ _).mp hw
    exact hconf p hp l hl w hw)
  have hres := GetAvgConf_ok ReadFile Parse hocrfn file h cs hread hparse hcs
  have hlen : cs.length = 0 ↔ allWords h.Pages = [] := by
    rw [← hcs.length_eq]
    exact List.length_eq_zero
  have hempty : allWords h.Pages = [] →
      GetAvgConf ReadFile Parse hocrfn = Run.done (Float64.zero, some GoError.noWordsFound) := by
    intro he
    rw [hres, if_pos (hlen.mpr he)]
  have hsome : allWords h.Pages ≠ [] →
      GetAvgConf ReadFile Parse hocrfn
        = Run.done (fdiv (sumFloat cs) (countFloat cs.length), none) := by
    intro hne
    rw [hres, if_neg (fun e => hne (hlen.mp e))]
  refine ⟨⟨?_, fun he => ⟨_, hempty he⟩⟩, allWords_eq_nil_iff _, hempty,
    fun hne => ⟨_, hsome hne⟩, ?_⟩
  · rintro ⟨v, hv⟩
    by_contra hne
    rw [hsome hne] at hv
    simp at hv
  · intro hne hz
    have hcz : ∀ c ∈ cs, c = Float64.zero := by
      intro c hc
      obtain ⟨i, hi, rfl⟩ := List.getElem_of_mem hc
      have hi' : i < (allWords h.Pages).length := by rw [hcs.length_eq]; exact hi
      have h1 := (List.forall₂_iff_get.mp hcs).2 i hi' hi
      have h2 := hz _ (List.getElem_mem hi')
      simp only [List.get_eq_getElem] at h1
      rw [h2] at h1
      simp only [Run.done.injEq, Prod.mk.injEq, and_true] at h1
      exact h1.symm
    have hpos : 0 < cs.length := by
      rcases Nat.eq_zero_or_pos cs.length with e | e
      · exact absurd (hlen.mp e) hne
      · exact e
    rw [hsome hne, sumFloat_zeros cs hcz, fdiv_zero_count _ hpos]

/-! ## Lemmas on the value of `roundFloat64` and on `ParseFloat` -/

theorem divRoundHalfEven_bound (n d : Nat) (hd : 0 < d) :
    |(divRoundHalfEven n d : ℚ) - (n : ℚ) / d| ≤ 1 / 2 := by
  have hd' : (0 : ℚ) < d := by exact_mod_cast hd
  have hdm : ((d * (n / d) + n % d : ℕ) : ℚ) = n := by exact_mod_cast Nat.div_add_mod n d
  push_cast at hdm
  have hr : (n % d : ℕ) < d := Nat.mod_lt _ hd
  have hrq : ((n % d : ℕ) : ℚ) < d := by exact_mod_cast hr
  have hr0 : (0 : ℚ) ≤ ((n % d : ℕ) : ℚ) := by positivity
  have hq : (n : ℚ) / d = ((n / d : ℕ) : ℚ) + ((n % d : ℕ) : ℚ) / d := by
    field_simp
    linarith
  rw [abs_le]
  unfold divRoundHalfEven
  by_cases h1 : 2 * (n % d) < d
  · have h1' : 2 * ((n % d : ℕ) : ℚ) < d := by exact_mod_cast h1
    have : ((n % d : ℕ) : ℚ) / d < 1 / 2 := by
      rw [div_lt_iff₀ hd']
      linarith
    have h0 : (0 : ℚ) ≤ ((n % d : ℕ) : ℚ) / d := by positivity
    rw [if_pos h1, hq]
    constructor <;> linarith
  · rw [if_neg h1]
    have h1' : (d : ℚ) ≤ 2 * ((n % d : ℕ) : ℚ) := by exact_mod_cast Nat.not_lt.mp h1
    have hge : (1 : ℚ) / 2 ≤ ((n % d : ℕ) : ℚ) / d := by
      rw [le_div_iff₀ hd']
      linarith
    have hlt : ((n % d : ℕ) : ℚ) / d < 1 := by
      rw [div_lt_iff₀ hd']
      linarith
    by_cases h2 : d < 2 * (n % d)
    · rw [if_pos h2, hq]
      push_cast
      constructor <;> linarith
    · rw [if_neg h2]
      have h2' : 2 * ((n % d : ℕ) : ℚ) ≤ d := by exact_mod_cast Nat.not_lt.mp h2
      have heq : ((n % d : ℕ) : ℚ) / d = 1 / 2 := by
        rw [div_eq_iff hd'.ne']
        linarith
      by_cases h3 : (n / d) % 2 = 0
      · rw [if_pos h3, hq, heq]
        constructor <;> linarith
      · rw [if_neg h3, hq, heq]
        push_cast
        constructor <;> linarith

theorem scaled_ratio (n d : Nat) (hd : 0 < d) (y : ℤ) :
    (scaledNum n y : ℚ) / (scaledDen d y : ℚ) = (n : ℚ) / d / 2 ^ y := by
  have hd' : (d : ℚ) ≠ 0 := by exact_mod_cast hd.ne'
  rw [zpow_two_eq]
  unfold scaledNum scaledDen
  push_cast
  field_simp

/-- A fraction below the overflow threshold rounds to a finite `float64`,
within half a unit in the last place of the fraction. -/
theorem roundFloat64_finite_of_lt (n d : Nat) (hd : 0 < d)
    (h : (n : ℚ) / d < 2 ^ 1024 - 2 ^ 970) :
    ∃ (m : Nat) (x : ℤ), roundFloat64 n d = Float64.finite m x
      ∧ |(m : ℚ) * 2 ^ x - (n : ℚ) / d| ≤ 2 ^ x / 2 := by
  by_cases hn : n = 0
  · subst hn
    refine ⟨0, -1074, by simp [roundFloat64, Float64.zero], ?_⟩
    simp only [Nat.cast_zero, zero_mul, zero_div, sub_zero, abs_zero]
    positivity
  have two : (2 : ℚ) ≠ 0 := by norm_num
  obtain ⟨lo, hi⟩ := binExp_spec n d hn hd.ne'
  have he : binExp n d ≤ 1023 := by
    have h1 : (2 : ℚ) ^ binExp n d < 2 ^ (1024 : ℤ) := by
      have hp : (0 : ℚ) < 2 ^ 970 := by positivity
      rw [zpow_ofNat]
      linarith
    rw [zpow_lt_zpow_iff_right₀ (by norm_num : (1 : ℚ) < 2)] at h1
    omega
  have hXle : max (binExp n d) (-1022) - 52 ≤ 971 := by omega
  have hb := divRoundHalfEven_bound (scaledNum n (max (binExp n d) (-1022) - 52))
    (scaledDen d (max (binExp n d) (-1022) - 52)) (scaledDen_pos d hd _)
  rw [scaled_ratio n d hd] at hb
  have hpX : (0 : ℚ) < 2 ^ (max (binExp n d) (-1022) - 52) := by positivity
  have hval : |(divRoundHalfEven (scaledNum n (max (binExp n d) (-1022) - 52))
        (scaledDen d (max (binExp n d) (-1022) - 52)) : ℚ)
        * 2 ^ (max (binExp n d) (-1022) - 52) - (n : ℚ) / d|
      ≤ 2 ^ (max (binExp n d) (-1022) - 52) / 2 := by
    have e : (divRoundHalfEven (scaledNum n (max (binExp n d) (-1022) - 52))
        (scaledDen d (max (binExp n d) (-1022) - 52)) : ℚ)
        * 2 ^ (max (binExp n d) (-1022) - 52) - (n : ℚ) / d
        = ((divRoundHalfEven (scaledNum n (max (binExp n d) (-1022) - 52))
          (scaledDen d (max (binExp n d) (-1022) - 52)) : ℚ)
          - (n : ℚ) / d / 2 ^ (max (binExp n d) (-1022) - 52))
          * 2 ^ (max (binExp n d) (-1022) - 52) := by
      field_simp
      ring
    rw [e, abs_mul, abs_of_pos hpX]
    calc _ ≤ 1 / 2 * 2 ^ (max (binExp n d) (-1022) - 52) :=
          mul_le_mul_of_nonneg_right hb hpX.le
      _ = _ := by ring
  rw [roundFloat64_eq n d hn]
  by_cases hM : divRoundHalfEven (scaledNum n (max (binExp n d) (-1022) - 52))
      (scaledDen d (max (binExp n d) (-1022) - 52)) = 2 ^ 53
  · simp only [hM, if_true] at hval ⊢
    have hX : max (binExp n d) (-1022) - 52 ≤ 970 := by
      by_contra hc
      have hX971 : max (binExp n d) (-1022) - 52 = 971 := by omega
      rw [hX971, zpow_ofNat] at hval
      have hl := (abs_le.mp hval).2
      have e1 : ((2 ^ 53 : ℕ) : ℚ) * 2 ^ 971 = 2 ^ 1024 := by
        rw [Nat.cast_pow, Nat.cast_ofNat, ← pow_add]
      have e2 : (2 : ℚ) ^ 971 / 2 = 2 ^ 970 := by
        rw [show (971 : ℕ) = 970 + 1 from rfl, pow_succ]
        field_simp
      rw [e1, e2] at hl
      linarith
    rw [if_neg (by omega)]
    refine ⟨2 ^ 52, _, rfl, ?_⟩
    have e3 : ((2 ^ 52 : ℕ) : ℚ) * 2 ^ (max (binExp n d) (-1022) - 52 + 1)
        = ((2 ^ 53 : ℕ) : ℚ) * 2 ^ (max (binExp n d) (-1022) - 52) := by
      rw [zpow_add₀ two]
      push_cast
      ring
    rw [e3]
    calc _ ≤ 2 ^ (max (binExp n d) (-1022) - 52) / 2 := hval
      _ ≤ 2 ^ (max (binExp n d) (-1022) - 52 + 1) / 2 := by
        apply div_le_div_of_nonneg_right _ (by norm_num)
        exact zpow_le_zpow_right₀ (by norm_num) (by omega)
  · simp only [hM, if_false]
    rw [if_neg (by omega)]
    exact ⟨_, _, rfl, hval⟩

theorem isDigit_dot : isDigit '.' = false := by decide

theorem ParseFloat_numeral (ip fp : GoString) (hip : IsDigits ip)
    (hfp : ∀ c ∈ fp, isDigit c = true) (r : Float64)
    (hr : roundFloat64 (digitsVal (ip ++ fp)) (10 ^ fp.length) = r) :
    (∀ m x, r = Float64.finite m x → ParseFloat (numeral ip fp) = (Float64.finite m x, none))
    ∧ (r = Float64.posInf →
        ParseFloat (numeral ip fp) = (Float64.posInf, some GoError.rangeError)) := by
  obtain ⟨hne, hd⟩ := hip
  have hemp : ip.isEmpty = false := by
    cases ip with
    | nil => exact absurd rfl hne
    | cons c cs => rfl
  by_cases hf : fp = []
  · subst hf
    have ht : ip.takeWhile isDigit = ip := List.takeWhile_eq_self_iff.mpr hd
    have hdr : ip.dropWhile isDigit = [] := List.dropWhile_eq_nil_iff.mpr hd
    constructor
    · intro m x e
      subst e
      simp only [numeral, if_true, ParseFloat, ht, hdr, hemp, List.append_nil, List.length_nil,
        Bool.not_false, if_true]
      simp only [List.append_nil, List.length_nil] at hr
      rw [hr]
    · intro e
      subst e
      simp only [numeral, if_true, ParseFloat, ht, hdr, hemp, List.append_nil, List.length_nil,
        Bool.not_false, if_true]
      simp only [List.append_nil, List.length_nil] at hr
      rw [hr]
  · have ht : (ip ++ '.' :: fp).takeWhile isDigit = ip := by
      rw [takeWhile_append_stop isDigit ip _ hd]
      simp [List.takeWhile, isDigit_dot]
    have hdr : (ip ++ '.' :: fp).dropWhile isDigit = '.' :: fp := by
      rw [dropWhile_append_stop isDigit ip _ hd]
      simp [List.dropWhile, isDigit_dot]
    have hall : fp.all isDigit = true := List.all_eq_true.mpr hfp
    constructor
    · intro m x e
      subst e
      simp only [numeral, hf, if_false, ParseFloat, ht, hdr, hemp, hall, decide_True,
        Bool.false_and, Bool.not_false, Bool.and_self, if_true]
      rw [hr]
    · intro e
      subst e
      simp only [numeral, hf, if_false, ParseFloat, ht, hdr, hemp, hall, decide_True,
        Bool.false_and, Bool.not_false, Bool.and_self, if_true]
      rw [hr]

theorem wordConf_of_leftmost (pre post g : GoString)
    (hne : g ≠ []) (hg : ∀ c ∈ g, isDigitOrDot c = true)
    (hleft : ∀ i, i < pre.length →
      ¬ WConfAt ((pre ++ ("x_wconf ".toList ++ (g ++ post))).drop i))
    (hpost : ∀ c, post.head? = some c → isDigitOrDot c = false) :
    wordConf (pre ++ ("x_wconf ".toList ++ (g ++ post))) = Run.done (ParseFloat g) := by
  have hfind : FindStringSubmatch wconfRe (pre ++ ("x_wconf ".toList ++ (g ++ post)))
      = FindStringSubmatch wconfRe ("x_wconf ".toList ++ (g ++ post)) := by
    apply FindStringSubmatch_append_of_none
    intro i hi
    rw [submatchHere_eq_none_iff]
    by_contra hm
    exact hleft i hi ((matchHere_wconfRe_iff _).mp hm)
  have htake : post.takeWhile isDigitOrDot = [] := by
    cases post with
    | nil => rfl
    | cons c cs => simp [List.takeWhile, hpost c rfl]
  have hsub : FindStringSubmatch wconfRe ("x_wconf ".toList ++ (g ++ post))
      = [("x_wconf ".toList ++ (g ++ post)).take
          (("x_wconf ".toList ++ (g ++ post)).length - (post.dropWhile isDigitOrDot).length),
        g] := by
    apply FindStringSubmatch_of_some
    unfold submatchHere wconfRe
    rw [matchHere_lit, matchHere_group_last _ _ _ hne hg, htake, List.append_nil]
  unfold wordConf
  simp only [hfind, hsub, index, List.get?, Run.bind]

/-! ## The accuracy of the running sum and of the quotient of `GetAvgConf` -/

/-- The mantissa that `roundFloat64` computes is within half a unit of the
scaled fraction. -/
theorem mant_bound (n d : Nat) (hd : 0 < d) (X : ℤ) :
    |(divRoundHalfEven (scaledNum n X) (scaledDen d X) : ℚ) * 2 ^ X - (n : ℚ) / d|
      ≤ 2 ^ X / 2 := by
  have hb := divRoundHalfEven_bound (scaledNum n X) (scaledDen d X) (scaledDen_pos d hd _)
  rw [scaled_ratio n d hd] at hb
  have hpX : (0 : ℚ) < 2 ^ X := by positivity
  have e : (divRoundHalfEven (scaledNum n X) (scaledDen d X) : ℚ) * 2 ^ X - (n : ℚ) / d
      = ((divRoundHalfEven (scaledNum n X) (scaledDen d X) : ℚ) - (n : ℚ) / d / 2 ^ X)
        * 2 ^ X := by
    field_simp
    ring
  rw [e, abs_mul, abs_of_pos hpX]
  calc _ ≤ 1 / 2 * 2 ^ X := mul_le_mul_of_nonneg_right hb hpX.le
    _ = _ := by ring

/-- A finite result of `roundFloat64` is a `float64` in canonical form, and its
distance from the fraction is at most `2 ^ (-53)` times the fraction, or, in the
subnormal range, at most `2 ^ (-1075)`, and zero when the fraction is a
multiple of `2 ^ (-1074)`. -/
theorem roundFloat64_error (n d : Nat) (hd : 0 < d) (m : Nat) (x : ℤ)
    (h : roundFloat64 n d = Float64.finite m x) :
    (-1074 ≤ x ∧ x ≤ 971 ∧ m < 2 ^ 53)
    ∧ (|(m : ℚ) * 2 ^ x - (n : ℚ) / d| ≤ 2 ^ (-53 : ℤ) * ((n : ℚ) / d)
      ∨ (|(m : ℚ) * 2 ^ x - (n : ℚ) / d| ≤ 2 ^ (-1075 : ℤ)
        ∧ ∀ K : ℕ, (n : ℚ) / d = K * 2 ^ (-1074 : ℤ) → (m : ℚ) * 2 ^ x = (n : ℚ) / d)) := by
  by_cases hn : n = 0
  · subst hn
    simp only [roundFloat64, if_true, Float64.zero, Float64.finite.injEq] at h
    obtain ⟨rfl, rfl⟩ := h
    refine ⟨⟨le_refl _, by norm_num, by norm_num⟩, Or.inl ?_⟩
    simp
  have two : (2 : ℚ) ≠ 0 := by norm_num
  obtain ⟨lo, hi⟩ := binExp_spec n d hn hd.ne'
  have hval := mant_bound n d hd (max (binExp n d) (-1022) - 52)
  have hq0 : (0 : ℚ) < (n : ℚ) / d := lt_of_lt_of_le (by positivity) lo
  -- the mantissa is at most `2 ^ 53`
  have hMle : divRoundHalfEven (scaledNum n (max (binExp n d) (-1022) - 52))
      (scaledDen d (max (binExp n d) (-1022) - 52)) ≤ 2 ^ 53 := by
    have hlt : (n : ℚ) / d < 2 ^ (53 : ℤ) * 2 ^ (max (binExp n d) (-1022) - 52) := by
      rw [← zpow_add₀ two]
      refine lt_of_lt_of_le hi ?_
      exact zpow_le_zpow_right₀ (by norm_num) (by omega)
    have hpX : (0 : ℚ) < 2 ^ (max (binExp n d) (-1022) - 52) := by positivity
    have h1 := (abs_le.mp hval).2
    have h2 : (divRoundHalfEven (scaledNum n (max (binExp n d) (-1022) - 52))
        (scaledDen d (max (binExp n d) (-1022) - 52)) : ℚ)
        * 2 ^ (max (binExp n d) (-1022) - 52)
        < (2 ^ (53 : ℤ) + 1 / 2) * 2 ^ (max (binExp n d) (-1022) - 52) := by
      linarith
    have h3 := lt_of_mul_lt_mul_right h2 hpX.le
    by_contra hc
    have h4 : ((2 ^ 53 + 1 : ℕ) : ℚ) ≤ (divRoundHalfEven
        (scaledNum n (max (binExp n d) (-1022) - 52))
        (scaledDen d (max (binExp n d) (-1022) - 52)) : ℚ) := by
      exact_mod_cast Nat.not_le.mp hc
    push_cast at h4
    rw [zpow_ofNat] at h3
    linarith
  -- the value of the result is the mantissa times the unit
  have key : (-1074 ≤ x ∧ x ≤ 971 ∧ m < 2 ^ 53)
      ∧ (m : ℚ) * 2 ^ x
        = (divRoundHalfEven (scaledNum n (max (binExp n d) (-1022) - 52))
            (scaledDen d (max (binExp n d) (-1022) - 52)) : ℚ)
          * 2 ^ (max (binExp n d) (-1022) - 52) := by
    rw [roundFloat64_eq n d hn] at h
    by_cases hM : divRoundHalfEven (scaledNum n (max (binExp n d) (-1022) - 52))
        (scaledDen d (max (binExp n d) (-1022) - 52)) = 2 ^ 53
    · simp only [hM, if_true] at h ⊢
      by_cases hx : 971 < max (binExp n d) (-1022) - 52 + 1
      · rw [if_pos hx] at h
        exact absurd h (by simp)
      · rw [if_neg hx] at h
        simp only [Float64.finite.injEq] at h
        obtain ⟨rfl, rfl⟩ := h
        refine ⟨⟨by omega, by omega, by norm_num⟩, ?_⟩
        rw [zpow_add₀ two]
        push_cast
        ring
    · simp only [hM, if_false] at h ⊢
      by_cases hx : 971 < max (binExp n d) (-1022) - 52
      · rw [if_pos hx] at h
        exact absurd h (by simp)
      · rw [if_neg hx] at h
        simp only [Float64.finite.injEq] at h
        obtain ⟨rfl, rfl⟩ := h
        exact ⟨⟨by omega, by omega, by omega⟩, rfl⟩
  refine ⟨key.1, ?_⟩
  rw [key.2]
  by_cases he : -1022 ≤ binExp n d
  · left
    have hX : max (binExp n d) (-1022) - 52 = binExp n d - 52 := by omega
    rw [hX] at hval ⊢
    calc _ ≤ (2 : ℚ) ^ (binExp n d - 52) / 2 := hval
      _ = 2 ^ (-53 : ℤ) * 2 ^ binExp n d := by
        rw [← zpow_add₀ two, show (-53 : ℤ) + binExp n d = (binExp n d - 52) + (-1) by ring,
          zpow_add₀ two]
        norm_num
        ring
      _ ≤ 2 ^ (-53 : ℤ) * ((n : ℚ) / d) := by
        apply mul_le_mul_of_nonneg_left lo
        positivity
  · right
    have hX : max (binExp n d) (-1022) - 52 = -1074 := by omega
    rw [hX] at hval ⊢
    constructor
    · calc _ ≤ (2 : ℚ) ^ (-1074 : ℤ) / 2 := hval
        _ = 2 ^ (-1075 : ℤ) := by
          rw [show (-1075 : ℤ) = -1074 + (-1) by norm_num, zpow_add₀ two]
          norm_num
    · intro K hK
      rw [(scaled_eq_iff n d K hd (-1074)).mpr hK,
        divRoundHalfEven_mul K _ (scaledDen_pos d hd _), hK]


theorem roundFloat64_ne_nan (n d : Nat) : roundFloat64 n d ≠ Float64.nan := by
  by_cases hn : n = 0
  · subst hn
    simp [roundFloat64, Float64.zero]
  · rw [roundFloat64_eq n d hn]
    split_ifs <;> exact fun h => Float64.noConfusion h

theorem roundFloat64_cases (n d : Nat) :
    roundFloat64 n d = Float64.posInf ∨ ∃ m x, roundFloat64 n d = Float64.finite m x := by
  cases h : roundFloat64 n d with
  | finite m x => exact Or.inr ⟨m, x, rfl⟩
  | posInf => exact Or.inl rfl
  | nan => exact absurd h (roundFloat64_ne_nan n d)

/-- The sum of two finite `float64` is `+Inf` or a finite `float64` within the
relative distance `2 ^ (-53)` of the exact sum. -/
theorem fadd_error (m1 m2 : Nat) (e1 e2 : ℤ) (h1 : -1074 ≤ e1) (h2 : -1074 ≤ e2) :
    fadd (Float64.finite m1 e1) (Float64.finite m2 e2) = Float64.posInf
    ∨ ∃ (m : Nat) (x : ℤ),
        fadd (Float64.finite m1 e1) (Float64.finite m2 e2) = Float64.finite m x
        ∧ (-1074 ≤ x ∧ x ≤ 971 ∧ m < 2 ^ 53)
        ∧ |(m : ℚ) * 2 ^ x - ((m1 : ℚ) * 2 ^ e1 + (m2 : ℚ) * 2 ^ e2)|
            ≤ 2 ^ (-53 : ℤ) * ((m1 : ℚ) * 2 ^ e1 + (m2 : ℚ) * 2 ^ e2) := by
  have two : (2 : ℚ) ≠ 0 := by norm_num
  have hd : 0 < 2 ^ (-e1).toNat * 2 ^ (-e2).toNat := by positivity
  have hr := fadd_finite_ratio m1 m2 e1 e2
  have hf : fadd (Float64.finite m1 e1) (Float64.finite m2 e2)
      = roundFloat64
          (m1 * 2 ^ e1.toNat * 2 ^ (-e2).toNat + m2 * 2 ^ e2.toNat * 2 ^ (-e1).toNat)
          (2 ^ (-e1).toNat * 2 ^ (-e2).toNat) := rfl
  rcases roundFloat64_cases
      (m1 * 2 ^ e1.toNat * 2 ^ (-e2).toNat + m2 * 2 ^ e2.toNat * 2 ^ (-e1).toNat)
      (2 ^ (-e1).toNat * 2 ^ (-e2).toNat) with hinf | ⟨m, x, hfin⟩
  · exact Or.inl (hf.trans hinf)
  · right
    obtain ⟨hc, hb⟩ := roundFloat64_error _ _ hd m x hfin
    rw [hr] at hb
    refine ⟨m, x, hf.trans hfin, hc, ?_⟩
    rcases hb with hb | ⟨_, hex⟩
    · exact hb
    · have hq0 : (0 : ℚ) ≤ (m1 : ℚ) * 2 ^ e1 + (m2 : ℚ) * 2 ^ e2 := by positivity
      have hK : (m1 : ℚ) * 2 ^ e1 + (m2 : ℚ) * 2 ^ e2
          = ((m1 * 2 ^ (e1 + 1074).toNat + m2 * 2 ^ (e2 + 1074).toNat : ℕ) : ℚ)
            * 2 ^ (-1074 : ℤ) := by
        have p1 : (2 : ℚ) ^ e1 = 2 ^ (e1 + 1074).toNat * 2 ^ (-1074 : ℤ) := by
          rw [← zpow_natCast, Int.toNat_of_nonneg (by omega), ← zpow_add₀ two]
          congr 1
          ring
        have p2 : (2 : ℚ) ^ e2 = 2 ^ (e2 + 1074).toNat * 2 ^ (-1074 : ℤ) := by
          rw [← zpow_natCast, Int.toNat_of_nonneg (by omega), ← zpow_add₀ two]
          congr 1
          ring
        rw [p1, p2]
        push_cast
        ring
      rw [hex _ hK, sub_self, abs_zero]
      positivity

/-- The quotient of two finite `float64`, the second not zero, is `+Inf` or a
finite `float64` whose distance from the exact quotient is at most `2 ^ (-53)`
times the quotient plus `2 ^ (-1075)`. -/
theorem fdiv_error (m1 m2 : Nat) (e1 e2 : ℤ) (hm2 : m2 ≠ 0) (m : Nat) (x : ℤ)
    (h : fdiv (Float64.finite m1 e1) (Float64.finite m2 e2) = Float64.finite m x) :
    |(m : ℚ) * 2 ^ x - ((m1 : ℚ) * 2 ^ e1) / ((m2 : ℚ) * 2 ^ e2)|
      ≤ 2 ^ (-53 : ℤ) * (((m1 : ℚ) * 2 ^ e1) / ((m2 : ℚ) * 2 ^ e2)) + 2 ^ (-1075 : ℤ) := by
  have hd : 0 < 2 ^ (-e1).toNat * (m2 * 2 ^ e2.toNat) := by
    have : 0 < m2 := Nat.pos_of_ne_zero hm2
    positivity
  have hr := fdiv_finite_ratio m1 m2 e1 e2 hm2
  simp only [fdiv, hm2, if_false] at h
  obtain ⟨_, hb⟩ := roundFloat64_error _ _ hd m x h
  rw [hr] at hb
  have hq0 : (0 : ℚ) ≤ ((m1 : ℚ) * 2 ^ e1) / ((m2 : ℚ) * 2 ^ e2) := by positivity
  have hu : (0 : ℚ) ≤ 2 ^ (-53 : ℤ) * (((m1 : ℚ) * 2 ^ e1) / ((m2 : ℚ) * 2 ^ e2)) := by
    positivity
  have he : (0 : ℚ) ≤ 2 ^ (-1075 : ℤ) := by positivity
  rcases hb with hb | ⟨hb, _⟩
  · linarith
  · linarith


theorem foldl_fadd_posInf (cs : List Float64)
    (h : ∀ c ∈ cs, ∃ m x, c = Float64.finite m x ∧ -1074 ≤ x) :
    cs.foldl fadd Float64.posInf = Float64.posInf := by
  induction cs with
  | nil => rfl
  | cons c cs ih =>
    obtain ⟨m, x, rfl, _⟩ := h c (List.mem_cons_self _ _)
    rw [List.foldl_cons, show fadd Float64.posInf (Float64.finite m x) = Float64.posInf from rfl]
    exact ih fun d hd => h d (List.mem_cons_of_mem _ hd)

theorem sum_toRat_nonneg (cs : List Float64) : 0 ≤ (cs.filterMap Float64.toRat).sum := by
  induction cs with
  | nil => simp
  | cons c cs ih =>
    cases c with
    | finite m x =>
      rw [List.filterMap_cons_some (show Float64.toRat (Float64.finite m x) = some _ from rfl),
        List.sum_cons]
      have : (0 : ℚ) ≤ (m : ℚ) * 2 ^ x := by positivity
      linarith
    | posInf => rwa [List.filterMap_cons_none (show Float64.toRat Float64.posInf = none from rfl)]
    | nan => rwa [List.filterMap_cons_none (show Float64.toRat Float64.nan = none from rfl)]

/-- The running sum from a finite `float64`: `+Inf`, or a finite `float64`
within the factors `(1 - 2 ^ (-53)) ^ k` and `(1 + 2 ^ (-53)) ^ k` of the exact
sum, for `k` additions. -/
theorem foldl_fadd_bound (cs : List Float64) :
    ∀ (ma : Nat) (xa : ℤ), (-1074 ≤ xa ∧ xa ≤ 971 ∧ ma < 2 ^ 53) →
    (∀ c ∈ cs, ∃ m x, c = Float64.finite m x ∧ -1074 ≤ x) →
    cs.foldl fadd (Float64.finite ma xa) = Float64.posInf
    ∨ ∃ (m : Nat) (x : ℤ), cs.foldl fadd (Float64.finite ma xa) = Float64.finite m x
        ∧ (-1074 ≤ x ∧ x ≤ 971 ∧ m < 2 ^ 53)
        ∧ (1 - 2 ^ (-53 : ℤ)) ^ cs.length
              * ((ma : ℚ) * 2 ^ xa + (cs.filterMap Float64.toRat).sum)
            ≤ (m : ℚ) * 2 ^ x
        ∧ (m : ℚ) * 2 ^ x
            ≤ (1 + 2 ^ (-53 : ℤ)) ^ cs.length
              * ((ma : ℚ) * 2 ^ xa + (cs.filterMap Float64.toRat).sum) := by
  have hu0 : (0 : ℚ) ≤ 2 ^ (-53 : ℤ) := by positivity
  have hu1 : (2 : ℚ) ^ (-53 : ℤ) ≤ 1 := zpow_le_one_of_nonpos₀ (by norm_num) (by norm_num)
  induction cs with
  | nil =>
    intro ma xa hcan _
    exact Or.inr ⟨ma, xa, rfl, hcan, by simp, by simp⟩
  | cons c cs ih =>
    intro ma xa hcan h
    obtain ⟨mc, xc, rfl, hxc⟩ := h c (List.mem_cons_self _ _)
    have hrest : ∀ d ∈ cs, ∃ m x, d = Float64.finite m x ∧ -1074 ≤ x :=
      fun d hd => h d (List.mem_cons_of_mem _ hd)
    rw [List.foldl_cons]
    rcases fadd_error ma mc xa xc hcan.1 hxc with hinf | ⟨m', x', hf, hcan', hb⟩
    · rw [hinf]
      exact Or.inl (foldl_fadd_posInf cs hrest)
    · rw [hf]
      rcases ih m' x' hcan' hrest with h1 | ⟨m, x, hfold, hcan2, lo, hi⟩
      · exact Or.inl h1
      · refine Or.inr ⟨m, x, hfold, hcan2, ?_, ?_⟩
        · rw [List.filterMap_cons_some
              (show Float64.toRat (Float64.finite mc xc) = some _ from rfl),
            List.sum_cons, List.length_cons, pow_succ]
          have hs := sum_toRat_nonneg cs
          have hb1 := (abs_le.mp hb).1
          have hp : (0 : ℚ) ≤ (1 - 2 ^ (-53 : ℤ)) ^ cs.length := pow_nonneg (by linarith) _
          have hus : (0 : ℚ) ≤ 2 ^ (-53 : ℤ) * (cs.filterMap Float64.toRat).sum :=
            mul_nonneg hu0 hs
          calc (1 - 2 ^ (-53 : ℤ)) ^ cs.length * (1 - 2 ^ (-53 : ℤ))
                * ((ma : ℚ) * 2 ^ xa + ((mc : ℚ) * 2 ^ xc + (cs.filterMap Float64.toRat).sum))
              = (1 - 2 ^ (-53 : ℤ)) ^ cs.length * ((1 - 2 ^ (-53 : ℤ))
                * ((ma : ℚ) * 2 ^ xa + ((mc : ℚ) * 2 ^ xc
                  + (cs.filterMap Float64.toRat).sum))) := by ring
            _ ≤ (1 - 2 ^ (-53 : ℤ)) ^ cs.length
                * ((m' : ℚ) * 2 ^ x' + (cs.filterMap Float64.toRat).sum) := by
              apply mul_le_mul_of_nonneg_left _ hp
              linarith
            _ ≤ _ := lo
        · rw [List.filterMap_cons_some
              (show Float64.toRat (Float64.finite mc xc) = some _ from rfl),
            List.sum_cons, List.length_cons, pow_succ]
          have hs := sum_toRat_nonneg cs
          have hb2 := (abs_le.mp hb).2
          have hp : (0 : ℚ) ≤ (1 + 2 ^ (-53 : ℤ)) ^ cs.length := pow_nonneg (by linarith) _
          have hus : (0 : ℚ) ≤ 2 ^ (-53 : ℤ) * (cs.filterMap Float64.toRat).sum :=
            mul_nonneg hu0 hs
          calc (m : ℚ) * 2 ^ x
              ≤ (1 + 2 ^ (-53 : ℤ)) ^ cs.length
                * ((m' : ℚ) * 2 ^ x' + (cs.filterMap Float64.toRat).sum) := hi
            _ ≤ (1 + 2 ^ (-53 : ℤ)) ^ cs.length * ((1 + 2 ^ (-53 : ℤ))
                * ((ma : ℚ) * 2 ^ xa + ((mc : ℚ) * 2 ^ xc
                  + (cs.filterMap Float64.toRat).sum))) := by
              apply mul_le_mul_of_nonneg_left _ hp
              linarith
            _ = _ := by ring


theorem ParseFloat_none_finite (s : GoString) (c : Float64) (h : ParseFloat s = (c, none)) :
    ∃ (m : Nat) (x : ℤ), c = Float64.finite m x ∧ -1074 ≤ x := by
  unfold ParseFloat at h
  simp only at h
  split_ifs at h with hw
  · split at h
    · next mant exp hr =>
      simp only [Prod.mk.injEq, and_true] at h
      subst h
      exact ⟨mant, exp, rfl, (roundFloat64_error _ _ (by positivity) mant exp hr).1.1⟩
    · simp at h
  · simp at h

theorem wordConf_none_finite (title : GoString) (c : Float64)
    (h : wordConf title = Run.done (c, none)) :
    ∃ (m : Nat) (x : ℤ), c = Float64.finite m x ∧ -1074 ≤ x := by
  unfold wordConf at h
  simp only at h
  cases hi : index (FindStringSubmatch wconfRe title) 1 with
  | crash p =>
    rw [hi] at h
    simp [Run.bind] at h
  | done g =>
    rw [hi] at h
    simp only [Run.bind, Run.done.injEq] at h
    exact ParseFloat_none_finite g c h

/-- The quotient of the running sum by the count: `+Inf` when the running sum
has overflowed, and otherwise a finite `float64` whose value is the arithmetic
mean of the values up to the factors `(1 - 2 ^ (-53)) ^ (k + 1)` and
`(1 + 2 ^ (-53)) ^ (k + 1)` and the distance `2 ^ (-1075)`, for `k` numbers. -/
theorem fdiv_sum_count_bound (cs : List Float64)
    (hfin : ∀ c ∈ cs, ∃ m x, c = Float64.finite m x ∧ -1074 ≤ x)
    (h0 : cs.length ≠ 0) (hlen : cs.length ≤ 2 ^ 53) :
    (sumFloat cs = Float64.posInf
      ∧ fdiv (sumFloat cs) (countFloat cs.length) = Float64.posInf)
    ∨ ∃ (m : Nat) (x : ℤ),
        fdiv (sumFloat cs) (countFloat cs.length) = Float64.finite m x
        ∧ (1 - 2 ^ (-53 : ℤ)) ^ (cs.length + 1)
              * ((cs.filterMap Float64.toRat).sum / cs.length) - 2 ^ (-1075 : ℤ)
            ≤ (m : ℚ) * 2 ^ x
        ∧ (m : ℚ) * 2 ^ x
            ≤ (1 + 2 ^ (-53 : ℤ)) ^ (cs.length + 1)
              * ((cs.filterMap Float64.toRat).sum / cs.length) + 2 ^ (-1075 : ℤ) := by
  have hu0 : (0 : ℚ) ≤ 2 ^ (-53 : ℤ) := by positivity
  have hu1 : (2 : ℚ) ^ (-53 : ℤ) ≤ 1 := zpow_le_one_of_nonpos₀ (by norm_num) (by norm_num)
  obtain ⟨mn, xn, hn, vn, pn⟩ := ofNat_spec cs.length hlen
  have hmn : mn ≠ 0 := by
    have := pn (Nat.pos_of_ne_zero h0)
    omega
  have hnq : (1 : ℚ) ≤ (cs.length : ℚ) := by exact_mod_cast Nat.pos_of_ne_zero h0
  rw [countFloat_eq, Nat.min_eq_left hlen, hn]
  unfold sumFloat Float64.zero
  rcases foldl_fadd_bound cs 0 (-1074) ⟨le_refl _, by norm_num, by norm_num⟩ hfin with
    hinf | ⟨ms, xs, hs, hcan, lo, hi⟩
  · rw [hinf]
    exact Or.inl ⟨rfl, rfl⟩
  · right
    rw [hs]
    simp only [Nat.cast_zero, zero_mul, zero_add] at lo hi
    have hs0 := sum_toRat_nonneg cs
    have hS0 : (0 : ℚ) ≤ (ms : ℚ) * 2 ^ xs := by positivity
    -- the quotient is below the overflow threshold
    have hSle : (ms : ℚ) * 2 ^ xs ≤ (2 ^ 53 - 1) * 2 ^ 971 := by
      have h1 : (ms : ℚ) ≤ 2 ^ 53 - 1 := by
        have : ((ms + 1 : ℕ) : ℚ) ≤ ((2 ^ 53 : ℕ) : ℚ) := by exact_mod_cast hcan.2.2
        push_cast at this
        linarith
      have h2 : (2 : ℚ) ^ xs ≤ 2 ^ (971 : ℤ) :=
        zpow_le_zpow_right₀ (by norm_num) hcan.2.1
      rw [zpow_ofNat] at h2
      exact mul_le_mul h1 h2 (by positivity) (by norm_num)
    have hQle : ((ms : ℚ) * 2 ^ xs) / ((mn : ℚ) * 2 ^ xn) ≤ (ms : ℚ) * 2 ^ xs := by
      rw [vn]
      exact div_le_self hS0 hnq
    have hthr : ((ms : ℚ) * 2 ^ xs) / ((mn : ℚ) * 2 ^ xn) < 2 ^ 1024 - 2 ^ 970 := by
      have e1 : ((2 : ℚ) ^ 53 - 1) * 2 ^ 971 = 2 ^ 1024 - 2 ^ 971 := by
        rw [sub_mul, ← pow_add, one_mul]
      have e2 : (2 : ℚ) ^ 971 = 2 * 2 ^ 970 := by
        rw [show (971 : ℕ) = 970 + 1 from rfl, pow_succ]
        ring
      have hp : (0 : ℚ) < 2 ^ 970 := by positivity
      rw [e1] at hSle
      linarith
    have hd : 0 < 2 ^ (-xs).toNat * (mn * 2 ^ xn.toNat) := by
      have : 0 < mn := Nat.pos_of_ne_zero hmn
      positivity
    obtain ⟨m, x, hr, _⟩ := roundFloat64_finite_of_lt _ _ hd (by
      rw [fdiv_finite_ratio ms mn xs xn hmn]
      exact hthr)
    have hfd : fdiv (Float64.finite ms xs) (Float64.finite mn xn) = Float64.finite m x := by
      simp only [fdiv, hmn, if_false]
      exact hr
    have hb := fdiv_error ms mn xs xn hmn m x hfd
    rw [vn] at hb
    obtain ⟨hb1, hb2⟩ := abs_le.mp hb
    refine ⟨m, x, hfd, ?_, ?_⟩
    · have hp : (0 : ℚ) ≤ 1 - 2 ^ (-53 : ℤ) := by linarith
      have h3 : (1 - 2 ^ (-53 : ℤ)) ^ (cs.length + 1)
            * ((cs.filterMap Float64.toRat).sum / cs.length)
          ≤ (1 - 2 ^ (-53 : ℤ)) * (((ms : ℚ) * 2 ^ xs) / cs.length) := by
        have hq : (1 - 2 ^ (-53 : ℤ)) ^ cs.length * (cs.filterMap Float64.toRat).sum
            / cs.length ≤ ((ms : ℚ) * 2 ^ xs) / cs.length :=
          div_le_div_of_nonneg_right lo (by linarith)
        calc (1 - 2 ^ (-53 : ℤ)) ^ (cs.length + 1)
              * ((cs.filterMap Float64.toRat).sum / cs.length)
            = (1 - 2 ^ (-53 : ℤ)) * ((1 - 2 ^ (-53 : ℤ)) ^ cs.length
              * (cs.filterMap Float64.toRat).sum / cs.length) := by
              rw [pow_succ]
              ring
          _ ≤ _ := mul_le_mul_of_nonneg_left hq hp
      linarith
    · have hp : (0 : ℚ) ≤ 1 + 2 ^ (-53 : ℤ) := by linarith
      have h3 : (1 + 2 ^ (-53 : ℤ)) * (((ms : ℚ) * 2 ^ xs) / cs.length)
          ≤ (1 + 2 ^ (-53 : ℤ)) ^ (cs.length + 1)
            * ((cs.filterMap Float64.toRat).sum / cs.length) := by
        have hq : ((ms : ℚ) * 2 ^ xs) / cs.length
            ≤ (1 + 2 ^ (-53 : ℤ)) ^ cs.length * (cs.filterMap Float64.toRat).sum
              / cs.length :=
          div_le_div_of_nonneg_right hi (by linarith)
        calc (1 + 2 ^ (-53 : ℤ)) * (((ms : ℚ) * 2 ^ xs) / cs.length)
            ≤ (1 + 2 ^ (-53 : ℤ)) * ((1 + 2 ^ (-53 : ℤ)) ^ cs.length
              * (cs.filterMap Float64.toRat).sum / cs.length) :=
              mul_le_mul_of_nonneg_left hq hp
          _ = _ := by
              rw [pow_succ]
              ring
      linarith

theorem confs_finite (ws : List OcrWord) (cs : List Float64)
    (hcs : List.Forall₂ (fun w c => wordConf w.Title = Run.done (c, none)) ws cs) :
    ∀ c ∈ cs, ∃ (m : Nat) (x : ℤ), c = Float64.finite m x ∧ -1074 ≤ x := by
  induction hcs with
  | nil =>
    intro c hc
    exact absurd hc (List.not_mem_nil c)
  | cons hwc _ ih =>
    intro c hc
    rcases List.mem_cons.mp hc with rfl | hc
    · exact wordConf_none_finite _ _ hwc
    · exact ih c hc

theorem map_toRat_of_finite (cs : List Float64)
    (h : ∀ c ∈ cs, ∃ (m : Nat) (x : ℤ), c = Float64.finite m x ∧ -1074 ≤ x) :
    cs.map Float64.toRat = (cs.filterMap Float64.toRat).map some := by
  induction cs with
  | nil => rfl
  | cons c cs ih =>
    obtain ⟨m, x, rfl, _⟩ := h c (List.mem_cons_self _ _)
    rw [List.filterMap_cons_some (show Float64.toRat (Float64.finite m x) = some _ from rfl),
      List.map_cons, List.map_cons, ih fun d hd => h d (List.mem_cons_of_mem _ hd)]
    rfl

set_option maxRecDepth 20000 in
set_option exponentiation.threshold 2000 in
/-- C11, as amended.  When the file is read and parsed without error, the
document has at least one word and `wordConf` returns a confidence and no error
on the title of every word, `GetAvgConf` returns no error and the quotient, in
`float64`, of the running `float64` sum of the confidences, added in document
order, by the `float64` count of the words (the counter `num`, which equals the
number of words up to `2 ^ 53` words).  Every confidence is a finite `float64`.
With `k` words, `k` at most `2 ^ 53`, the result is `+Inf` when the running sum
has overflowed, and otherwise it is a finite `float64` that is the arithmetic
mean of the confidences, their sum divided by `k`, up to rounding: it lies
between `(1 - 2 ^ (-53)) ^ (k + 1)` times the mean less `2 ^ (-1075)` and
`(1 + 2 ^ (-53)) ^ (k + 1)` times the mean plus `2 ^ (-1075)`.  For confidences
that are whole numbers with a sum up to `2 ^ 53` the result is the arithmetic
mean rounded once to `float64`.  For the word confidences `90` and `80` the
result is `85`. -/
theorem GetAvgConf_mean {Bytes : Type}
    (ReadFile : GoString → Bytes × Option GoError) (Parse : Bytes → Hocr × Option GoError)
    (hocrfn : GoString) (file : Bytes) (h : Hocr)
    (hread : ReadFile hocrfn = (file, none)) (hparse : Parse file = (h, none))
    (hconf : ∀ p ∈ h.Pages, ∀ l ∈ p.Lines, ∀ w ∈ l.Words,
      ∃ c, wordConf w.Title = Run.done (c, none))
    (hne : allWords h.Pages ≠ []) :
    (∃ cs, List.Forall₂ (fun w c => wordConf w.Title = Run.done (c, none))
        (allWords h.Pages) cs
      ∧ GetAvgConf ReadFile Parse hocrfn
          = Run.done (fdiv (sumFloat cs) (countFloat cs.length), none)
      ∧ (cs.length ≤ 2 ^ 53 → countFloat cs.length = Float64.ofNat cs.length
          ∧ (Float64.ofNat cs.length).toRat = some (cs.length : ℚ))
      ∧ (∀ as : List Nat, cs = as.map Float64.ofNat → as.sum ≤ 2 ^ 53 → as.length ≤ 2 ^ 53 →
          GetAvgConf ReadFile Parse hocrfn = Run.done (roundFloat64 as.sum as.length, none))
      ∧ cs.map Float64.toRat = (cs.filterMap Float64.toRat).map some
      ∧ (cs.length ≤ 2 ^ 53 →
          (sumFloat cs = Float64.posInf
            ∧ GetAvgConf ReadFile Parse hocrfn = Run.done (Float64.posInf, none))
          ∨ ∃ (m : Nat) (x : ℤ),
              GetAvgConf ReadFile Parse hocrfn = Run.done (Float64.finite m x, none)
              ∧ (1 - 2 ^ (-53 : ℤ)) ^ (cs.length + 1)
                    * ((cs.filterMap Float64.toRat).sum / cs.length) - 2 ^ (-1075 : ℤ)
                  ≤ (m : ℚ) * 2 ^ x
              ∧ (m : ℚ) * 2 ^ x
                  ≤ (1 + 2 ^ (-53 : ℤ)) ^ (cs.length + 1)
                    * ((cs.filterMap Float64.toRat).sum / cs.length) + 2 ^ (-1075 : ℤ)))
    ∧ GetAvgConf (fun _ => ((), none)) (fun _ => (exampleDocTwoWords, none)) "f.hocr".toList
        = Run.done (Float64.finite (85 * 2 ^ 46) (-46), none)
    ∧ (Float64.finite (85 * 2 ^ 46) (-46)).toRat = some 85 := by
  obtain ⟨cs, hcs⟩ := exists_confs_of_forall (allWords h.Pages) (by
    intro w hw
    obtain ⟨p, hp, l, hl, hw⟩ := (mem_allWords _ _).mp hw
    exact hconf p hp l hl w hw)
  have hlen : cs.length ≠ 0 := by
    rw [← hcs.length_eq]
    exact fun e => hne (List.length_eq_zero.mp e)
  have hres := GetAvgConf_ok ReadFile Parse hocrfn file h cs hread hparse hcs
  rw [if_neg hlen] at hres
  have hfin := confs_finite _ _ hcs
  refine ⟨⟨cs, hcs, hres, ?_, ?_, map_toRat_of_finite cs hfin, ?_⟩, by decide,
    by simp only [Float64.toRat, Option.some.injEq]; norm_num⟩
  · intro hle
    rw [countFloat_eq, Nat.min_eq_left hle]
    exact ⟨rfl, ofNat_toRat _ hle⟩
  · intro as has hsum hl
    have hl' : cs.length = as.length := by rw [has, List.length_map]
    rw [hres, hl', countFloat_eq, Nat.min_eq_left hl, has, sumFloat_ofNat as hsum,
      fdiv_ofNat _ _ hsum hl (by omega)]
  · intro hle
    rcases fdiv_sum_count_bound cs hfin hlen hle with ⟨hs, hf⟩ | ⟨m, x, hf, lo, hi⟩
    · exact Or.inl ⟨hs, by rw [hres, hf]⟩
    · exact Or.inr ⟨m, x, by rw [hres, hf], lo, hi⟩

/-- Witness for C11 as amended: the document with the word confidences `90`
and `80`, whose exact mean `170 / 2` rounds to `85`. -/
theorem GetAvgConf_mean_witness :
    (∀ p ∈ exampleDocTwoWords.Pages, ∀ l ∈ p.Lines, ∀ w ∈ l.Words,
      ∃ c, wordConf w.Title = Run.done (c, none))
    ∧ allWords exampleDocTwoWords.Pages ≠ []
    ∧ ((∃ cs, List.Forall₂ (fun w c => wordConf w.Title = Run.done (c, none))
          (allWords exampleDocTwoWords.Pages) cs
        ∧ GetAvgConf (fun _ => ((), none)) (fun _ => (exampleDocTwoWords, none))
            "f.hocr".toList
            = Run.done (fdiv (sumFloat cs) (countFloat cs.length), none)
        ∧ (cs.length ≤ 2 ^ 53 → countFloat cs.length = Float64.ofNat cs.length
            ∧ (Float64.ofNat cs.length).toRat = some (cs.length : ℚ))
        ∧ (∀ as : List Nat, cs = as.map Float64.ofNat → as.sum ≤ 2 ^ 53 →
            as.length ≤ 2 ^ 53 →
            GetAvgConf (fun _ => ((), none)) (fun _ => (exampleDocTwoWords, none))
              "f.hocr".toList
              = Run.done (roundFloat64 as.sum as.length, none))
        ∧ cs.map Float64.toRat = (cs.filterMap Float64.toRat).map some
        ∧ (cs.length ≤ 2 ^ 53 →
            (sumFloat cs = Float64.posInf
              ∧ GetAvgConf (fun _ => ((), none)) (fun _ => (exampleDocTwoWords, none))
                  "f.hocr".toList = Run.done (Float64.posInf, none))
            ∨ ∃ (m : Nat) (x : ℤ),
                GetAvgConf (fun _ => ((), none)) (fun _ => (exampleDocTwoWords, none))
                  "f.hocr".toList = Run.done (Float64.finite m x, none)
                ∧ (1 - 2 ^ (-53 : ℤ)) ^ (cs.length + 1)
                      * ((cs.filterMap Float64.toRat).sum / cs.length) - 2 ^ (-1075 : ℤ)
                    ≤ (m : ℚ) * 2 ^ x
                ∧ (m : ℚ) * 2 ^ x
                    ≤ (1 + 2 ^ (-53 : ℤ)) ^ (cs.length + 1)
                      * ((cs.filterMap Float64.toRat).sum / cs.length) + 2 ^ (-1075 : ℤ)))
      ∧ GetAvgConf (fun _ => ((), none)) (fun _ => (exampleDocTwoWords, none)) "f.hocr".toList
          = Run.done (Float64.finite (85 * 2 ^ 46) (-46), none)
      ∧ (Float64.finite (85 * 2 ^ 46) (-46)).toRat = some 85)
    ∧ roundFloat64 [90, 80].sum [90, 80].length = Float64.finite (85 * 2 ^ 46) (-46) :=
  have hconf : ∀ p ∈ exampleDocTwoWords.Pages, ∀ l ∈ p.Lines, ∀ w ∈ l.Words,
      ∃ c, wordConf w.Title = Run.done (c, none) :=
    fun p hp l hl w hw => (parsesConf_iff _).mpr
      ((by decide : ∀ p ∈ exampleDocTwoWords.Pages, ∀ l ∈ p.Lines, ∀ w ∈ l.Words,
        parsesConf w.Title = true) p hp l hl w hw)
  have hne : allWords exampleDocTwoWords.Pages ≠ [] := List.cons_ne_nil _ _
  ⟨hconf, hne,
    GetAvgConf_mean (fun _ => ((), none)) (fun _ => (exampleDocTwoWords, none))
      "f.hocr".toList () exampleDocTwoWords rfl rfl hconf hne,
    by decide⟩

theorem fadd_zero_normal (m : Nat) (x : ℤ) (hm : 2 ^ 52 ≤ m ∧ m < 2 ^ 53)
    (hx : -1074 ≤ x ∧ x ≤ 971) :
    fadd Float64.zero (Float64.finite m x) = Float64.finite m x := by
  have hv : ((m * 2 ^ x.toNat : ℕ) : ℚ) / ((2 ^ (-x).toNat : ℕ) : ℚ) = (m : ℚ) * 2 ^ x := by
    rw [zpow_two_eq]
    push_cast
    ring
  unfold Float64.zero
  rw [fadd_eq_round 0 m (-1074) x (m * 2 ^ x.toNat) (2 ^ (-x).toNat) (by positivity)
    (by rw [hv]; simp)]
  exact roundFloat64_exact _ _ m x (by positivity) hm hx hv

set_option maxRecDepth 20000 in
set_option exponentiation.threshold 4000 in
theorem wordConf_exampleTitleHuge :
    wordConf exampleTitleHuge = Run.done (Float64.finite 5010420900022432 971, none) := by
  decide

set_option maxRecDepth 20000 in
set_option exponentiation.threshold 4000 in
theorem fadd_huge_overflow :
    fadd (Float64.finite 5010420900022432 971) (Float64.finite 5010420900022432 971)
      = Float64.posInf := by
  decide

set_option maxRecDepth 20000 in
set_option exponentiation.threshold 4000 in
theorem countFloat_two : countFloat 2 = Float64.finite (2 ^ 52) (-51) := by
  decide

set_option maxRecDepth 20000 in
set_option exponentiation.threshold 4000 in
/-- Counterexample for C11 as stated.  For two words of confidence `1e308`,
each parsed without error to the same finite `float64`, whose arithmetic mean is
that number, `GetAvgConf` returns `+Inf` and no error: the sum overflows.  For
the word confidences `0.1`, `0.2`, `0.3` the sum of the three parsed numbers
divided by three rounds to the `float64` `7205759403792794 * 2 ^ (-55)`, and
`GetAvgConf` returns the next one, `7205759403792795 * 2 ^ (-55)`: each addition
is rounded. -/
theorem GetAvgConf_not_arithmetic_mean :
    (∀ p ∈ exampleDocHugeConf.Pages, ∀ l ∈ p.Lines, ∀ w ∈ l.Words,
      wordConf w.Title = Run.done (Float64.finite 5010420900022432 971, none))
    ∧ GetAvgConf (fun _ => ((), none)) (fun _ => (exampleDocHugeConf, none)) "f.hocr".toList
        = Run.done (Float64.posInf, none)
    ∧ Float64.posInf.toRat = none
    ∧ (wordConf "x_wconf 0.1".toList = Run.done (Float64.finite 7205759403792794 (-56), none)
      ∧ wordConf "x_wconf 0.2".toList = Run.done (Float64.finite 7205759403792794 (-55), none)
      ∧ wordConf "x_wconf 0.3".toList = Run.done (Float64.finite 5404319552844595 (-54), none))
    ∧ ((7205759403792794 : ℚ) * 2 ^ (-56 : ℤ) + 7205759403792794 * 2 ^ (-55 : ℤ)
          + 5404319552844595 * 2 ^ (-54 : ℤ)) / 3
        = ((7205759403792794 + 2 * 7205759403792794 + 4 * 5404319552844595 : ℕ) : ℚ)
          / ((3 * 2 ^ 56 : ℕ) : ℚ)
    ∧ roundFloat64 (7205759403792794 + 2 * 7205759403792794 + 4 * 5404319552844595)
          (3 * 2 ^ 56)
        = Float64.finite 7205759403792794 (-55)
    ∧ GetAvgConf (fun _ => ((), none)) (fun _ => (exampleDocTenths, none)) "f.hocr".toList
        = Run.done (Float64.finite 7205759403792795 (-55), none)
    ∧ Float64.finite 7205759403792795 (-55) ≠ Float64.finite 7205759403792794 (-55) := by
  have hw : ∀ p ∈ exampleDocHugeConf.Pages, ∀ l ∈ p.Lines, ∀ w ∈ l.Words,
      wordConf w.Title = Run.done (Float64.finite 5010420900022432 971, none) := by
    intro p hp l hl w hw
    simp only [exampleDocHugeConf, List.mem_singleton] at hp
    subst hp
    simp only [List.mem_singleton] at hl
    subst hl
    simp only [exampleLine, List.mem_cons, List.mem_singleton, List.not_mem_nil,
      or_false] at hw
    rcases hw with rfl | rfl <;> exact wordConf_exampleTitleHuge
  have hhuge : GetAvgConf (fun _ => ((), none)) (fun _ => (exampleDocHugeConf, none))
      "f.hocr".toList = Run.done (Float64.posInf, none) := by
    have hcs : List.Forall₂ (fun w c => wordConf w.Title = Run.done (c, none))
        (allWords exampleDocHugeConf.Pages)
        [Float64.finite 5010420900022432 971, Float64.finite 5010420900022432 971] :=
      List.Forall₂.cons wordConf_exampleTitleHuge
        (List.Forall₂.cons wordConf_exampleTitleHuge List.Forall₂.nil)
    rw [GetAvgConf_ok (fun _ => ((), none)) (fun _ => (exampleDocHugeConf, none))
      "f.hocr".toList () exampleDocHugeConf _ rfl rfl hcs]
    rw [if_neg (by simp)]
    have hs : ∀ a b : Float64, sumFloat [a, b] = fadd (fadd Float64.zero a) b :=
      fun _ _ => rfl
    have hn : [Float64.finite 5010420900022432 971, Float64.finite 5010420900022432 971].length
        = 2 := rfl
    rw [hs, hn, fadd_zero_normal _ _ (by norm_num) (by norm_num), fadd_huge_overflow,
      countFloat_two]
    rfl
  refine ⟨hw, hhuge, rfl, ⟨by decide, by decide, by decide⟩, ?_, by decide,
    by decide, by decide⟩
  norm_num

/-- Witness for C12: the document of two pages without any word gives the
error `No words found`, and the document with three words of confidence zero
gives zero and no error. -/
theorem GetAvgConf_noWordsFound_iff_witness :
    (∀ p ∈ exampleDocNoWords.Pages, ∀ l ∈ p.Lines, ∀ w ∈ l.Words,
      ∃ c, wordConf w.Title = Run.done (c, none))
    ∧ allWords exampleDocNoWords.Pages = []
    ∧ GetAvgConf (fun _ => ((), none)) (fun _ => (exampleDocNoWords, none)) "f.hocr".toList
        = Run.done (Float64.zero, some GoError.noWordsFound)
    ∧ (∀ p ∈ exampleDocZeroConf.Pages, ∀ l ∈ p.Lines, ∀ w ∈ l.Words,
      ∃ c, wordConf w.Title = Run.done (c, none))
    ∧ allWords exampleDocZeroConf.Pages ≠ []
    ∧ GetAvgConf (fun _ => ((), none)) (fun _ => (exampleDocZeroConf, none)) "f.hocr".toList
        = Run.done (Float64.zero, none) :=
  have hconf : ∀ p ∈ exampleDocNoWords.Pages, ∀ l ∈ p.Lines, ∀ w ∈ l.Words,
      ∃ c, wordConf w.Title = Run.done (c, none) :=
    fun p hp l hl w hw => (parsesConf_iff _).mpr
      ((by decide : ∀ p ∈ exampleDocNoWords.Pages, ∀ l ∈ p.Lines, ∀ w ∈ l.Words,
        parsesConf w.Title = true) p hp l hl w hw)
  have hconf0 : ∀ p ∈ exampleDocZeroConf.Pages, ∀ l ∈ p.Lines, ∀ w ∈ l.Words,
      ∃ c, wordConf w.Title = Run.done (c, none) :=
    fun p hp l hl w hw => (parsesConf_iff _).mpr
      ((by decide : ∀ p ∈ exampleDocZeroConf.Pages, ∀ l ∈ p.Lines, ∀ w ∈ l.Words,
        parsesConf w.Title = true) p hp l hl w hw)
  have hne : allWords exampleDocZeroConf.Pages ≠ [] := List.cons_ne_nil _ _
  ⟨hconf, rfl,
    (GetAvgConf_noWordsFound_iff (fun _ => ((), none)) (fun _ => (exampleDocNoWords, none))
      "f.hocr".toList () exampleDocNoWords rfl rfl hconf).2.2.1 rfl,
    hconf0, hne,
    (GetAvgConf_noWordsFound_iff (fun _ => ((), none)) (fun _ => (exampleDocZeroConf, none))
      "f.hocr".toList () exampleDocZeroConf rfl rfl hconf0).2.2.2.2 hne (by
        intro w hw
        have hw' : w ∈ [exampleWord "x_wconf 0".toList "a".toList,
            exampleWord "x_wconf 0.0".toList "b".toList,
            exampleWord "x_wconf 0".toList "c".toList] := hw
        simp only [List.mem_cons, List.mem_singleton, List.not_mem_nil, or_false] at hw'
        rcases hw' with rfl | rfl | rfl <;> decide)⟩

/-! ## `wordConf` on a numeral and the leftmost bbox token: the claims -/

theorem numeral_class (ip fp : GoString) (hip : IsDigits ip)
    (hfp : ∀ c ∈ fp, isDigit c = true) :
    numeral ip fp ≠ [] ∧ ∀ c ∈ numeral ip fp, isDigitOrDot c = true := by
  obtain ⟨hne, hd⟩ := hip
  unfold numeral
  split
  · exact ⟨hne, fun c hc => by simp [isDigitOrDot, hd c hc]⟩
  · refine ⟨by simp, ?_⟩
    intro c hc
    simp only [List.mem_append, List.mem_cons] at hc
    rcases hc with hc | rfl | hc
    · simp [isDigitOrDot, hd c hc]
    · decide
    · simp [isDigitOrDot, hfp c hc]

/-- C17, as amended.  When the leftmost x_wconf token of a title is
`x_wconf N` (no x_wconf token starts before it), `N` is a decimal numeral
(digits, optionally one `.` and digits) that is not directly followed by one
more digit or `.`, and the number that `N` denotes is below the overflow
threshold `2 ^ 1024 - 2 ^ 970`, `wordConf` returns no error and the number
rounded to `float64`: a `float64` within half a unit in its last place of the
number, and the number itself when it is a normal `float64`, in particular for
every whole number up to `2 ^ 53`. -/
theorem wordConf_leftmost_numeral (pre post ip fp : GoString)
    (hip : IsDigits ip) (hfp : ∀ c ∈ fp, isDigit c = true)
    (hleft : ∀ i, i < pre.length →
      ¬ WConfAt ((pre ++ ("x_wconf ".toList ++ (numeral ip fp ++ post))).drop i))
    (hpost : ∀ c, post.head? = some c → isDigitOrDot c = false)
    (hrange : decimalValue ip fp < 2 ^ 1024 - 2 ^ 970) :
    ∃ (m : Nat) (x : ℤ),
      wordConf (pre ++ ("x_wconf ".toList ++ (numeral ip fp ++ post)))
        = Run.done (Float64.finite m x, none)
      ∧ Float64.finite m x = roundFloat64 (digitsVal (ip ++ fp)) (10 ^ fp.length)
      ∧ |(m : ℚ) * 2 ^ x - decimalValue ip fp| ≤ 2 ^ x / 2
      ∧ (∀ (m' : Nat) (x' : ℤ), 2 ^ 52 ≤ m' ∧ m' < 2 ^ 53 → -1074 ≤ x' ∧ x' ≤ 971 →
          decimalValue ip fp = m' * 2 ^ x' → m = m' ∧ x = x')
      ∧ (fp = [] → digitsVal ip ≤ 2 ^ 53 →
          (Float64.finite m x).toRat = some (digitsVal ip : ℚ)) := by
  have hcast : decimalValue ip fp
      = ((digitsVal (ip ++ fp) : ℕ) : ℚ) / ((10 ^ fp.length : ℕ) : ℚ) := by
    unfold decimalValue
    push_cast
    rfl
  have hden : 0 < 10 ^ fp.length := by positivity
  rw [hcast] at hrange
  obtain ⟨m, x, hr, hb⟩ := roundFloat64_finite_of_lt _ _ hden hrange
  obtain ⟨hne, hcls⟩ := numeral_class ip fp hip hfp
  refine ⟨m, x, ?_, hr.symm, by rw [hcast]; exact hb, ?_, ?_⟩
  · rw [wordConf_of_leftmost pre post _ hne hcls hleft hpost,
      (ParseFloat_numeral ip fp hip hfp _ hr).1 m x rfl]
  · intro m' x' hm' hx' hv
    rw [hcast] at hv
    have := roundFloat64_exact _ _ m' x' hden hm' hx' hv
    rw [hr] at this
    simp only [Float64.finite.injEq] at this
    exact this
  · intro hf hle
    subst hf
    simp only [List.append_nil, List.length_nil, pow_zero] at hr
    have h1 := ofNat_toRat (digitsVal ip) hle
    rw [Float64.ofNat, hr] at h1
    exact h1

/-- Witness for C17 as amended: the titles `"bbox 1 2 3 4; x_wconf 93"` and
`"x_wconf 87.5"`. -/
theorem wordConf_leftmost_numeral_witness :
    (IsDigits "93".toList
      ∧ decimalValue "93".toList [] < 2 ^ 1024 - 2 ^ 970)
    ∧ (∃ (m : Nat) (x : ℤ),
      wordConf ("bbox 1 2 3 4; ".toList ++ ("x_wconf ".toList ++ (numeral "93".toList [] ++ [])))
        = Run.done (Float64.finite m x, none)
      ∧ Float64.finite m x = roundFloat64 (digitsVal ("93".toList ++ [])) (10 ^ ([] : GoString).length)
      ∧ |(m : ℚ) * 2 ^ x - decimalValue "93".toList []| ≤ 2 ^ x / 2
      ∧ (∀ (m' : Nat) (x' : ℤ), 2 ^ 52 ≤ m' ∧ m' < 2 ^ 53 → -1074 ≤ x' ∧ x' ≤ 971 →
          decimalValue "93".toList [] = m' * 2 ^ x' → m = m' ∧ x = x')
      ∧ (([] : GoString) = [] → digitsVal "93".toList ≤ 2 ^ 53 →
          (Float64.finite m x).toRat = some (digitsVal "93".toList : ℚ)))
    ∧ wordConf "bbox 1 2 3 4; x_wconf 93".toList = Run.done (Float64.finite (93 * 2 ^ 46) (-46), none)
    ∧ wordConf "x_wconf 87.5".toList = Run.done (Float64.finite (175 * 2 ^ 45) (-46), none) :=
  have hrange : decimalValue "93".toList [] < 2 ^ 1024 - 2 ^ 970 := by
    have e : decimalValue "93".toList [] = 93 := by
      simp [decimalValue, digitsVal, digitVal]
    rw [e]
    have h1 : (2 : ℚ) ^ 1024 = 2 ^ 54 * 2 ^ 970 := by rw [← pow_add]
    have h2 : (1 : ℚ) ≤ 2 ^ 970 := one_le_pow₀ (by norm_num)
    rw [h1]
    nlinarith
  ⟨⟨⟨by decide, by decide⟩, hrange⟩,
    wordConf_leftmost_numeral "bbox 1 2 3 4; ".toList [] "93".toList []
      ⟨by decide, by decide⟩ (by simp)
      (by
        intro i hi
        rw [← matchHere_wconfRe_iff, not_not]
        have hi' : i < 14 := hi
        interval_cases i <;> decide)
      (by simp) hrange,
    by decide, by decide⟩

set_option maxRecDepth 20000 in
set_option exponentiation.threshold 2000 in
/-- Counterexample for C17 as stated: the title made of `x_wconf ` and the
numeral `1` followed by 309 zeros is answered with `+Inf` and a range error;
the title `"x_wconf 1.5.2"`, which contains `x_wconf 1.5`, is answered with a
syntax error; the title `"x_wconf 7; x_wconf 5"`, which contains `x_wconf 5`,
is answered with `7`; and for `"x_wconf 0.1"` the result is not the number
`1/10` but the `float64` next to it. -/
theorem wordConf_not_every_numeral :
    wordConf ("x_wconf ".toList ++ numeral ('1' :: List.replicate 309 '0') [])
        = Run.done (Float64.posInf, some GoError.rangeError)
    ∧ "x_wconf 1.5.2".toList = "x_wconf ".toList ++ (numeral "1".toList "5".toList ++ ".2".toList)
    ∧ wordConf "x_wconf 1.5.2".toList = Run.done (Float64.zero, some GoError.syntaxError)
    ∧ "x_wconf 7; x_wconf 5".toList
        = "x_wconf 7; ".toList ++ ("x_wconf ".toList ++ (numeral "5".toList [] ++ []))
    ∧ wordConf "x_wconf 7; x_wconf 5".toList = Run.done (Float64.finite (7 * 2 ^ 50) (-50), none)
    ∧ wordConf "x_wconf 0.1".toList = Run.done (Float64.finite 7205759403792794 (-56), none)
    ∧ (Float64.finite 7205759403792794 (-56)).toRat ≠ some (1 / 10) := by
  refine ⟨by decide, by decide, by decide, by decide, by decide, by decide, ?_⟩
  simp only [Float64.toRat, ne_eq, Option.some.injEq]
  norm_num

/-- C19, as amended.  When the leftmost bbox token of a title is
`bbox g1 g2 g3 g4` (no bbox token starts before it, and `g4` is the whole run of
digits: the token is not directly followed by one more digit), the result of
`BoxCoords` is fixed by that token, whatever the text before it and the text
after it, so whatever later bbox tokens the title has.  When the four numbers
all fit in an `int` it is the coordinates of that token, the four numbers
`g1 g2 g3 g4`, with no error; otherwise it is a range error with the numbers
before the first one that does not fit and zero from there on.  It is also what
`BoxCoords` returns on the token alone, and on every other title with the same
leftmost token. -/
theorem BoxCoords_of_first_match (pre post g1 g2 g3 g4 : GoString)
    (h1 : IsDigits g1) (h2 : IsDigits g2) (h3 : IsDigits g3) (h4 : IsDigits g4)
    (hleft : ∀ i, i < pre.length → ¬ BBoxAt ((pre ++ (bboxToken g1 g2 g3 g4 ++ post)).drop i))
    (hpost : ∀ c, post.head? = some c → isDigit c = false) :
    BoxCoords (pre ++ (bboxToken g1 g2 g3 g4 ++ post))
      = Run.done (
          if maxInt < digitsVal g1 then ([0, 0, 0, 0], some GoError.rangeError)
          else if maxInt < digitsVal g2 then
            ([(digitsVal g1 : Int), 0, 0, 0], some GoError.rangeError)
          else if maxInt < digitsVal g3 then
            ([(digitsVal g1 : Int), (digitsVal g2 : Int), 0, 0], some GoError.rangeError)
          else if maxInt < digitsVal g4 then
            ([(digitsVal g1 : Int), (digitsVal g2 : Int), (digitsVal g3 : Int), 0],
              some GoError.rangeError)
          else
            ([(digitsVal g1 : Int), (digitsVal g2 : Int), (digitsVal g3 : Int),
              (digitsVal g4 : Int)], none))
    ∧ (digitsVal g1 ≤ maxInt → digitsVal g2 ≤ maxInt → digitsVal g3 ≤ maxInt →
        digitsVal g4 ≤ maxInt →
        BoxCoords (pre ++ (bboxToken g1 g2 g3 g4 ++ post))
          = Run.done ([(digitsVal g1 : Int), (digitsVal g2 : Int), (digitsVal g3 : Int),
              (digitsVal g4 : Int)], none))
    ∧ BoxCoords (pre ++ (bboxToken g1 g2 g3 g4 ++ post)) = BoxCoords (bboxToken g1 g2 g3 g4)
    ∧ (∀ pre' post' : GoString,
        (∀ i, i < pre'.length →
          ¬ BBoxAt ((pre' ++ (bboxToken g1 g2 g3 g4 ++ post')).drop i)) →
        (∀ c, post'.head? = some c → isDigit c = false) →
        BoxCoords (pre' ++ (bboxToken g1 g2 g3 g4 ++ post'))
          = BoxCoords (pre ++ (bboxToken g1 g2 g3 g4 ++ post))) := by
  have key : ∀ pre' post' : GoString,
      (∀ i, i < pre'.length →
        ¬ BBoxAt ((pre' ++ (bboxToken g1 g2 g3 g4 ++ post')).drop i)) →
      (∀ c, post'.head? = some c → isDigit c = false) →
      BoxCoords (pre' ++ (bboxToken g1 g2 g3 g4 ++ post'))
        = Run.done (
            if maxInt < digitsVal g1 then ([0, 0, 0, 0], some GoError.rangeError)
            else if maxInt < digitsVal g2 then
              ([(digitsVal g1 : Int), 0, 0, 0], some GoError.rangeError)
            else if maxInt < digitsVal g3 then
              ([(digitsVal g1 : Int), (digitsVal g2 : Int), 0, 0], some GoError.rangeError)
            else if maxInt < digitsVal g4 then
              ([(digitsVal g1 : Int), (digitsVal g2 : Int), (digitsVal g3 : Int), 0],
                some GoError.rangeError)
            else
              ([(digitsVal g1 : Int), (digitsVal g2 : Int), (digitsVal g3 : Int),
                (digitsVal g4 : Int)], none)) := by
    intro pre' post' hleft' hpost'
    have hfind : FindStringSubmatch bboxRe (pre' ++ (bboxToken g1 g2 g3 g4 ++ post'))
        = FindStringSubmatch bboxRe (bboxToken g1 g2 g3 g4 ++ post') := by
      apply FindStringSubmatch_append_of_none
      intro i hi
      rw [submatchHere_eq_none_iff]
      by_contra hm
      exact hleft' i hi ((matchHere_bboxRe_iff _).mp hm)
    have htake : post'.takeWhile isDigit = [] := by
      cases post' with
      | nil => rfl
      | cons c cs => simp [List.takeWhile, hpost' c rfl]
    have hsub : FindStringSubmatch bboxRe (bboxToken g1 g2 g3 g4 ++ post')
        = [(bboxToken g1 g2 g3 g4 ++ post').take
            ((bboxToken g1 g2 g3 g4 ++ post').length - (post'.dropWhile isDigit).length),
          g1, g2, g3, g4] := by
      apply FindStringSubmatch_of_some
      unfold submatchHere
      rw [matchHere_bboxToken g1 g2 g3 g4 post' h1 h2 h3 h4, htake, List.append_nil]
    exact BoxCoords_of_submatch _ _ g1 g2 g3 g4 (hfind.trans hsub) h1 h2 h3 h4
  have r1 := key pre post hleft hpost
  have r0 := key [] [] (by simp) (by simp)
  rw [List.nil_append, List.append_nil] at r0
  refine ⟨r1, ?_, r1.trans r0.symm, fun pre' post' hl hp => (key pre' post' hl hp).trans r1.symm⟩
  intro f1 f2 f3 f4
  rw [r1, if_neg (Nat.not_lt.mpr f1), if_neg (Nat.not_lt.mpr f2), if_neg (Nat.not_lt.mpr f3),
    if_neg (Nat.not_lt.mpr f4)]

/-- Witness for C19 as amended: titles with two bbox tokens; the result is the
coordinates of the first one, `(1, 2, 3, 4)` in the first title and
`(7, 8, 9, 10)` in the second, and a range error with `(1, 2, 3, 0)` in the
third, whose first token has a fourth number above the largest `int`. -/
theorem BoxCoords_of_first_match_witness :
    (IsDigits "1".toList ∧ IsDigits "2".toList ∧ IsDigits "3".toList ∧ IsDigits "4".toList)
    ∧ HasBBox "; bbox 10 20 300 400".toList
    ∧ (digitsVal "1".toList = 1 ∧ digitsVal "2".toList = 2 ∧ digitsVal "3".toList = 3
      ∧ digitsVal "4".toList = 4)
    ∧ BoxCoords ("x ".toList ++
          (bboxToken "1".toList "2".toList "3".toList "4".toList
            ++ "; bbox 10 20 300 400".toList))
        = Run.done ([(digitsVal "1".toList : Int), (digitsVal "2".toList : Int),
            (digitsVal "3".toList : Int), (digitsVal "4".toList : Int)], none)
    ∧ BoxCoords "x bbox 1 2 3 4; bbox 10 20 300 400".toList = Run.done ([1, 2, 3, 4], none)
    ∧ BoxCoords "bbox 7 8 9 10 bbox 1 2 3 4".toList = Run.done ([7, 8, 9, 10], none)
    ∧ BoxCoords "bbox 1 2 3 99999999999999999999; bbox 5 6 7 8".toList
        = Run.done ([1, 2, 3, 0], some GoError.rangeError) :=
  ⟨⟨⟨by decide, by decide⟩, ⟨by decide, by decide⟩, ⟨by decide, by decide⟩,
      ⟨by decide, by decide⟩⟩,
    (HasBBox_iff _).mpr (by decide),
    ⟨by decide, by decide, by decide, by decide⟩,
    (BoxCoords_of_first_match "x ".toList "; bbox 10 20 300 400".toList
      "1".toList "2".toList "3".toList "4".toList
      ⟨by decide, by decide⟩ ⟨by decide, by decide⟩ ⟨by decide, by decide⟩
      ⟨by decide, by decide⟩
      (by
        intro i hi
        rw [← matchHere_bboxRe_iff, not_not]
        have hi' : i < 2 := hi
        interval_cases i <;> decide)
      (by decide)).2.1 (by decide) (by decide) (by decide) (by decide),
    by decide, by decide, by decide⟩

/-- Counterexample for C19 as stated.  The title
`bbox 1 2 3 99999999999999999999; bbox 5 6 7 8` has two bbox tokens, one at its
start and one at position 33; the leftmost one is `bbox 1 2 3
99999999999999999999`, whose fourth number is above the largest `int`.
`BoxCoords` returns `(1, 2, 3, 0)` with a range error: neither the coordinates
of the leftmost token nor those of the later one. -/
theorem BoxCoords_first_match_out_of_range :
    (BBoxAt ("bbox 1 2 3 99999999999999999999; bbox 5 6 7 8".toList.drop 0)
      ∧ BBoxAt ("bbox 1 2 3 99999999999999999999; bbox 5 6 7 8".toList.drop 33))
    ∧ "bbox 1 2 3 99999999999999999999; bbox 5 6 7 8".toList
        = [] ++ (bboxToken "1".toList "2".toList "3".toList "99999999999999999999".toList
            ++ "; bbox 5 6 7 8".toList)
    ∧ (digitsVal "99999999999999999999".toList = 99999999999999999999
      ∧ maxInt < 99999999999999999999)
    ∧ BoxCoords "bbox 1 2 3 99999999999999999999; bbox 5 6 7 8".toList
        = Run.done ([1, 2, 3, 0], some GoError.rangeError)
    ∧ BoxCoords "bbox 1 2 3 99999999999999999999; bbox 5 6 7 8".toList
        ≠ Run.done ([1, 2, 3, 99999999999999999999], none)
    ∧ ¬ ∀ (pre post g1 g2 g3 g4 : GoString),
        IsDigits g1 → IsDigits g2 → IsDigits g3 → IsDigits g4 →
        (∀ i, i < pre.length →
          ¬ BBoxAt ((pre ++ (bboxToken g1 g2 g3 g4 ++ post)).drop i)) →
        (∀ c, post.head? = some c → isDigit c = false) →
        HasBBox post →
        BoxCoords (pre ++ (bboxToken g1 g2 g3 g4 ++ post))
          = Run.done ([(digitsVal g1 : Int), (digitsVal g2 : Int), (digitsVal g3 : Int),
              (digitsVal g4 : Int)], none) := by
  refine ⟨⟨(matchHere_bboxRe_iff _).mp (by decide), (matchHere_bboxRe_iff _).mp (by decide)⟩,
    by decide, ⟨by decide, by decide⟩, by decide, by decide, ?_⟩
  intro h
  have := h [] "; bbox 5 6 7 8".toList "1".toList "2".toList "3".toList
    "99999999999999999999".toList
    ⟨by decide, by decide⟩ ⟨by decide, by decide⟩ ⟨by decide, by decide⟩
    ⟨by decide, by decide⟩ (by intro i hi; exact absurd hi (Nat.not_lt_zero i)) (by decide)
    ((HasBBox_iff _).mpr (by decide))
  revert this
  decide

end GoHocr
